import Mathlib

/-!
Verification of the purgatory hierarchical dependency-graph engine
(`purgatory/graph/{member,edge,or_edge,node,graph}.py`, latest revision) and
of the dpkg ingestion driver phase 1 (`purgatory/dpkg_graph/dpkg_graph.py`).

The embedding is a shallow one:

* the frozen topology (`Topo`) captures the data that is immutable after
  `Graph.__init__` returns: the node uids, and for every edge its uid, its
  `from_node`, its `to_node` and whether it is an `OrEdge`;
* the mutable state (`St`) captures every field that the engine mutates after
  the freeze: the `deleted` flags, the `deleted_nodes` / `deleted_edges` sets,
  the two graph-wide cache-level counters, and per node the lazily
  materialized live projections (`*_without_deleted` plus the `touched`
  flags), the recursive-closure caches of the outgoing direction with their
  static / default / dynamic metadata, and the cycle caches;
* uids are represented by natural numbers; Python `set`s become `Finset Nat`.
  Python iterates sets in an unspecified order; every loop of the source is
  embedded with a fixed deterministic order (smallest element first, or the
  LIFO order of `dict.popitem` where the source uses an ordered dict), which
  refines the source's arbitrary order.
* `while` loops and the mutual recursion of `Node.mark_deleted` /
  `Edge.mark_deleted` are embedded with an explicit fuel argument; the
  API-level wrappers pass a fuel that is far larger than the recursion depth
  the source can reach, and the theorems below never depend on the
  fuel-exhaustion branches.
* edge probabilities are embedded as rationals.  Every probability the engine
  computes is of the form `1 / n`, so rational arithmetic represents the
  Python float computations exactly at the scales the comparisons against
  `EPSILON = 1e-5` discriminate.
-/

namespace Purgatory

/-- `EPSILON` from `purgatory/graph/const.py`. -/
def epsilon : ℚ := 1 / 100000

/-- `1 / k` as a rational in constructor form, so that concrete runs reduce
inside the kernel.  `k = 0` cannot occur for `OrEdge.probability`: while an
`OrEdge` is live it is an element of its from-node's live outgoing edge
set. -/
def oneOver (k : Nat) : ℚ :=
  if h : k = 0 then 0
  else ⟨1, k, h, Nat.coprime_one_left k⟩

/-- `probability < 1.0` as the source writes it. -/
def ltOne (p : ℚ) : Prop := p < 1

/-- Decide `ltOne` on the numerator and denominator (kernel friendly). -/
instance ltOne.dec (p : ℚ) : Decidable (ltOne p) :=
  decidable_of_iff (p.num < (p.den : Int)) (by
    have hden : (0:ℚ) < (p.den : ℚ) := by exact_mod_cast p.pos
    simp only [ltOne]
    constructor
    · intro h
      have h2 : (p.num : ℚ) < (p.den : ℚ) := by exact_mod_cast h
      calc p = (p.num : ℚ) / (p.den : ℚ) := (Rat.num_div_den p).symm
        _ < 1 := by rw [div_lt_one hden]; exact h2
    · intro h
      have h2 : (p.num : ℚ) / (p.den : ℚ) < 1 := by rw [Rat.num_div_den p]; exact h
      rw [div_lt_one hden] at h2
      exact_mod_cast h2)

/-- `abs(probability - 1.0) < EPSILON` as the source writes it. -/
def nearOne (p : ℚ) : Prop := |p - 1| < epsilon

/-- Decide `nearOne` on the numerator and denominator (kernel friendly). -/
instance nearOne.dec (p : ℚ) : Decidable (nearOne p) :=
  decidable_of_iff (100000 * |p.num - (p.den : Int)| < (p.den : Int)) (by
    have hden : (0:ℚ) < (p.den : ℚ) := by exact_mod_cast p.pos
    have h1 : p - 1 = ((p.num - (p.den : Int) : Int) : ℚ) / (p.den : ℚ) := by
      push_cast
      rw [sub_div, Rat.num_div_den, div_self (ne_of_gt hden)]
    simp only [nearOne, epsilon]
    rw [h1, abs_div, abs_of_pos hden,
      div_lt_div_iff₀ hden (by norm_num : (0:ℚ) < 100000)]
    rw [← Int.cast_abs, one_mul, mul_comm]
    constructor
    · intro h; exact_mod_cast h
    · intro h; exact_mod_cast h)

/-- The frozen data of one edge: its uid, `from_node`, `to_node` and whether
it is an `OrEdge` (`or_edge.py`) rather than a plain `Edge` (`edge.py`). -/
structure EdgeT where
  eid : Nat
  src : Nat
  dst : Nat
  isOr : Bool
deriving DecidableEq, Repr

/-- The frozen topology of a graph: the node uids and the edge list, as they
are after `Graph.__init__` froze `self._nodes`, `self._edges` and every
node's incoming/outgoing sets. -/
structure Topo where
  nodeIds : Finset Nat
  edges : List EdgeT
deriving DecidableEq

namespace Topo

/-- Edge lookup by uid. -/
def edge? (t : Topo) (eid : Nat) : Option EdgeT :=
  t.edges.find? (fun e => e.eid = eid)

/-- The frozen `node._incoming_edges` set. -/
def rawIncE (t : Topo) (n : Nat) : Finset Nat :=
  ((t.edges.filter (fun e => e.dst = n)).map (fun e => e.eid)).toFinset

/-- The frozen `node._incoming_nodes` set. -/
def rawIncN (t : Topo) (n : Nat) : Finset Nat :=
  ((t.edges.filter (fun e => e.dst = n)).map (fun e => e.src)).toFinset

/-- The frozen `node._outgoing_edges` set. -/
def rawOutE (t : Topo) (n : Nat) : Finset Nat :=
  ((t.edges.filter (fun e => e.src = n)).map (fun e => e.eid)).toFinset

/-- The frozen `node._outgoing_nodes` set. -/
def rawOutN (t : Topo) (n : Nat) : Finset Nat :=
  ((t.edges.filter (fun e => e.src = n)).map (fun e => e.dst)).toFinset

/-- Truthiness of the tri-state `node._outgoing_or_edges` flag: `None` (no
outgoing edges) and `False` are both falsy in the source, so under the
homogeneity invariant the flag is truthy iff some outgoing edge is an
`OrEdge`. -/
def outgoingOrEdges (t : Topo) (n : Nat) : Bool :=
  t.edges.any (fun e => e.src = n && e.isOr)

/-- Well-formedness of a frozen graph: distinct edge uids, endpoints
registered in the node map (invariant 1 of the spec), and homogeneous
outgoing edge variants (invariant 2, enforced by
`Node._add_outgoing_edge`). -/
def WF (t : Topo) : Prop :=
  (t.edges.map (fun e => e.eid)).Nodup ∧
  (∀ e ∈ t.edges, e.src ∈ t.nodeIds ∧ e.dst ∈ t.nodeIds) ∧
  (∀ e ∈ t.edges, ∀ f ∈ t.edges, e.src = f.src → e.isOr = f.isOr)

instance (t : Topo) : Decidable t.WF := by
  unfold WF; infer_instance

end Topo

/-- The mutable per-node state: the `deleted` flag (`Member._deleted`), the
lazily materialized live projections with their `touched` flags, the
incoming-recursive cache metadata, the three-tier outgoing-recursive cache,
and the cycle caches (`Node.__init__`). -/
structure NodeSt where
  deleted : Bool := false
  incEWD : Option (Finset Nat) := none
  incNWD : Option (Finset Nat) := none
  incTouched : Bool := false
  inrInvalidAt : Nat := 0
  outEWD : Option (Finset Nat) := none
  outNWD : Option (Finset Nat) := none
  outTouched : Bool := false
  onrCache : Option (Finset Nat) := none
  onrDefault : Option (Finset Nat) := none
  onrDefaultCL : Nat := 0
  onrStatic : Bool := false
  onrCL : Nat := 0
  onrBuiltAt : Nat := 0
  onrInvalidAt : Nat := 0
  inCycleStatic : Option Bool := none
  cycleNodesStatic : Option (Finset Nat) := none
  cycleCache : Option (Finset Nat) := none
  cycleBuiltAt : Nat := 0
deriving DecidableEq

/-- The mutable graph state: per-node states, per-edge `deleted` flags, the
graph's deleted sets and the two cache-level counters (`Graph.__init__`). -/
structure St where
  node : Nat → NodeSt
  edgeDeleted : Nat → Bool
  deletedNodes : Finset Nat
  deletedEdges : Finset Nat
  inCL : Nat
  outCL : Nat

/-- The pristine state right after the graph freeze. -/
def St.init : St :=
  { node := fun _ => {}
    edgeDeleted := fun _ => false
    deletedNodes := ∅
    deletedEdges := ∅
    inCL := 0
    outCL := 0 }

/-- Point update of one node's state. -/
def St.updNode (s : St) (n : Nat) (f : NodeSt → NodeSt) : St :=
  { s with node := fun i => if i = n then f (s.node i) else s.node i }

/-- Point update of one edge's `deleted` flag. -/
def St.setEdgeDeleted (s : St) (eid : Nat) (b : Bool) : St :=
  { s with edgeDeleted := fun i => if i = eid then b else s.edgeDeleted i }

@[simp] theorem St.updNode_node_same (s : St) (n : Nat) (f : NodeSt → NodeSt) :
    (s.updNode n f).node n = f (s.node n) := by
  simp [St.updNode]

@[simp] theorem St.updNode_node_other (s : St) (n m : Nat) (f : NodeSt → NodeSt)
    (h : m ≠ n) : (s.updNode n f).node m = s.node m := by
  simp [St.updNode, h]

/-!  ## Deterministic iteration order

Python iterates sets in an unspecified order; the embedding iterates them in
ascending uid order via `sortFin`, an insertion sort over the underlying
multiset (chosen over `Finset.sort` so that concrete runs reduce inside the
kernel). -/

/-- Insert into an ascending list. -/
def insNat (x : Nat) : List Nat → List Nat
  | [] => [x]
  | y :: rest => if x ≤ y then x :: y :: rest else y :: insNat x rest

theorem insNat_left_comm (a b : Nat) (l : List Nat) :
    insNat a (insNat b l) = insNat b (insNat a l) := by
  induction l with
  | nil =>
      by_cases hab : a ≤ b
      · by_cases hba : b ≤ a
        · have h : a = b := le_antisymm hab hba
          subst h; rfl
        · simp [insNat, hab, hba]
      · simp [insNat, hab, le_of_not_le hab]
  | cons y rest ih =>
      by_cases ha : a ≤ y <;> by_cases hb : b ≤ y
      · by_cases hab : a ≤ b
        · by_cases hba : b ≤ a
          · have h : a = b := le_antisymm hab hba
            subst h; rfl
          · simp [insNat, ha, hb, hab, hba]
        · simp [insNat, ha, hb, hab, le_of_not_le hab]
      · have hab : a ≤ b := le_trans ha (le_of_not_le hb)
        have hba : ¬ b ≤ a := fun h => hb (le_trans h ha)
        simp [insNat, ha, hb, hab, hba]
      · have hba : b ≤ a := le_trans hb (le_of_not_le ha)
        have hab : ¬ a ≤ b := fun h => ha (le_trans h hb)
        simp [insNat, ha, hb, hab, hba]
      · simp [insNat, ha, hb, ih]

instance : LeftCommutative insNat := ⟨insNat_left_comm⟩

/-- Ascending list of the elements of a finset. -/
def sortFin (s : Finset Nat) : List Nat :=
  Multiset.foldr insNat [] s.val

/-!  ## Live projections (`Node.incoming_edges` etc.)

The four `Node.{incoming,outgoing}_{edges,nodes}` properties materialize the
`*_without_deleted` cache set from the frozen raw set on first access and
return it.  The `DeletedMemberInUse` guard of the source is modelled at the
call sites: every caller in the source only reads these properties on nodes
it has just checked to be live, and the embedded algorithms perform the same
check before calling these functions.  -/

/-- `Node.incoming_edges` (without the deleted-member guard, see above). -/
def incoming_edges (t : Topo) (s : St) (n : Nat) : Finset Nat × St :=
  match (s.node n).incEWD with
  | some v => (v, s)
  | none =>
      let v := t.rawIncE n
      (v, s.updNode n (fun ns => { ns with incEWD := some v }))

/-- `Node.incoming_nodes`. -/
def incoming_nodes (t : Topo) (s : St) (n : Nat) : Finset Nat × St :=
  match (s.node n).incNWD with
  | some v => (v, s)
  | none =>
      let v := t.rawIncN n
      (v, s.updNode n (fun ns => { ns with incNWD := some v }))

/-- `Node.outgoing_edges`. -/
def outgoing_edges (t : Topo) (s : St) (n : Nat) : Finset Nat × St :=
  match (s.node n).outEWD with
  | some v => (v, s)
  | none =>
      let v := t.rawOutE n
      (v, s.updNode n (fun ns => { ns with outEWD := some v }))

/-- `Node.outgoing_nodes`. -/
def outgoing_nodes (t : Topo) (s : St) (n : Nat) : Finset Nat × St :=
  match (s.node n).outNWD with
  | some v => (v, s)
  | none =>
      let v := t.rawOutN n
      (v, s.updNode n (fun ns => { ns with outNWD := some v }))

/-- `Edge.probability` / `OrEdge.probability`: a plain `Edge` has constant
probability `1.0`; an `OrEdge` returns `1 / len(self.from_node.
outgoing_edges)`, which materializes the from-node's live outgoing edge
view as a side effect. -/
def probability (t : Topo) (s : St) (e : EdgeT) : ℚ × St :=
  if e.isOr then
    let r := outgoing_edges t s e.src
    (oneOver r.1.card, r.2)
  else (1, s)

/-!  ## Cascading delete (`Edge.mark_deleted`, `Node.mark_deleted`)

The source's mutual recursion terminates because an edge sets its `deleted`
flag before recursing and a node's re-entrant calls are cut off by already
deleted edges.  The embedding makes the same recursion structural on a fuel
counter; the wrappers pass more fuel than the recursion can consume. -/

/-- Step (i) of `Edge.mark_deleted`: set the edge's `deleted` flag and
insert it into `graph.deleted_edges`. -/
def em_flag (e : EdgeT) (s : St) : St :=
  { s.setEdgeDeleted e.eid true with deletedEdges := insert e.eid s.deletedEdges }

/-- Step (ii) of `Edge.mark_deleted`: remove the edge from the to-node's
live incoming-edge view and its from-node from the to-node's live
incoming-node view (materializing from the raw sets minus the removed
element when a view was not yet materialized), and mark the to-node
incoming-touched. -/
def em_inc (t : Topo) (e : EdgeT) (s : St) : St :=
  s.updNode e.dst (fun ns =>
    { ns with
      incEWD := some ((ns.incEWD.getD (t.rawIncE e.dst)).erase e.eid)
      incNWD := some ((ns.incNWD.getD (t.rawIncN e.dst)).erase e.src)
      incTouched := true })

/-- Step (iii) of `Edge.mark_deleted`: bump the graph's incoming cache level
and stamp the from-node's incoming-recursive invalidation level. -/
def em_inc_lvl (e : EdgeT) (s : St) : St :=
  let s4 := { s with inCL := s.inCL + 1 }
  s4.updNode e.src (fun ns => { ns with inrInvalidAt := s4.inCL })

/-- Step (iv) of `Edge.mark_deleted` (probability `< 1.0` only): the
symmetric outgoing-view updates on the from-node, the outgoing cache-level
bump and the from-node's outgoing-recursive invalidation stamp. -/
def em_out (t : Topo) (e : EdgeT) (s : St) : St :=
  let s6a := s.updNode e.src (fun ns =>
    { ns with
      outEWD := some ((ns.outEWD.getD (t.rawOutE e.src)).erase e.eid)
      outNWD := some ((ns.outNWD.getD (t.rawOutN e.src)).erase e.dst)
      outTouched := true })
  let s6b := { s6a with outCL := s6a.outCL + 1 }
  s6b.updNode e.src (fun ns => { ns with onrInvalidAt := s6b.outCL })

mutual

/-- `Edge.mark_deleted` (`edge.py`).  Steps (i)-(v) of the source: read the
probability (which materializes the from-node's live outgoing edge view for
an `OrEdge`), flag the edge, update the to-node's live incoming views,
invalidate the incoming-recursive caches, do the outgoing updates when the
probability is `< 1.0`, and cascade into `from_node.mark_deleted()` when
the probability is within `EPSILON` of `1.0`. -/
def edge_mark_deleted (t : Topo) : Nat → EdgeT → St → St
  | 0, _, s => s
  | fuel + 1, e, s =>
      if s.edgeDeleted e.eid then s
      else
        let p := (probability t s e).1
        let s5 := em_inc_lvl e (em_inc t e (em_flag e (probability t s e).2))
        let s6 := if ltOne p then em_out t e s5 else s5
        if nearOne p then node_mark_deleted t fuel e.src s6 else s6

/-- `Node.mark_deleted` (`node.py`): snapshot the live incoming and outgoing
edge views, mark each snapshotted edge deleted, then set the node's own
`deleted` flag and insert it into `graph.deleted_nodes`. -/
def node_mark_deleted (t : Topo) : Nat → Nat → St → St
  | 0, _, s => s
  | fuel + 1, n, s =>
      if (s.node n).deleted then s
      else
        let ie := (incoming_edges t s n).1
        let s1 := (incoming_edges t s n).2
        let oe := (outgoing_edges t s1 n).1
        let s2 := (outgoing_edges t s1 n).2
        let s3 := edges_mark_deleted t fuel (sortFin ie) s2
        let s4 := edges_mark_deleted t fuel (sortFin oe) s3
        { s4.updNode n (fun ns => { ns with deleted := true }) with
          deletedNodes := insert n s4.deletedNodes }

/-- The `for edge in ...: edge.mark_deleted()` loops of `Node.mark_deleted`,
iterating a snapshot in ascending uid order. -/
def edges_mark_deleted (t : Topo) : Nat → List Nat → St → St
  | _, [], s => s
  | 0, _ :: _, s => s
  | fuel + 1, eid :: rest, s =>
      match t.edge? eid with
      | none => edges_mark_deleted t fuel rest s
      | some e => edges_mark_deleted t fuel rest (edge_mark_deleted t fuel e s)

end

/-- Generous fuel bound for a topology: far more than the nesting depth any
cascade or worklist of the source can reach on that topology. -/
def fuelOf (t : Topo) : Nat :=
  (t.nodeIds.card + t.edges.length + 2) ^ 3

/-- `Graph.unmark_deleted` (`graph.py`): bump both cache levels, clear every
deleted node flag and empty `deleted_nodes`, then for every deleted edge
clear its flag and reset the touched live views of its endpoints, stamping
the corresponding recursive-cache invalidation levels; finally empty
`deleted_edges`. -/
def unmark_deleted (t : Topo) (s : St) : St :=
  let s1 := { s with inCL := s.inCL + 1, outCL := s.outCL + 1 }
  let gin := s1.inCL
  let gout := s1.outCL
  let s2 := (sortFin s1.deletedNodes).foldl
    (fun acc n => acc.updNode n (fun ns => { ns with deleted := false })) s1
  let s3 := { s2 with deletedNodes := ∅ }
  let s4 := (sortFin s3.deletedEdges).foldl
    (fun acc eid =>
      let acc1 := acc.setEdgeDeleted eid false
      match t.edge? eid with
      | none => acc1
      | some e =>
          let acc2 :=
            if (acc1.node e.dst).incTouched then
              acc1.updNode e.dst (fun ns =>
                { ns with
                  incTouched := false
                  incEWD := none
                  incNWD := none
                  inrInvalidAt := gin })
            else acc1
          if (acc2.node e.src).outTouched then
            acc2.updNode e.src (fun ns =>
              { ns with
                outTouched := false
                outEWD := none
                outNWD := none
                onrInvalidAt := gout })
          else acc2) s3
  { s4 with deletedEdges := ∅ }

/-- A graph member as handed to `Graph.mark_members_deleted`: a node or edge
uid together with the uid of the graph it is registered in. -/
structure GMember where
  isNode : Bool
  mid : Nat
  gid : Nat
deriving DecidableEq, Repr

/-- Errors of the graph layer that the embedded API surfaces. -/
inductive GraphErr
  | notMemberOfGraph
deriving DecidableEq, Repr

/-- `Member.mark_deleted` dispatch on the member variant. -/
def member_mark_deleted (t : Topo) (fuel : Nat) (m : GMember) (s : St) : St :=
  if m.isNode then node_mark_deleted t fuel m.mid s
  else
    match t.edge? m.mid with
    | some e => edge_mark_deleted t fuel e s
    | none => s

/-- `Graph.mark_members_deleted` (`graph.py`): iterate the given members in
order, raising `NotMemberOfGraphError` on the first member owned by another
graph and calling `mark_deleted` on each earlier member.  The state at the
moment the error is raised is returned alongside the error. -/
def mark_members_deleted (t : Topo) (gid : Nat) (fuel : Nat) :
    List GMember → St → St × Option GraphErr
  | [], s => (s, none)
  | m :: rest, s =>
      if m.gid ≠ gid then (s, some GraphErr.notMemberOfGraph)
      else mark_members_deleted t gid fuel rest (member_mark_deleted t fuel m s)

/-!  ## Recursive outgoing closure with the three cache tiers

Mirrors `Node._outgoing_nodes_recursive_get_cache`,
`Node._determine_outgoing_nodes_recursive`, the two-stage
`Node._outgoing_nodes_recursive` property, `Node.in_cycle`,
`Node.cycle_nodes` and `Node.incoming_cycle_nodes` from `node.py`. -/

/-- The three cache result types of `node.py`
(`DynamicCacheResult` / `StaticCacheResult` / `DefaultCacheResult`). -/
inductive RType
  | dynamic
  | static
  | default
deriving DecidableEq, Repr

/-- `Node._outgoing_nodes_recursive_get_cache`.  Python's `if default_onrc:`
is a truthiness test, so an empty default cache behaves like an absent
one. -/
def onr_get_cache (t : Topo) (s : St) (n : Nat) (graphCl : Nat) :
    (Option (Finset Nat) × RType) × St :=
  let ns := s.node n
  match ns.onrCache with
  | none => ((none, RType.dynamic), s)
  | some onrc =>
      if ns.onrStatic then ((some onrc, RType.static), s)
      else
        let dflt := ns.onrDefault.getD ∅
        if dflt ≠ ∅ ∧ ns.onrDefaultCL = graphCl then ((some dflt, RType.default), s)
        else if ns.onrCL = graphCl then ((some onrc, RType.dynamic), s)
        else
          let outN := (outgoing_nodes t s n).1
          let s1 := (outgoing_nodes t s n).2
          if dflt ≠ ∅ ∧
              ∀ m ∈ insert n (outN ∪ dflt), (s1.node m).outTouched = false then
            ((some dflt, RType.default),
              s1.updNode n (fun ns2 => { ns2 with onrDefaultCL := graphCl }))
          else
            let selfBuilt := ns.onrBuiltAt
            if ∀ m ∈ insert n (outN ∪ onrc),
                (s1.node m).onrStatic = true ∨
                  ((s1.node m).onrInvalidAt ≤ (s1.node m).onrBuiltAt ∧
                    (s1.node m).onrBuiltAt ≤ selfBuilt) then
              ((some onrc, RType.dynamic),
                s1.updNode n (fun ns2 => { ns2 with onrCL := graphCl }))
            else ((none, RType.dynamic), s1)

/-- Loop state of the worklist in `Node._determine_outgoing_nodes_recursive`. -/
structure OnrLoopSt where
  toVisit : Finset Nat
  visited : Finset Nat
  acc : Finset Nat
  static : Bool
  dflt : Bool
  st : St

/-- The `for cn in to_check:` inner loop of
`Node._determine_outgoing_nodes_recursive`, iterating in ascending uid
order. -/
def onr_children_fold (t : Topo) (graphCl : Nat) :
    List Nat → OnrLoopSt → OnrLoopSt
  | [], l => l
  | cn :: rest, l =>
      let res := (onr_get_cache t l.st cn graphCl).1
      let s1 := (onr_get_cache t l.st cn graphCl).2
      match res.1 with
      | none =>
          onr_children_fold t graphCl rest
            { l with st := s1, toVisit := insert cn l.toVisit }
      | some onrc =>
          onr_children_fold t graphCl rest
            { toVisit := l.toVisit \ onrc
              visited := l.visited ∪ onrc
              acc := l.acc ∪ onrc
              static := l.static && decide (res.2 = RType.static)
              dflt := l.dflt &&
                (decide (res.2 = RType.default) || decide (res.2 = RType.static))
              st := s1 }

/-- The `while to_visit:` worklist of
`Node._determine_outgoing_nodes_recursive`, popping the smallest uid. -/
def onr_determine_loop (t : Topo) (graphCl : Nat) :
    Nat → OnrLoopSt → OnrLoopSt
  | 0, l => l
  | fuel + 1, l =>
      match l.toVisit.min with
      | none => l
      | some nd =>
          let l1 := { l with toVisit := l.toVisit.erase nd }
          if nd ∈ l1.visited then onr_determine_loop t graphCl fuel l1
          else
            let l2 := { l1 with
              visited := insert nd l1.visited
              static := l1.static && ! t.outgoingOrEdges nd
              dflt := l1.dflt && ! (l1.st.node nd).outTouched }
            let outN := (outgoing_nodes t l2.st nd).1
            let s1 := (outgoing_nodes t l2.st nd).2
            let l3 := { l2 with acc := l2.acc ∪ outN, st := s1 }
            let toCheck := sortFin (outN \ l3.visited)
            onr_determine_loop t graphCl fuel (onr_children_fold t graphCl toCheck l3)

/-- `Node._determine_outgoing_nodes_recursive`: run the worklist, cache the
result and classify it as static / default / dynamic. -/
def onr_determine (t : Topo) (graphCl fuel : Nat) (n : Nat) (s : St) :
    (Finset Nat × RType) × St :=
  let l := onr_determine_loop t graphCl fuel
    { toVisit := {n}, visited := ∅, acc := ∅, static := true, dflt := true, st := s }
  let s1 := l.st.updNode n (fun ns =>
    { ns with onrCache := some l.acc, onrStatic := l.static })
  if l.static then ((l.acc, RType.static), s1)
  else if l.dflt then
    ((l.acc, RType.default),
      s1.updNode n (fun ns =>
        { ns with onrDefault := some l.acc, onrDefaultCL := graphCl }))
  else
    ((l.acc, RType.dynamic),
      s1.updNode n (fun ns =>
        { ns with onrCL := graphCl, onrBuiltAt := graphCl }))

/-- Update-or-append into the ordered dict that models Python's insertion
ordered `dict` (updating an existing key keeps its position). -/
def upsert (k v : Nat) : List (Nat × Nat) → List (Nat × Nat)
  | [] => [(k, v)]
  | (k1, v1) :: rest =>
      if k1 = k then (k, v) :: rest else (k1, v1) :: upsert k v rest

/-- Stable insertion (descending in the second component) used to model
`sorted(missing_cache, key=missing_cache.get, reverse=True)`. -/
def insertDesc (x : Nat × Nat) : List (Nat × Nat) → List (Nat × Nat)
  | [] => [x]
  | y :: rest => if x.2 ≥ y.2 then x :: y :: rest else y :: insertDesc x rest

/-- Stable sort, descending in the second component. -/
def sortDesc (l : List (Nat × Nat)) : List (Nat × Nat) :=
  l.foldr insertDesc []

/-- Loop state of stage 1 of the two-stage `Node._outgoing_nodes_recursive`
property. -/
structure OnrOuterSt where
  toVisit : List (Nat × Nat)
  visited : Finset Nat
  missing : List (Nat × Nat)
  last : Option (Finset Nat) × RType
  st : St

/-- Stage 1 of `Node._outgoing_nodes_recursive`: collect the nodes whose
cache is missing together with their BFS distance.  `dict.popitem` pops the
most recently inserted key (LIFO). -/
def onr_outer_loop (t : Topo) (graphCl : Nat) :
    Nat → OnrOuterSt → OnrOuterSt
  | 0, l => l
  | fuel + 1, l =>
      match l.toVisit.getLast? with
      | none => l
      | some (nd, dist) =>
          let l1 := { l with toVisit := l.toVisit.dropLast }
          if nd ∈ l1.visited then onr_outer_loop t graphCl fuel l1
          else
            let l2 := { l1 with visited := insert nd l1.visited }
            let res := (onr_get_cache t l2.st nd graphCl).1
            let s1 := (onr_get_cache t l2.st nd graphCl).2
            match res.1 with
            | some _ => onr_outer_loop t graphCl fuel { l2 with st := s1, last := res }
            | none =>
                let outN := (outgoing_nodes t s1 nd).1
                let s2 := (outgoing_nodes t s1 nd).2
                let tv := (sortFin outN).foldl
                  (fun acc c => upsert c (dist + 1) acc) l2.toVisit
                onr_outer_loop t graphCl fuel
                  { toVisit := tv
                    visited := l2.visited
                    missing := l2.missing ++ [(nd, dist)]
                    last := res
                    st := s2 }

/-- The two-stage `Node._outgoing_nodes_recursive` property: stage 1
collects the cache-missing nodes, stage 2 recomputes them deepest first and
returns the last (distance 0 = this node) result. -/
def outgoing_nodes_recursive_rt (t : Topo) (fuel : Nat) (n : Nat) (s : St) :
    (Option (Finset Nat) × RType) × St :=
  let graphCl := s.outCL
  let l := onr_outer_loop t graphCl fuel
    { toVisit := [(n, 0)], visited := ∅, missing := [],
      last := (none, RType.dynamic), st := s }
  match l.missing with
  | [] => (l.last, l.st)
  | _ =>
      (sortDesc l.missing).foldl
        (fun (acc : (Option (Finset Nat) × RType) × St) p =>
          let r := onr_determine t graphCl fuel p.1 acc.2
          ((some r.1.1, r.1.2), r.2))
        (l.last, l.st)

/-- `Node.outgoing_nodes_recursive` (result type discarded; the
deleted-member guard is modelled at the call sites). -/
def outgoing_nodes_recursive (t : Topo) (fuel : Nat) (n : Nat) (s : St) :
    Finset Nat × St :=
  let r := outgoing_nodes_recursive_rt t fuel n s
  (r.1.1.getD ∅, r.2)

/-- `Node.in_cycle`: static cache, then the no-incoming and shared-2-cycle
short cuts (memoizing a static `True` for or-free shared cycles), then the
recursive-closure membership test with static/default memoization. -/
def in_cycle (t : Topo) (fuel : Nat) (n : Nat) (s : St) : Bool × St :=
  match (s.node n).inCycleStatic with
  | some b => (b, s)
  | none =>
      let incN := (incoming_nodes t s n).1
      let s1 := (incoming_nodes t s n).2
      if incN = ∅ then (false, s1)
      else
        let outN := (outgoing_nodes t s1 n).1
        let s2 := (outgoing_nodes t s1 n).2
        let shared := outN ∩ incN
        if shared ≠ ∅ then
          let s3 :=
            if ! t.outgoingOrEdges n then
              if ∀ m ∈ shared, t.outgoingOrEdges m = false then
                (sortFin shared).foldl
                  (fun acc m =>
                    acc.updNode m (fun ns => { ns with inCycleStatic := some true }))
                  (s2.updNode n (fun ns => { ns with inCycleStatic := some true }))
              else s2
            else s2
          (true, s3)
        else
          let res := (outgoing_nodes_recursive_rt t fuel n s2).1
          let s3 := (outgoing_nodes_recursive_rt t fuel n s2).2
          let onrs := res.1.getD ∅
          let inc : Bool := n ∈ onrs
          let s4 :=
            if res.2 = RType.static then
              s3.updNode n (fun ns => { ns with inCycleStatic := some inc })
            else if res.2 = RType.default ∧ inc = false then
              s3.updNode n (fun ns => { ns with inCycleStatic := some false })
            else s3
          (inc, s4)

/-- The backward walk of `Node.cycle_nodes`, restricted to the nodes of the
outgoing recursive set, popping the smallest uid. -/
def cycle_walk (t : Topo) (onrs : Finset Nat) :
    Nat → Finset Nat → Finset Nat → Finset Nat → St → Finset Nat × St
  | 0, _, _, cyc, s => (cyc, s)
  | fuel + 1, toVisit, visited, cyc, s =>
      match toVisit.min with
      | none => (cyc, s)
      | some nd =>
          let tv := toVisit.erase nd
          let vis := insert nd visited
          let incN := (incoming_nodes t s nd).1
          let s1 := (incoming_nodes t s nd).2
          let icn := incN ∩ onrs
          cycle_walk t onrs fuel ((tv ∪ icn) \ vis) vis (cyc ∪ icn) s1

/-- `Node.cycle_nodes`: static cache, dynamic cache keyed to the outgoing
cache level, else the backward walk over `incoming_nodes ∩ onrs` with the
static memoization for or-free cycles. -/
def cycle_nodes (t : Topo) (fuel : Nat) (n : Nat) (s : St) : Finset Nat × St :=
  match (s.node n).cycleNodesStatic with
  | some c => (c, s)
  | none =>
      let graphCl := s.outCL
      match (s.node n).cycleCache with
      | some c =>
          if (s.node n).cycleBuiltAt = graphCl then (c, s)
          else cycle_nodes_compute t fuel graphCl n s
      | none => cycle_nodes_compute t fuel graphCl n s
where
  /-- The computation branch of `Node.cycle_nodes`. -/
  cycle_nodes_compute (t : Topo) (fuel graphCl : Nat) (n : Nat) (s : St) :
      Finset Nat × St :=
    let res := (outgoing_nodes_recursive_rt t fuel n s).1
    let s1 := (outgoing_nodes_recursive_rt t fuel n s).2
    let onrs := res.1.getD ∅
    if n ∉ onrs then (∅, s1)
    else
      let cyc := (cycle_walk t onrs fuel {n} ∅ ∅ s1).1
      let s2 := (cycle_walk t onrs fuel {n} ∅ ∅ s1).2
      let staticQ : Bool :=
        if res.2 ≠ RType.static then decide (∀ m ∈ cyc, t.outgoingOrEdges m = false)
        else true
      let s3 :=
        if staticQ then
          (sortFin cyc).foldl
            (fun acc m =>
              acc.updNode m (fun ns =>
                { ns with inCycleStatic := some true, cycleNodesStatic := some cyc }))
            s2
        else s2
      let s4 := s3.updNode n (fun ns =>
        { ns with cycleCache := some cyc, cycleBuiltAt := graphCl })
      (cyc, s4)

/-- `Node.incoming_cycle_nodes`: the union of the live incoming nodes of all
cycle members, minus the cycle members themselves. -/
def incoming_cycle_nodes (t : Topo) (fuel : Nat) (n : Nat) (s : St) :
    Finset Nat × St :=
  let cyc := (cycle_nodes t fuel n s).1
  let s1 := (cycle_nodes t fuel n s).2
  let folded := (sortFin cyc).foldl
    (fun (p : Finset Nat × St) m =>
      (p.1 ∪ (incoming_nodes t p.2 m).1, (incoming_nodes t p.2 m).2))
    (∅, s1)
  (folded.1 \ cyc, folded.2)

/-!  ## `Graph.leafs`, `Graph.leafs_flat` -/

/-- Stage 1 of `Graph.leafs`: emit singleton leafs (no incoming edges) and
defer the rest to stage 2, discarding everything below a leaf.  Returns the
stage-2 work set, the emitted leaf sets and the state. -/
def leafs_stage1 (t : Topo) :
    Nat → Finset Nat → Finset Nat → Finset (Finset Nat) → St →
      Finset Nat × Finset (Finset Nat) × St
  | 0, _, stage2, acc, s => (stage2, acc, s)
  | fuel + 1, stage1, stage2, acc, s =>
      match stage1.min with
      | none => (stage2, acc, s)
      | some nd =>
          let st1 := stage1.erase nd
          if (s.node nd).deleted then leafs_stage1 t fuel st1 stage2 acc s
          else
            let ie := (incoming_edges t s nd).1
            let s1 := (incoming_edges t s nd).2
            if ie ≠ ∅ then leafs_stage1 t fuel st1 (insert nd stage2) acc s1
            else
              let onrs := (outgoing_nodes_recursive t fuel nd s1).1
              let s2 := (outgoing_nodes_recursive t fuel nd s1).2
              leafs_stage1 t fuel (st1 \ onrs) (stage2 \ onrs) (insert {nd} acc) s2

/-- Stage 2 of `Graph.leafs`: keep one representative per leaf-cycle
candidate in the stage-3 set, discarding everything below visited nodes. -/
def leafs_stage2 (t : Topo) :
    Nat → Finset Nat → Finset Nat → St → Finset Nat × St
  | 0, _, stage3, s => (stage3, s)
  | fuel + 1, stage2, stage3, s =>
      match stage2.min with
      | none => (stage3, s)
      | some nd =>
          let st2 := stage2.erase nd
          let onrs := (outgoing_nodes_recursive t fuel nd s).1
          let s1 := (outgoing_nodes_recursive t fuel nd s).2
          let ic := (in_cycle t fuel nd s1).1
          let s2 := (in_cycle t fuel nd s1).2
          if ic then leafs_stage2 t fuel (st2 \ onrs) (insert nd (stage3 \ onrs)) s2
          else leafs_stage2 t fuel (st2 \ onrs) (stage3 \ onrs) s2

/-- `Graph.leafs`: the three-stage leaf / leaf-cycle detection. -/
def leafs (t : Topo) (fuel : Nat) (s : St) : Finset (Finset Nat) × St :=
  let r1 := leafs_stage1 t fuel t.nodeIds ∅ ∅ s
  let r2 := leafs_stage2 t fuel r1.1 ∅ r1.2.2
  (sortFin r2.1).foldl
    (fun (p : Finset (Finset Nat) × St) nd =>
      (insert (cycle_nodes t fuel nd p.2).1 p.1, (cycle_nodes t fuel nd p.2).2))
    (r1.2.1, r2.2)

/-- `Graph.leafs_flat`: the union of the sets emitted by `leafs`. -/
def leafs_flat (t : Topo) (fuel : Nat) (s : St) : Finset Nat × St :=
  let r := leafs t fuel s
  (r.1.sup id, r.2)

/-!  ## `Graph.mark_members_including_obsolete_deleted` -/

/-- The inner `while outgoing_nodes:` candidate loop of
`Graph.mark_members_including_obsolete_deleted`: pop candidates (smallest
uid first), skip deleted ones, treat whole cycles as single members, and
collect the obsolete ones into the next `to_process` set. -/
def mmiod_candidates (t : Topo) (allDeleted : Finset Nat) :
    Nat → Finset Nat → Finset Nat → St → Finset Nat × St
  | 0, _, toProcess, s => (toProcess, s)
  | fuel + 1, outgoing, toProcess, s =>
      match outgoing.min with
      | none => (toProcess, s)
      | some nd =>
          let og := outgoing.erase nd
          if (s.node nd).deleted then mmiod_candidates t allDeleted fuel og toProcess s
          else
            let ic := (in_cycle t fuel nd s).1
            let s1 := (in_cycle t fuel nd s).2
            if ic then
              let cyc := (cycle_nodes t fuel nd s1).1
              let s2 := (cycle_nodes t fuel nd s1).2
              let og2 := og \ cyc
              let icn := (incoming_cycle_nodes t fuel nd s2).1
              let s3 := (incoming_cycle_nodes t fuel nd s2).2
              if icn \ allDeleted ≠ ∅ then
                mmiod_candidates t allDeleted fuel og2 toProcess s3
              else
                mmiod_candidates t allDeleted fuel og2 (toProcess ∪ cyc) s3
            else
              if t.rawIncN nd \ allDeleted ≠ ∅ then
                mmiod_candidates t allDeleted fuel og toProcess s1
              else
                mmiod_candidates t allDeleted fuel og (insert nd toProcess) s1

/-- The outer `while to_process:` loop of
`Graph.mark_members_including_obsolete_deleted`. -/
def mmiod_loop (t : Topo) : Nat → Finset Nat → Finset Nat → St → St
  | 0, _, _, s => s
  | fuel + 1, toProcess, prevDeleted, s =>
      if toProcess = ∅ then s
      else
        let s1 := (sortFin toProcess).foldl
          (fun acc m => node_mark_deleted t fuel m acc) s
        let allDeleted := s1.deletedNodes
        let roundDeleted := allDeleted \ prevDeleted
        let outgoing := roundDeleted.sup (fun nd => t.rawOutN nd)
        let tp2 := (mmiod_candidates t allDeleted fuel outgoing ∅ s1).1
        let s2 := (mmiod_candidates t allDeleted fuel outgoing ∅ s1).2
        mmiod_loop t fuel tp2 allDeleted s2

/-- `Graph.mark_members_including_obsolete_deleted`: validate that every
member belongs to this graph (before any mutation), then run the obsolete
propagation.  Members are given as `(node uid, owning graph uid)` pairs. -/
def mark_members_including_obsolete_deleted (t : Topo) (gid fuel : Nat)
    (members : List (Nat × Nat)) (s : St) : St × Option GraphErr :=
  if members.all (fun m => m.2 = gid) then
    (mmiod_loop t fuel (members.map (fun m => m.1)).toFinset s.deletedNodes s, none)
  else (s, some GraphErr.notMemberOfGraph)

/-!  ## dpkg graph construction, phase 1

Model of `DpkgGraph.__init_nodes_and_edges_phase1`
(`purgatory/dpkg_graph/dpkg_graph.py`) together with
`TargetVersionsNode.__init__` and the uid scheme of `DependencyEdge`.
The `try/except` around the `TargetVersionsNode` construction is embedded
exactly as written in the source: when the construction raises
`DependencyIsNotInstalledError` and the dependency kind is not `Recommends`,
the except block falls through without re-raising, so the loop continues
with the *previous* value of the local variable `itvn` (or hits Python's
unbound-local error when no earlier iteration assigned it). -/

/-- The dependency kinds the driver requests from `get_dependencies`. -/
inductive DepKind
  | preDepends
  | depends
  | recommends
deriving DecidableEq, Repr

/-- The `rawtype` string of a dependency kind. -/
def DepKind.raw : DepKind → String
  | DepKind.preDepends => "PreDepends"
  | DepKind.depends => "Depends"
  | DepKind.recommends => "Recommends"

/-- A dependency descriptor (interface 6.1 of the spec): kind, raw string,
and the package names of its installed target versions. -/
structure Dep where
  kind : DepKind
  rawstr : String
  targets : List String
deriving DecidableEq, Repr

/-- An installed package with its dependency descriptors. -/
structure Pkg where
  name : String
  deps : List Dep
deriving DecidableEq, Repr

/-- Errors the phase-1 model can surface.  `unboundLocalItvn` models the
`UnboundLocalError` Python raises when the fall-through reads `itvn` before
any iteration assigned it. -/
inductive DpkgErr
  | dependencyIsNotInstalled
  | unboundLocalItvn
  | memberAlreadyRegistered
deriving DecidableEq, Repr

/-- The phase-1 graph under construction: node uids and dependency edges as
`(edge uid, target node uid)` pairs, in insertion order. -/
structure DpkgSt where
  nodeUids : List String
  depEdges : List (String × String)
deriving DecidableEq, Repr

/-- Stable string insertion sort (ascending). -/
def insertStr (x : String) : List String → List String
  | [] => [x]
  | y :: rest => if x ≤ y then x :: y :: rest else y :: insertStr x rest

/-- The `TargetVersionsNode` uid: `"<p1|p2|…>"` over the sorted, de-duplicated
target package names. -/
def tvn_uid (dep : Dep) : String :=
  "<" ++ String.intercalate "|" (dep.targets.dedup.foldr insertStr []) ++ ">"

/-- Dedup-insert the target versions node and add the dependency edge
(`_add_node_dedup` followed by `DependencyEdge` + `_add_edge`). -/
def phase1_add (pkgName : String) (dep : Dep) (uid : String) (st : DpkgSt) :
    Except DpkgErr DpkgSt :=
  let st1 :=
    if uid ∈ st.nodeUids then st
    else { st with nodeUids := st.nodeUids ++ [uid] }
  let euid := pkgName ++ " --" ++ dep.kind.raw ++ "--> " ++ dep.rawstr
  if euid ∈ st1.depEdges.map (fun p => p.1) then
    Except.error DpkgErr.memberAlreadyRegistered
  else Except.ok { st1 with depEdges := st1.depEdges ++ [(euid, uid)] }

/-- The `for dep in deps:` loop of phase 1 for one package.  `itvnVar` is the
function-scoped Python local `itvn`, which survives across iterations and
across packages. -/
def phase1_deps (ignoreRecommends : Bool) (pkgName : String) :
    List Dep → Option String → DpkgSt → Except DpkgErr (Option String × DpkgSt)
  | [], itvnVar, st => Except.ok (itvnVar, st)
  | dep :: rest, itvnVar, st =>
      if ignoreRecommends ∧ dep.kind = DepKind.recommends then
        phase1_deps ignoreRecommends pkgName rest itvnVar st
      else if dep.targets = [] then
        -- `TargetVersionsNode(dep)` raised `DependencyIsNotInstalledError`.
        if dep.kind = DepKind.recommends then
          phase1_deps ignoreRecommends pkgName rest itvnVar st
        else
          -- The except block ends without re-raising: fall through with the
          -- stale local variable.
          match itvnVar with
          | none => Except.error DpkgErr.unboundLocalItvn
          | some stale =>
              match phase1_add pkgName dep stale st with
              | Except.error err => Except.error err
              | Except.ok st2 =>
                  phase1_deps ignoreRecommends pkgName rest (some stale) st2
      else
        let uid := tvn_uid dep
        match phase1_add pkgName dep uid st with
        | Except.error err => Except.error err
        | Except.ok st2 => phase1_deps ignoreRecommends pkgName rest (some uid) st2

/-- The `for pkg in self.__cache:` loop of phase 1. -/
def phase1_pkgs (ignoreRecommends : Bool) :
    List Pkg → Option String → DpkgSt → Except DpkgErr DpkgSt
  | [], _, st => Except.ok st
  | pkg :: rest, itvnVar, st =>
      if pkg.name ∈ st.nodeUids then Except.error DpkgErr.memberAlreadyRegistered
      else
        let st1 := { st with nodeUids := st.nodeUids ++ [pkg.name] }
        match phase1_deps ignoreRecommends pkg.name pkg.deps itvnVar st1 with
        | Except.error err => Except.error err
        | Except.ok (itvnVar2, st2) => phase1_pkgs ignoreRecommends rest itvnVar2 st2

/-- `DpkgGraph.__init_nodes_and_edges_phase1`. -/
def dpkg_phase1 (ignoreRecommends : Bool) (pkgs : List Pkg) :
    Except DpkgErr DpkgSt :=
  phase1_pkgs ignoreRecommends pkgs none { nodeUids := [], depEdges := [] }

instance {ε α : Type} [DecidableEq ε] [DecidableEq α] :
    DecidableEq (Except ε α) := fun
  | Except.error a, Except.error b => decidable_of_iff (a = b) (by simp)
  | Except.ok a, Except.ok b => decidable_of_iff (a = b) (by simp)
  | Except.error _, Except.ok _ => isFalse (by simp)
  | Except.ok _, Except.error _ => isFalse (by simp)

/-!  ## Spec-side notions used by the claims -/

/-- Direct successors of the node set `X` via non-deleted edges. -/
def live_succs (t : Topo) (s : St) (X : Finset Nat) : Finset Nat :=
  ((t.edges.filter (fun e => decide (e.src ∈ X) && ! s.edgeDeleted e.eid)).map
    (fun e => e.dst)).toFinset

/-- Iterated growth of a node set by `live_succs`. -/
def live_reach_iter (t : Topo) (s : St) : Nat → Finset Nat → Finset Nat
  | 0, X => X
  | fuel + 1, X => live_reach_iter t s fuel (X ∪ live_succs t s X)

/-- The set of nodes reachable from `n` via one or more non-deleted edges:
the spec-side set that the claims assert `outgoing_nodes_recursive`
computes. -/
def live_reach (t : Topo) (s : St) (n : Nat) : Finset Nat :=
  live_reach_iter t s (t.nodeIds.card + 1) (live_succs t s {n})

/-!  ## Concrete scenarios -/

/-- The graph of the `mark_members_including_obsolete_deleted` docstring and
of spec scenario S3: `n1→n4, n2→n4, n3→n5, n4→n5`, all plain edges
(probability 1.0).  Node `i` has uid `i`; the edge out of `nᵢ` has uid `i`. -/
def s3topo : Topo :=
  { nodeIds := {1, 2, 3, 4, 5}
    edges := [⟨1, 1, 4, false⟩, ⟨2, 2, 4, false⟩, ⟨3, 3, 5, false⟩, ⟨4, 4, 5, false⟩] }

/-- The result of `mark_members_including_obsolete_deleted({n1, n2})` on the
pristine S3 graph. -/
def s3run : St × Option GraphErr :=
  mark_members_including_obsolete_deleted s3topo 0 (fuelOf s3topo) [(1, 0), (2, 0)] St.init

/-- C3: on the pristine S3 graph, `mark_members_including_obsolete_deleted
({n1, n2})` raises nothing and leaves exactly `{n1, n2, n4}` marked deleted:
`deleted_nodes = {n1, n2, n4}`, and `n3` and `n5` still live. -/
theorem c3_obsolete_docstring_example :
    s3run.2 = none ∧
    s3run.1.deletedNodes = {1, 2, 4} ∧
    (s3run.1.node 1).deleted = true ∧
    (s3run.1.node 2).deleted = true ∧
    (s3run.1.node 4).deleted = true ∧
    (s3run.1.node 3).deleted = false ∧
    (s3run.1.node 5).deleted = false := by decide

/-- A graph with two parallel `OrEdge`s between the same pair of nodes
(`e1, e2 : n1 → n2`), as the engine admits whenever the subclass-supplied
edge-uid discriminator differs (compare `DependencyEdge`, whose uid mixes in
the dependency kind and raw string). -/
def parallelOrTopo : Topo :=
  { nodeIds := {1, 2}, edges := [⟨1, 1, 2, true⟩, ⟨2, 1, 2, true⟩] }

/-- The state after `e1.mark_deleted()` on the pristine parallel-or graph. -/
def parallelOrSt : St :=
  edge_mark_deleted parallelOrTopo (fuelOf parallelOrTopo) ⟨1, 1, 2, true⟩ St.init

/-- C1: evaluating the code at the failing input.  After deleting one of two
parallel `OrEdge`s `n1 → n2`, the sibling edge `e2` is live and `n2` is not
deleted, so the set of nodes reachable from `n1` over non-deleted edges is
`{n2}`; yet `outgoing_nodes_recursive(n1)` returns `∅`, because
`Edge.mark_deleted` removed `n2` from `n1`'s live outgoing-node view even
though a live edge to `n2` remains — contradicting the `outgoing_nodes`
docstring, which promises the set of outgoing nodes that are not marked
deleted. -/
theorem c1_closure_misses_live_parallel_or_edge :
    parallelOrTopo.WF ∧
    parallelOrSt.edgeDeleted 1 = true ∧
    parallelOrSt.edgeDeleted 2 = false ∧
    (parallelOrSt.node 1).deleted = false ∧
    (parallelOrSt.node 2).deleted = false ∧
    live_reach parallelOrTopo parallelOrSt 1 = {2} ∧
    (parallelOrSt.node 1).outNWD = some ∅ ∧
    (outgoing_nodes_recursive parallelOrTopo (fuelOf parallelOrTopo) 1
      parallelOrSt).1 = ∅ := by decide

/-- A single node carrying a self-loop edge, which the engine accepts
(`test_simple_self_cycle` exercises exactly this shape). -/
def selfLoopTopo : Topo :=
  { nodeIds := {1}, edges := [⟨1, 1, 1, false⟩] }

/-- C4 fails as stated: on the pristine self-loop graph, `leafs` returns
`{{n1}}`, whose only element is a singleton — but `n1` has a live incoming
edge (the loop), so the element is neither a singleton leaf without live
incoming edges nor a set of at least two nodes. -/
theorem leafs_selfloop_refutes_c4 :
    (leafs selfLoopTopo (fuelOf selfLoopTopo) St.init).1 = {({1} : Finset Nat)} ∧
    (incoming_edges selfLoopTopo St.init 1).1 = {1} ∧
    (St.init.node 1).deleted = false ∧
    selfLoopTopo.WF := by decide

/-- C2 fails as stated: in the S3 run of C3, node `n3` survives but has no
raw incoming node at all, hence not every surviving node has a non-deleted
raw incoming node. -/
theorem mmiod_s3_refutes_c2 :
    ¬ (∀ n ∈ s3topo.nodeIds, (s3run.1.node n).deleted = false →
        ∃ m ∈ s3topo.rawIncN n, (s3run.1.node m).deleted = false) := by decide

/-- C8: evaluating the dpkg phase-1 code on dependencies of kind `Depends`
with an empty installed target set.  First conjunct: if such a dependency is
the first one processed, construction aborts with Python's unbound-local
error on `itvn`, not with `DependencyIsNotInstalledError`.  Second conjunct:
if an earlier dependency already assigned `itvn`, construction *succeeds*,
silently wiring the broken dependency to the stale target versions node
`<b>` — in both cases the error is swallowed by the `except` block, which
only re-enters the loop for `Recommends` and otherwise falls through without
re-raising. -/
theorem c8_phase1_swallows_dependency_not_installed :
    dpkg_phase1 false [⟨"a", [⟨DepKind.depends, "c", []⟩]⟩]
        = Except.error DpkgErr.unboundLocalItvn ∧
    dpkg_phase1 false
        [⟨"a", [⟨DepKind.depends, "b", ["b"]⟩, ⟨DepKind.depends, "c", []⟩]⟩, ⟨"b", []⟩]
        = Except.ok
            { nodeUids := ["a", "<b>", "b"]
              depEdges := [("a --Depends--> b", "<b>"), ("a --Depends--> c", "<b>")] } ∧
    dpkg_phase1 false [⟨"a", [⟨DepKind.recommends, "c", []⟩]⟩]
        = Except.ok { nodeUids := ["a"], depEdges := [] } := by decide

/-!  ## Monotonicity of the deleted state

The mark operations only ever add to the deleted sets and never clear a
`deleted` flag. -/

/-- The deleted flags and sets of `s'` dominate those of `s`. -/
def StMono (s s' : St) : Prop :=
  s.deletedNodes ⊆ s'.deletedNodes ∧ s.deletedEdges ⊆ s'.deletedEdges ∧
  (∀ x, (s.node x).deleted = true → (s'.node x).deleted = true) ∧
  (∀ i, s.edgeDeleted i = true → s'.edgeDeleted i = true)

theorem stMono_refl (s : St) : StMono s s :=
  ⟨subset_rfl, subset_rfl, fun _ h => h, fun _ h => h⟩

theorem stMono_trans {a b c : St} (h1 : StMono a b) (h2 : StMono b c) :
    StMono a c :=
  ⟨h1.1.trans h2.1, h1.2.1.trans h2.2.1,
    fun x h => h2.2.2.1 x (h1.2.2.1 x h),
    fun i h => h2.2.2.2 i (h1.2.2.2 i h)⟩

/-- Node updates that do not clear the `deleted` flag are monotone. -/
theorem StMono.updNode {s : St} {n : Nat} {f : NodeSt → NodeSt}
    (h : ∀ ns, ns.deleted = true → (f ns).deleted = true) :
    StMono s (s.updNode n f) := by
  refine ⟨subset_rfl, subset_rfl, fun x hx => ?_, fun i hi => hi⟩
  by_cases hxn : x = n
  · subst hxn; simpa [St.updNode] using h _ hx
  · simpa [St.updNode, hxn] using hx

theorem incoming_edges_mono (t : Topo) (s : St) (n : Nat) :
    StMono s (incoming_edges t s n).2 := by
  rcases h : (s.node n).incEWD with _ | v <;>
    simp [incoming_edges, h, stMono_refl] <;>
    exact StMono.updNode (fun ns hns => hns)

theorem incoming_nodes_mono (t : Topo) (s : St) (n : Nat) :
    StMono s (incoming_nodes t s n).2 := by
  rcases h : (s.node n).incNWD with _ | v <;>
    simp [incoming_nodes, h, stMono_refl] <;>
    exact StMono.updNode (fun ns hns => hns)

theorem outgoing_edges_mono (t : Topo) (s : St) (n : Nat) :
    StMono s (outgoing_edges t s n).2 := by
  rcases h : (s.node n).outEWD with _ | v <;>
    simp [outgoing_edges, h, stMono_refl] <;>
    exact StMono.updNode (fun ns hns => hns)

theorem outgoing_nodes_mono (t : Topo) (s : St) (n : Nat) :
    StMono s (outgoing_nodes t s n).2 := by
  rcases h : (s.node n).outNWD with _ | v <;>
    simp [outgoing_nodes, h, stMono_refl] <;>
    exact StMono.updNode (fun ns hns => hns)

theorem probability_mono (t : Topo) (s : St) (e : EdgeT) :
    StMono s (probability t s e).2 := by
  by_cases hor : e.isOr = true <;>
    simp [probability, hor, stMono_refl, outgoing_edges_mono]

/-- Each stage of `Edge.mark_deleted` is monotone. -/
theorem em_flag_mono (e : EdgeT) (s : St) : StMono s (em_flag e s) := by
  refine ⟨subset_rfl, Finset.subset_insert _ _, fun x hx => hx, fun j hj => ?_⟩
  simp only [em_flag, St.setEdgeDeleted]
  by_cases hji : j = e.eid <;> simp [hji, hj]

theorem em_inc_mono (t : Topo) (e : EdgeT) (s : St) : StMono s (em_inc t e s) :=
  StMono.updNode (fun _ hns => hns)

theorem em_inc_lvl_mono (e : EdgeT) (s : St) : StMono s (em_inc_lvl e s) := by
  refine ⟨subset_rfl, subset_rfl, fun x hx => ?_, fun j hj => hj⟩
  simp only [em_inc_lvl, St.updNode]
  by_cases hx2 : x = e.src
  · subst hx2; simp [hx]
  · simp [hx2, hx]

theorem em_out_mono (t : Topo) (e : EdgeT) (s : St) : StMono s (em_out t e s) := by
  refine ⟨subset_rfl, subset_rfl, fun x hx => ?_, fun j hj => hj⟩
  simp only [em_out, St.updNode]
  by_cases hx2 : x = e.src
  · subst hx2; simp [hx]
  · simp [hx2, hx]

/-- The state reached by `Edge.mark_deleted` just before the potential
cascade. -/
def em_pre (t : Topo) (e : EdgeT) (s : St) : St :=
  let s5 := em_inc_lvl e (em_inc t e (em_flag e (probability t s e).2))
  if ltOne (probability t s e).1 then em_out t e s5 else s5

theorem em_pre_mono (t : Topo) (e : EdgeT) (s : St) : StMono s (em_pre t e s) := by
  have h5 : StMono s (em_inc_lvl e (em_inc t e (em_flag e (probability t s e).2))) :=
    stMono_trans (stMono_trans (probability_mono t s e) (em_flag_mono _ _))
      (stMono_trans (em_inc_mono _ _ _) (em_inc_lvl_mono _ _))
  by_cases hlt : ltOne (probability t s e).1
  · simpa [em_pre, hlt] using stMono_trans h5 (em_out_mono _ _ _)
  · simpa [em_pre, hlt] using h5

/-- Unfolding of `edge_mark_deleted` in terms of `em_pre`. -/
theorem edge_mark_deleted_succ (t : Topo) (fuel : Nat) (e : EdgeT) (s : St) :
    edge_mark_deleted t (fuel + 1) e s =
      if s.edgeDeleted e.eid then s
      else if nearOne (probability t s e).1 then
        node_mark_deleted t fuel e.src (em_pre t e s)
      else em_pre t e s := by
  rw [edge_mark_deleted]
  by_cases hdel : s.edgeDeleted e.eid = true <;> simp [hdel, em_pre]

/-- Unfolding of `node_mark_deleted` at positive fuel. -/
theorem node_mark_deleted_succ (t : Topo) (fuel : Nat) (n : Nat) (s : St) :
    node_mark_deleted t (fuel + 1) n s =
      if (s.node n).deleted then s
      else
        let s2 := (outgoing_edges t (incoming_edges t s n).2 n).2
        let s3 := edges_mark_deleted t fuel (sortFin (incoming_edges t s n).1) s2
        let s4 := edges_mark_deleted t fuel
          (sortFin (outgoing_edges t (incoming_edges t s n).2 n).1) s3
        { s4.updNode n (fun ns => { ns with deleted := true }) with
          deletedNodes := insert n s4.deletedNodes } := by
  rw [node_mark_deleted]

/-- The three mark-deleted operations are monotone on the deleted state. -/
theorem mark_mono (t : Topo) : ∀ fuel,
    (∀ e s, StMono s (edge_mark_deleted t fuel e s)) ∧
    (∀ x s, StMono s (node_mark_deleted t fuel x s)) ∧
    (∀ l s, StMono s (edges_mark_deleted t fuel l s)) := by
  intro fuel
  induction fuel with
  | zero =>
      exact ⟨fun e s => by simp [edge_mark_deleted, stMono_refl],
        fun x s => by simp [node_mark_deleted, stMono_refl],
        fun l s => by cases l <;> simp [edges_mark_deleted, stMono_refl]⟩
  | succ k ih =>
      obtain ⟨ihe, ihn, ihl⟩ := ih
      refine ⟨fun e s => ?_, fun x s => ?_, fun l s => ?_⟩
      · rw [edge_mark_deleted_succ]
        by_cases hdel : s.edgeDeleted e.eid = true
        · simp [hdel, stMono_refl]
        · by_cases hne : nearOne (probability t s e).1 <;>
            simp only [hdel, hne, Bool.false_eq_true, if_false, if_true]
          · exact stMono_trans (em_pre_mono t e s) (ihn _ _)
          · exact em_pre_mono t e s
      · rw [node_mark_deleted_succ]
        by_cases hdel : (s.node x).deleted = true
        · simp [hdel, stMono_refl]
        · simp only [hdel, Bool.false_eq_true, if_false]
          have h1 := incoming_edges_mono t s x
          have h2 := outgoing_edges_mono t (incoming_edges t s x).2 x
          have h3 := ihl (sortFin (incoming_edges t s x).1)
            (outgoing_edges t (incoming_edges t s x).2 x).2
          have h4 := ihl (sortFin (outgoing_edges t (incoming_edges t s x).2 x).1)
            (edges_mark_deleted t k (sortFin (incoming_edges t s x).1)
              (outgoing_edges t (incoming_edges t s x).2 x).2)
          refine stMono_trans
            (stMono_trans (stMono_trans (stMono_trans h1 h2) h3) h4) ?_
          refine stMono_trans
            (@StMono.updNode _ x (fun ns => { ns with deleted := true })
              (fun _ _ => rfl)) ?_
          exact ⟨Finset.subset_insert _ _, subset_rfl, fun _ h => h, fun _ h => h⟩
      · match l with
        | [] => simpa [edges_mark_deleted] using stMono_refl s
        | eid :: rest =>
            rcases he : t.edge? eid with _ | e
            · simpa [edges_mark_deleted, he] using ihl rest s
            · simp only [edges_mark_deleted, he]
              exact stMono_trans (ihe e s) (ihl rest _)

/-- `Node.mark_deleted` always leaves the node's own flag set: either it was
already set and the call is a no-op, or the final statement of the method
sets it. -/
theorem node_mark_deleted_flag (t : Topo) (fuel : Nat) (x : Nat) (s : St)
    (h : 1 ≤ fuel) :
    ((node_mark_deleted t fuel x s).node x).deleted = true := by
  cases fuel with
  | zero => omega
  | succ k =>
      rw [node_mark_deleted_succ]
      by_cases hdel : (s.node x).deleted = true
      · simpa [hdel] using hdel
      · simp [hdel, St.updNode]

/-- `Member.mark_deleted` dispatch is monotone. -/
theorem member_mark_deleted_mono (t : Topo) (fuel : Nat) (m : GMember) (s : St) :
    StMono s (member_mark_deleted t fuel m s) := by
  by_cases h : m.isNode = true
  · simpa [member_mark_deleted, h] using (mark_mono t fuel).2.1 m.mid s
  · rcases he : t.edge? m.mid with _ | e
    · simp [member_mark_deleted, h, he, stMono_refl]
    · simpa [member_mark_deleted, h, he] using (mark_mono t fuel).1 e s

/-- `Graph.mark_members_deleted` is monotone on the deleted state. -/
theorem mark_members_deleted_mono (t : Topo) (g fuel : Nat) :
    ∀ (ms : List GMember) (s : St), StMono s (mark_members_deleted t g fuel ms s).1 := by
  intro ms
  induction ms with
  | nil => intro s; simp [mark_members_deleted, stMono_refl]
  | cons m rest ih =>
      intro s
      by_cases hm : m.gid = g
      · simp only [mark_members_deleted, hm, ne_eq, not_true_eq_false, if_false]
        exact stMono_trans (member_mark_deleted_mono t fuel m s) (ih _)
      · simp [mark_members_deleted, hm, stMono_refl]

/-- C9: `Graph.mark_members_deleted` interleaves validation with mutation.
If the member list is `pre ++ foreign :: rest` where every member of `pre`
is a node of this graph and `foreign` belongs to another graph, the call
raises `NotMemberOfGraphError`, and at that moment every member of `pre`
has already been marked deleted.  By contrast,
`Graph.mark_members_including_obsolete_deleted` validates every member
before mutating anything: with any foreign member in its input it raises
and leaves the state unchanged. -/
theorem c9_mark_members_deleted_not_atomic
    (t : Topo) (g fuel : Nat) (pre rest : List GMember) (foreign : GMember)
    (s : St) (hpre : ∀ m ∈ pre, m.gid = g ∧ m.isNode = true)
    (hforeign : foreign.gid ≠ g) (hfuel : 1 ≤ fuel)
    (ms2 : List (Nat × Nat)) (m2 : Nat × Nat) (hm2 : m2 ∈ ms2)
    (hm2g : m2.2 ≠ g) :
    (mark_members_deleted t g fuel (pre ++ foreign :: rest) s).2
        = some GraphErr.notMemberOfGraph ∧
    (∀ m ∈ pre,
      ((mark_members_deleted t g fuel (pre ++ foreign :: rest) s).1.node
          m.mid).deleted = true) ∧
    mark_members_including_obsolete_deleted t g fuel ms2 s
        = (s, some GraphErr.notMemberOfGraph) := by
  have main : ∀ (pre2 : List GMember) (s2 : St),
      (∀ m ∈ pre2, m.gid = g ∧ m.isNode = true) →
      (mark_members_deleted t g fuel (pre2 ++ foreign :: rest) s2).2
          = some GraphErr.notMemberOfGraph ∧
      ∀ m ∈ pre2,
        ((mark_members_deleted t g fuel (pre2 ++ foreign :: rest) s2).1.node
            m.mid).deleted = true := by
    intro pre2
    induction pre2 with
    | nil =>
        intro s2 _
        refine ⟨by simp [mark_members_deleted, hforeign], by simp⟩
    | cons m pre3 ih =>
        intro s2 hall
        have hm := hall m (List.mem_cons_self m pre3)
        have hrec := ih (member_mark_deleted t fuel m s2)
          (fun m2 hm2 => hall m2 (List.mem_cons_of_mem _ hm2))
        have hstep :
            mark_members_deleted t g fuel ((m :: pre3) ++ foreign :: rest) s2
              = mark_members_deleted t g fuel (pre3 ++ foreign :: rest)
                  (member_mark_deleted t fuel m s2) := by
          simp [mark_members_deleted, hm.1]
        refine ⟨by rw [hstep]; exact hrec.1, ?_⟩
        intro m3 hm3
        rw [hstep]
        rcases List.mem_cons.mp hm3 with h | h
        · subst h
          have hflag :
              ((member_mark_deleted t fuel m3 s2).node m3.mid).deleted = true := by
            simp only [member_mark_deleted, hm.2, if_true]
            exact node_mark_deleted_flag t fuel m3.mid s2 hfuel
          exact (mark_members_deleted_mono t g fuel _ _).2.2.1 _ hflag
        · exact hrec.2 m3 h
  have hmm := main pre s hpre
  have hall2 : ms2.all (fun m => decide (m.2 = g)) = false := by
    rw [List.all_eq_false]
    exact ⟨m2, hm2, by simp [hm2g]⟩
  exact ⟨hmm.1, hmm.2, by simp [mark_members_including_obsolete_deleted, hall2]⟩

/-- Witness for `c9_mark_members_deleted_not_atomic` on the S3 graph: members
`[n1 (ours), n3 (foreign)]`; after the error `n1` is deleted. -/
theorem c9_witness :
    (∀ m ∈ [(⟨true, 1, 0⟩ : GMember)], m.gid = 0 ∧ m.isNode = true) ∧
    (⟨true, 3, 7⟩ : GMember).gid ≠ 0 ∧ 1 ≤ fuelOf s3topo ∧
    ((2, 7) : Nat × Nat) ∈ [((2, 7) : Nat × Nat)] ∧ ((2, 7) : Nat × Nat).2 ≠ 0 ∧
    ((mark_members_deleted s3topo 0 (fuelOf s3topo)
        ([⟨true, 1, 0⟩] ++ (⟨true, 3, 7⟩ : GMember) :: []) St.init).2
      = some GraphErr.notMemberOfGraph ∧
    (∀ m ∈ [(⟨true, 1, 0⟩ : GMember)],
      ((mark_members_deleted s3topo 0 (fuelOf s3topo)
          ([⟨true, 1, 0⟩] ++ (⟨true, 3, 7⟩ : GMember) :: []) St.init).1.node
          m.mid).deleted = true) ∧
    mark_members_including_obsolete_deleted s3topo 0 (fuelOf s3topo)
        [(2, 7)] St.init = (St.init, some GraphErr.notMemberOfGraph)) := by
  refine ⟨by decide, by decide, by decide, by decide, by decide, ?_⟩
  exact c9_mark_members_deleted_not_atomic s3topo 0 (fuelOf s3topo)
    [⟨true, 1, 0⟩] [] ⟨true, 3, 7⟩ St.init (by decide) (by decide) (by decide)
    [(2, 7)] (2, 7) (by decide) (by decide)

/-!  ## Basic facts about the frozen topology and `sortFin` -/

theorem mem_rawIncE {t : Topo} {n i : Nat} :
    i ∈ t.rawIncE n ↔ ∃ e ∈ t.edges, e.dst = n ∧ e.eid = i := by
  simp [Topo.rawIncE, List.mem_filter, and_assoc]

theorem mem_rawIncN {t : Topo} {n m : Nat} :
    m ∈ t.rawIncN n ↔ ∃ e ∈ t.edges, e.dst = n ∧ e.src = m := by
  simp [Topo.rawIncN, List.mem_filter, and_assoc]

theorem mem_rawOutE {t : Topo} {n i : Nat} :
    i ∈ t.rawOutE n ↔ ∃ e ∈ t.edges, e.src = n ∧ e.eid = i := by
  simp [Topo.rawOutE, List.mem_filter, and_assoc]

theorem mem_rawOutN {t : Topo} {n m : Nat} :
    m ∈ t.rawOutN n ↔ ∃ e ∈ t.edges, e.src = n ∧ e.dst = m := by
  simp [Topo.rawOutN, List.mem_filter, and_assoc]

/-- Under well-formedness, edges are determined by their uid. -/
theorem eid_inj {t : Topo} (ht : t.WF) {e f : EdgeT}
    (he : e ∈ t.edges) (hf : f ∈ t.edges) (h : e.eid = f.eid) : e = f :=
  List.inj_on_of_nodup_map ht.1 he hf h

theorem rawIncE_card_le (t : Topo) (n : Nat) :
    (t.rawIncE n).card ≤ t.edges.length := by
  calc (t.rawIncE n).card ≤ ((t.edges.filter (fun e => e.dst = n)).map
      (fun e => e.eid)).length := List.toFinset_card_le _
    _ ≤ t.edges.length := by
        rw [List.length_map]; exact List.length_filter_le _ _

theorem rawOutE_card_le (t : Topo) (n : Nat) :
    (t.rawOutE n).card ≤ t.edges.length := by
  calc (t.rawOutE n).card ≤ ((t.edges.filter (fun e => e.src = n)).map
      (fun e => e.eid)).length := List.toFinset_card_le _
    _ ≤ t.edges.length := by
        rw [List.length_map]; exact List.length_filter_le _ _

theorem mem_insNat {a x : Nat} {l : List Nat} :
    a ∈ insNat x l ↔ a = x ∨ a ∈ l := by
  induction l with
  | nil => simp [insNat]
  | cons y rest ih =>
      by_cases h : x ≤ y
      · simp [insNat, h]
      · simp only [insNat, h, if_false, List.mem_cons, ih]
        tauto

theorem length_insNat (x : Nat) (l : List Nat) :
    (insNat x l).length = l.length + 1 := by
  induction l with
  | nil => simp [insNat]
  | cons y rest ih =>
      by_cases h : x ≤ y <;> simp [insNat, h, ih]

theorem mem_sortFin {a : Nat} {s : Finset Nat} : a ∈ sortFin s ↔ a ∈ s := by
  have key : ∀ m : Multiset Nat, a ∈ Multiset.foldr insNat [] m ↔ a ∈ m := by
    intro m
    induction m using Multiset.induction_on with
    | empty => simp
    | cons x m ih => simp [Multiset.foldr_cons, mem_insNat, ih]
  exact (key s.val).trans (by rfl)

theorem length_sortFin (s : Finset Nat) : (sortFin s).length = s.card := by
  have key : ∀ m : Multiset Nat,
      (Multiset.foldr insNat [] m).length = Multiset.card m := by
    intro m
    induction m using Multiset.induction_on with
    | empty => simp
    | cons x m ih => simp [Multiset.foldr_cons, length_insNat, ih]
  exact key s.val

/-!  ## Counting live edges (for the fuel accounting) -/

/-- The number of edges of the topology whose `deleted` flag is not set. -/
def mu (t : Topo) (s : St) : Nat :=
  (t.edges.filter (fun e => ! s.edgeDeleted e.eid)).length

theorem length_filter_mono {l : List EdgeT} {p q : EdgeT → Bool}
    (h : ∀ a ∈ l, q a = true → p a = true) :
    (l.filter q).length ≤ (l.filter p).length := by
  induction l with
  | nil => simp
  | cons a rest ih =>
      have ih2 := ih (fun b hb => h b (List.mem_cons_of_mem _ hb))
      by_cases hq : q a = true
      · have hp := h a (List.mem_cons_self a rest) hq
        simp [hp, hq, ih2, Nat.succ_le_succ]
      · by_cases hp : p a = true <;>
          simp [hp, hq, ih2] <;> omega

theorem length_filter_lt {l : List EdgeT} {p q : EdgeT → Bool}
    (h : ∀ a ∈ l, q a = true → p a = true) {e : EdgeT} (he : e ∈ l)
    (hpe : p e = true) (hqe : q e = false) :
    (l.filter q).length < (l.filter p).length := by
  induction l with
  | nil => cases he
  | cons a rest ih =>
      have hmono := length_filter_mono
        (fun b hb hqb => h b (List.mem_cons_of_mem _ hb) hqb)
      rcases List.mem_cons.mp he with rfl | hrest
      · simp only [List.filter_cons, hpe, hqe]
        simpa using Nat.lt_succ_of_le hmono
      · have ih2 := ih (fun b hb => h b (List.mem_cons_of_mem _ hb)) hrest
        by_cases hq : q a = true
        · have hp := h a (List.mem_cons_self a rest) hq
          simpa [hp, hq] using Nat.succ_lt_succ ih2
        · by_cases hp : p a = true <;> simp [hp, hq] <;> omega

theorem mu_mono_of_stMono {t : Topo} {s s' : St} (h : StMono s s') :
    mu t s' ≤ mu t s := by
  refine length_filter_mono (fun e _ he => ?_)
  rcases hflag : s.edgeDeleted e.eid with _ | _
  · simp
  · simp [h.2.2.2 e.eid hflag] at he

/-!  ## Query extensions

All read-only API entry points (the live view properties, `probability`, the
recursive closures, the cycle queries and `Graph.leafs`) mutate the state
only by materializing a raw live view on first access and by writing the
recursive/cycle cache fields.  `QueryExt` captures exactly this shape of
state change. -/

/-- `s'` extends `s` by query side effects only: the deleted sets and flags
and the touched flags are unchanged, and each live view is either unchanged
or freshly materialized from the raw set. -/
def QueryExt (t : Topo) (s s' : St) : Prop :=
  s'.deletedNodes = s.deletedNodes ∧
  s'.deletedEdges = s.deletedEdges ∧
  (∀ i, s'.edgeDeleted i = s.edgeDeleted i) ∧
  ∀ x, (s'.node x).deleted = (s.node x).deleted ∧
    (s'.node x).incTouched = (s.node x).incTouched ∧
    (s'.node x).outTouched = (s.node x).outTouched ∧
    ((s'.node x).incEWD = (s.node x).incEWD ∨
      ((s.node x).incEWD = none ∧ (s'.node x).incEWD = some (t.rawIncE x))) ∧
    ((s'.node x).incNWD = (s.node x).incNWD ∨
      ((s.node x).incNWD = none ∧ (s'.node x).incNWD = some (t.rawIncN x))) ∧
    ((s'.node x).outEWD = (s.node x).outEWD ∨
      ((s.node x).outEWD = none ∧ (s'.node x).outEWD = some (t.rawOutE x))) ∧
    ((s'.node x).outNWD = (s.node x).outNWD ∨
      ((s.node x).outNWD = none ∧ (s'.node x).outNWD = some (t.rawOutN x)))

theorem QueryExt.refl (t : Topo) (s : St) : QueryExt t s s :=
  ⟨rfl, rfl, fun _ => rfl, fun _ =>
    ⟨rfl, rfl, rfl, Or.inl rfl, Or.inl rfl, Or.inl rfl, Or.inl rfl⟩⟩

theorem qext_opt_trans {a b c : Option (Finset Nat)} {r : Finset Nat}
    (h1 : b = a ∨ (a = none ∧ b = some r))
    (h2 : c = b ∨ (b = none ∧ c = some r)) :
    c = a ∨ (a = none ∧ c = some r) := by
  rcases h1 with h1 | ⟨h1, h1'⟩ <;> rcases h2 with h2 | ⟨h2, h2'⟩ <;> simp_all

theorem QueryExt.trans {t : Topo} {a b c : St}
    (h1 : QueryExt t a b) (h2 : QueryExt t b c) : QueryExt t a c := by
  obtain ⟨hdn1, hde1, hef1, hn1⟩ := h1
  obtain ⟨hdn2, hde2, hef2, hn2⟩ := h2
  refine ⟨hdn2.trans hdn1, hde2.trans hde1,
    fun i => (hef2 i).trans (hef1 i), fun x => ?_⟩
  obtain ⟨d1, it1, ot1, ie1, in1, oe1, on1⟩ := hn1 x
  obtain ⟨d2, it2, ot2, ie2, in2, oe2, on2⟩ := hn2 x
  exact ⟨d2.trans d1, it2.trans it1, ot2.trans ot1,
    qext_opt_trans ie1 ie2, qext_opt_trans in1 in2,
    qext_opt_trans oe1 oe2, qext_opt_trans on1 on2⟩

/-- Node updates that only write the recursive/cycle cache fields are query
extensions. -/
theorem QueryExt.updNode_cache {t : Topo} {s : St} {n : Nat}
    {f : NodeSt → NodeSt}
    (hf : ∀ ns, (f ns).deleted = ns.deleted ∧
      (f ns).incTouched = ns.incTouched ∧ (f ns).outTouched = ns.outTouched ∧
      (f ns).incEWD = ns.incEWD ∧ (f ns).incNWD = ns.incNWD ∧
      (f ns).outEWD = ns.outEWD ∧ (f ns).outNWD = ns.outNWD) :
    QueryExt t s (s.updNode n f) := by
  refine ⟨rfl, rfl, fun i => rfl, fun x => ?_⟩
  by_cases hx : x = n
  · subst hx
    rw [St.updNode_node_same]
    obtain ⟨h1, h2, h3, h4, h5, h6, h7⟩ := hf (s.node x)
    exact ⟨h1, h2, h3, Or.inl h4, Or.inl h5, Or.inl h6, Or.inl h7⟩
  · rw [St.updNode_node_other _ _ _ _ hx]
    exact ⟨rfl, rfl, rfl, Or.inl rfl, Or.inl rfl, Or.inl rfl, Or.inl rfl⟩

theorem QueryExt.matIncE {t : Topo} {s : St} {n : Nat}
    (h : (s.node n).incEWD = none) :
    QueryExt t s (s.updNode n (fun ns => { ns with incEWD := some (t.rawIncE n) })) := by
  refine ⟨rfl, rfl, fun i => rfl, fun x => ?_⟩
  by_cases hx : x = n
  · subst hx
    rw [St.updNode_node_same]
    exact ⟨rfl, rfl, rfl, Or.inr ⟨h, rfl⟩, Or.inl rfl, Or.inl rfl, Or.inl rfl⟩
  · rw [St.updNode_node_other _ _ _ _ hx]
    exact ⟨rfl, rfl, rfl, Or.inl rfl, Or.inl rfl, Or.inl rfl, Or.inl rfl⟩

theorem QueryExt.matIncN {t : Topo} {s : St} {n : Nat}
    (h : (s.node n).incNWD = none) :
    QueryExt t s (s.updNode n (fun ns => { ns with incNWD := some (t.rawIncN n) })) := by
  refine ⟨rfl, rfl, fun i => rfl, fun x => ?_⟩
  by_cases hx : x = n
  · subst hx
    rw [St.updNode_node_same]
    exact ⟨rfl, rfl, rfl, Or.inl rfl, Or.inr ⟨h, rfl⟩, Or.inl rfl, Or.inl rfl⟩
  · rw [St.updNode_node_other _ _ _ _ hx]
    exact ⟨rfl, rfl, rfl, Or.inl rfl, Or.inl rfl, Or.inl rfl, Or.inl rfl⟩

theorem QueryExt.matOutE {t : Topo} {s : St} {n : Nat}
    (h : (s.node n).outEWD = none) :
    QueryExt t s (s.updNode n (fun ns => { ns with outEWD := some (t.rawOutE n) })) := by
  refine ⟨rfl, rfl, fun i => rfl, fun x => ?_⟩
  by_cases hx : x = n
  · subst hx
    rw [St.updNode_node_same]
    exact ⟨rfl, rfl, rfl, Or.inl rfl, Or.inl rfl, Or.inr ⟨h, rfl⟩, Or.inl rfl⟩
  · rw [St.updNode_node_other _ _ _ _ hx]
    exact ⟨rfl, rfl, rfl, Or.inl rfl, Or.inl rfl, Or.inl rfl, Or.inl rfl⟩

theorem QueryExt.matOutN {t : Topo} {s : St} {n : Nat}
    (h : (s.node n).outNWD = none) :
    QueryExt t s (s.updNode n (fun ns => { ns with outNWD := some (t.rawOutN n) })) := by
  refine ⟨rfl, rfl, fun i => rfl, fun x => ?_⟩
  by_cases hx : x = n
  · subst hx
    rw [St.updNode_node_same]
    exact ⟨rfl, rfl, rfl, Or.inl rfl, Or.inl rfl, Or.inl rfl, Or.inr ⟨h, rfl⟩⟩
  · rw [St.updNode_node_other _ _ _ _ hx]
    exact ⟨rfl, rfl, rfl, Or.inl rfl, Or.inl rfl, Or.inl rfl, Or.inl rfl⟩

theorem q_incoming_edges (t : Topo) (s : St) (n : Nat) :
    QueryExt t s (incoming_edges t s n).2 := by
  rcases h : (s.node n).incEWD with _ | v
  · simpa [incoming_edges, h] using QueryExt.matIncE h
  · simpa [incoming_edges, h] using QueryExt.refl t s

theorem q_incoming_nodes (t : Topo) (s : St) (n : Nat) :
    QueryExt t s (incoming_nodes t s n).2 := by
  rcases h : (s.node n).incNWD with _ | v
  · simpa [incoming_nodes, h] using QueryExt.matIncN h
  · simpa [incoming_nodes, h] using QueryExt.refl t s

theorem q_outgoing_edges (t : Topo) (s : St) (n : Nat) :
    QueryExt t s (outgoing_edges t s n).2 := by
  rcases h : (s.node n).outEWD with _ | v
  · simpa [outgoing_edges, h] using QueryExt.matOutE h
  · simpa [outgoing_edges, h] using QueryExt.refl t s

theorem q_outgoing_nodes (t : Topo) (s : St) (n : Nat) :
    QueryExt t s (outgoing_nodes t s n).2 := by
  rcases h : (s.node n).outNWD with _ | v
  · simpa [outgoing_nodes, h] using QueryExt.matOutN h
  · simpa [outgoing_nodes, h] using QueryExt.refl t s

theorem q_probability (t : Topo) (s : St) (e : EdgeT) :
    QueryExt t s (probability t s e).2 := by
  by_cases hor : e.isOr = true <;>
    simp [probability, hor, QueryExt.refl, q_outgoing_edges]

/-- Query extensions through a state-carrying left fold. -/
theorem qext_foldl {σ β : Type} (t : Topo) (proj : σ → St) (step : σ → β → σ)
    (h : ∀ a b, QueryExt t (proj a) (proj (step a b))) :
    ∀ (l : List β) (a : σ), QueryExt t (proj a) (proj (l.foldl step a)) := by
  intro l
  induction l with
  | nil => intro a; exact QueryExt.refl t _
  | cons b rest ih =>
      intro a
      exact (h a b).trans (ih (step a b))

theorem q_onr_get_cache (t : Topo) (s : St) (n g : Nat) :
    QueryExt t s (onr_get_cache t s n g).2 := by
  rcases hc : (s.node n).onrCache with _ | onrc
  · simpa [onr_get_cache, hc] using QueryExt.refl t s
  · simp only [onr_get_cache, hc]
    split
    · exact QueryExt.refl t s
    · split
      · exact QueryExt.refl t s
      · split
        · exact QueryExt.refl t s
        · split
          · exact (q_outgoing_nodes t s n).trans
              (QueryExt.updNode_cache
                (fun ns => ⟨rfl, rfl, rfl, rfl, rfl, rfl, rfl⟩))
          · split
            · exact (q_outgoing_nodes t s n).trans
                (QueryExt.updNode_cache
                  (fun ns => ⟨rfl, rfl, rfl, rfl, rfl, rfl, rfl⟩))
            · exact q_outgoing_nodes t s n

theorem q_onr_children_fold (t : Topo) (g : Nat) :
    ∀ (l : List Nat) (ls : OnrLoopSt),
      QueryExt t ls.st (onr_children_fold t g l ls).st := by
  intro l
  induction l with
  | nil => intro ls; exact QueryExt.refl t _
  | cons cn rest ih =>
      intro ls
      simp only [onr_children_fold]
      rcases hr : (onr_get_cache t ls.st cn g).1.1 with _ | onrc <;>
        simp only [hr] <;>
        exact (q_onr_get_cache t ls.st cn g).trans (ih _)

theorem q_onr_determine_loop (t : Topo) (g : Nat) :
    ∀ (fuel : Nat) (ls : OnrLoopSt),
      QueryExt t ls.st (onr_determine_loop t g fuel ls).st := by
  intro fuel
  induction fuel with
  | zero => intro ls; exact QueryExt.refl t _
  | succ k ih =>
      intro ls
      simp only [onr_determine_loop]
      rcases hm : ls.toVisit.min with _ | nd
      · exact QueryExt.refl t _
      · simp only
        split
        · exact ih _
        · exact ((q_outgoing_nodes t _ nd).trans
            (q_onr_children_fold t g _ _)).trans (ih _)

theorem q_onr_determine (t : Topo) (g fuel n : Nat) (s : St) :
    QueryExt t s (onr_determine t g fuel n s).2 := by
  simp only [onr_determine]
  have h1 := q_onr_determine_loop t g fuel
    { toVisit := {n}, visited := ∅, acc := ∅, static := true, dflt := true, st := s }
  split
  · exact h1.trans
      (QueryExt.updNode_cache (fun ns => ⟨rfl, rfl, rfl, rfl, rfl, rfl, rfl⟩))
  · split
    · refine (h1.trans (QueryExt.updNode_cache ?_)).trans
        (QueryExt.updNode_cache ?_) <;>
        exact fun ns => ⟨rfl, rfl, rfl, rfl, rfl, rfl, rfl⟩
    · refine (h1.trans (QueryExt.updNode_cache ?_)).trans
        (QueryExt.updNode_cache ?_) <;>
        exact fun ns => ⟨rfl, rfl, rfl, rfl, rfl, rfl, rfl⟩

theorem q_onr_outer_loop (t : Topo) (g : Nat) :
    ∀ (fuel : Nat) (ls : OnrOuterSt),
      QueryExt t ls.st (onr_outer_loop t g fuel ls).st := by
  intro fuel
  induction fuel with
  | zero => intro ls; exact QueryExt.refl t _
  | succ k ih =>
      intro ls
      simp only [onr_outer_loop]
      rcases hm : ls.toVisit.getLast? with _ | nd
      · exact QueryExt.refl t _
      · simp only
        split
        · exact ih _
        · rcases hr : (onr_get_cache t ls.st nd.1 g).1.1 with _ | v <;>
            simp only [hr]
          · exact ((q_onr_get_cache t ls.st nd.1 g).trans
              (q_outgoing_nodes t _ nd.1)).trans (ih _)
          · exact (q_onr_get_cache t ls.st nd.1 g).trans (ih _)

theorem qext_upd_ics (t : Topo) (s : St) (m : Nat) (v : Bool) :
    QueryExt t s (s.updNode m (fun ns => { ns with inCycleStatic := some v })) :=
  QueryExt.updNode_cache (fun ns => ⟨rfl, rfl, rfl, rfl, rfl, rfl, rfl⟩)

theorem qext_upd_cns (t : Topo) (s : St) (m : Nat) (c : Finset Nat) :
    QueryExt t s (s.updNode m (fun ns =>
      { ns with inCycleStatic := some true, cycleNodesStatic := some c })) :=
  QueryExt.updNode_cache (fun ns => ⟨rfl, rfl, rfl, rfl, rfl, rfl, rfl⟩)

theorem qext_upd_cc (t : Topo) (s : St) (m : Nat) (c : Finset Nat) (g : Nat) :
    QueryExt t s (s.updNode m (fun ns =>
      { ns with cycleCache := some c, cycleBuiltAt := g })) :=
  QueryExt.updNode_cache (fun ns => ⟨rfl, rfl, rfl, rfl, rfl, rfl, rfl⟩)

theorem q_onr_rt (t : Topo) (fuel n : Nat) (s : St) :
    QueryExt t s (outgoing_nodes_recursive_rt t fuel n s).2 := by
  simp only [outgoing_nodes_recursive_rt]
  have h1 := q_onr_outer_loop t s.outCL fuel
    { toVisit := [(n, 0)], visited := ∅, missing := [],
      last := (none, RType.dynamic), st := s }
  split
  · exact h1
  · exact h1.trans
      (qext_foldl t Prod.snd
        (fun (acc : (Option (Finset Nat) × RType) × St) (p : Nat × Nat) =>
          ((some (onr_determine t s.outCL fuel p.1 acc.2).1.1,
            (onr_determine t s.outCL fuel p.1 acc.2).1.2),
            (onr_determine t s.outCL fuel p.1 acc.2).2))
        (fun a p => q_onr_determine t s.outCL fuel p.1 a.2) _ _)

theorem q_outgoing_nodes_recursive (t : Topo) (fuel n : Nat) (s : St) :
    QueryExt t s (outgoing_nodes_recursive t fuel n s).2 :=
  q_onr_rt t fuel n s

theorem q_in_cycle (t : Topo) (fuel n : Nat) (s : St) :
    QueryExt t s (in_cycle t fuel n s).2 := by
  rcases hc : (s.node n).inCycleStatic with _ | b
  · simp only [in_cycle, hc]
    split
    · exact q_incoming_nodes t s n
    · split
      · have h2 : QueryExt t s (outgoing_nodes t (incoming_nodes t s n).2 n).2 :=
          (q_incoming_nodes t s n).trans (q_outgoing_nodes t _ n)
        split
        · split
          · exact h2.trans
              ((qext_upd_ics t _ n true).trans
                (qext_foldl t id
                  (fun (acc : St) m => acc.updNode m
                    (fun ns => { ns with inCycleStatic := some true }))
                  (fun a b => qext_upd_ics t a b true) _ _))
          · exact h2
        · exact h2
      · have h2 : QueryExt t s (outgoing_nodes t (incoming_nodes t s n).2 n).2 :=
          (q_incoming_nodes t s n).trans (q_outgoing_nodes t _ n)
        have h3 := h2.trans (q_onr_rt t fuel n _)
        split
        · exact h3.trans (qext_upd_ics t _ n _)
        · split
          · exact h3.trans (qext_upd_ics t _ n false)
          · exact h3
  · simpa [in_cycle, hc] using QueryExt.refl t s

theorem q_cycle_walk (t : Topo) (onrs : Finset Nat) :
    ∀ (fuel : Nat) (tv vis cyc : Finset Nat) (s : St),
      QueryExt t s (cycle_walk t onrs fuel tv vis cyc s).2 := by
  intro fuel
  induction fuel with
  | zero => intro tv vis cyc s; exact QueryExt.refl t _
  | succ k ih =>
      intro tv vis cyc s
      simp only [cycle_walk]
      rcases hm : tv.min with _ | nd
      · exact QueryExt.refl t _
      · exact (q_incoming_nodes t s nd).trans (ih _ _ _ _)

theorem q_cycle_nodes_compute (t : Topo) (fuel g n : Nat) (s : St) :
    QueryExt t s (cycle_nodes.cycle_nodes_compute t fuel g n s).2 := by
  simp only [cycle_nodes.cycle_nodes_compute]
  have h1 := q_onr_rt t fuel n s
  split
  · exact h1
  · have h2 := h1.trans
      (q_cycle_walk t ((outgoing_nodes_recursive_rt t fuel n s).1.1.getD ∅)
        fuel {n} ∅ ∅ (outgoing_nodes_recursive_rt t fuel n s).2)
    have h4 : ∀ (s0 : St) (c : Finset Nat),
        QueryExt t s0
          ((sortFin c).foldl
            (fun acc m => acc.updNode m (fun ns =>
              { ns with inCycleStatic := some true, cycleNodesStatic := some c }))
            s0) := by
      intro s0 c
      exact qext_foldl t id
        (fun (acc : St) m => acc.updNode m (fun ns =>
          { ns with inCycleStatic := some true, cycleNodesStatic := some c }))
        (fun a b => qext_upd_cns t a b c) _ _
    have h5 : ∀ (b : Bool) (s0 : St) (c : Finset Nat),
        QueryExt t s0
          (if b then
            (sortFin c).foldl
              (fun acc m => acc.updNode m (fun ns =>
                { ns with inCycleStatic := some true, cycleNodesStatic := some c }))
              s0
          else s0) := by
      intro b s0 c
      cases b
      · exact QueryExt.refl t s0
      · exact h4 s0 c
    exact (h2.trans (h5 _ _ _)).trans (qext_upd_cc t _ n _ g)

theorem q_cycle_nodes (t : Topo) (fuel n : Nat) (s : St) :
    QueryExt t s (cycle_nodes t fuel n s).2 := by
  rcases hc : (s.node n).cycleNodesStatic with _ | c
  · simp only [cycle_nodes, hc]
    rcases hd : (s.node n).cycleCache with _ | c2
    · exact q_cycle_nodes_compute t fuel s.outCL n s
    · simp only
      split
      · exact QueryExt.refl t _
      · exact q_cycle_nodes_compute t fuel s.outCL n s
  · simpa [cycle_nodes, hc] using QueryExt.refl t s

theorem q_incoming_cycle_nodes (t : Topo) (fuel n : Nat) (s : St) :
    QueryExt t s (incoming_cycle_nodes t fuel n s).2 := by
  simp only [incoming_cycle_nodes]
  exact (q_cycle_nodes t fuel n s).trans
    (qext_foldl t Prod.snd
      (fun (p : Finset Nat × St) m =>
        (p.1 ∪ (incoming_nodes t p.2 m).1, (incoming_nodes t p.2 m).2))
      (fun a m => q_incoming_nodes t a.2 m) _ _)

theorem q_leafs_stage1 (t : Topo) :
    ∀ (fuel : Nat) (st1 st2 : Finset Nat) (acc : Finset (Finset Nat)) (s : St),
      QueryExt t s (leafs_stage1 t fuel st1 st2 acc s).2.2 := by
  intro fuel
  induction fuel with
  | zero => intro st1 st2 acc s; exact QueryExt.refl t _
  | succ k ih =>
      intro st1 st2 acc s
      simp only [leafs_stage1]
      rcases hm : st1.min with _ | nd
      · exact QueryExt.refl t _
      · simp only
        split
        · exact ih _ _ _ _
        · split
          · exact (q_incoming_edges t s nd).trans (ih _ _ _ _)
          · exact ((q_incoming_edges t s nd).trans
              (q_outgoing_nodes_recursive t k nd _)).trans (ih _ _ _ _)

theorem q_leafs_stage2 (t : Topo) :
    ∀ (fuel : Nat) (st2 st3 : Finset Nat) (s : St),
      QueryExt t s (leafs_stage2 t fuel st2 st3 s).2 := by
  intro fuel
  induction fuel with
  | zero => intro st2 st3 s; exact QueryExt.refl t _
  | succ k ih =>
      intro st2 st3 s
      simp only [leafs_stage2]
      rcases hm : st2.min with _ | nd
      · exact QueryExt.refl t _
      · simp only
        have h1 := (q_outgoing_nodes_recursive t k nd s).trans
          (q_in_cycle t k nd _)
        split
        · exact h1.trans (ih _ _ _)
        · exact h1.trans (ih _ _ _)

theorem q_leafs (t : Topo) (fuel : Nat) (s : St) :
    QueryExt t s (leafs t fuel s).2 := by
  simp only [leafs]
  exact ((q_leafs_stage1 t fuel t.nodeIds ∅ ∅ s).trans
    (q_leafs_stage2 t fuel _ ∅ _)).trans
    (qext_foldl t Prod.snd
      (fun (p : Finset (Finset Nat) × St) nd =>
        (insert (cycle_nodes t fuel nd p.2).1 p.1, (cycle_nodes t fuel nd p.2).2))
      (fun a nd => q_cycle_nodes t fuel nd a.2) _ _)

theorem q_leafs_flat (t : Topo) (fuel : Nat) (s : St) :
    QueryExt t s (leafs_flat t fuel s).2 :=
  q_leafs t fuel s

theorem q_mmiod_candidates (t : Topo) (allDeleted : Finset Nat) :
    ∀ (fuel : Nat) (og tp : Finset Nat) (s : St),
      QueryExt t s (mmiod_candidates t allDeleted fuel og tp s).2 := by
  intro fuel
  induction fuel with
  | zero => intro og tp s; exact QueryExt.refl t _
  | succ k ih =>
      intro og tp s
      simp only [mmiod_candidates]
      rcases hm : og.min with _ | nd
      · exact QueryExt.refl t _
      · simp only
        split
        · exact ih _ _ _
        · have h1 := q_in_cycle t k nd s
          split
          · have h2 := h1.trans (q_cycle_nodes t k nd _)
            have h3 := h2.trans (q_incoming_cycle_nodes t k nd _)
            split
            · exact h3.trans (ih _ _ _)
            · exact h3.trans (ih _ _ _)
          · split
            · exact h1.trans (ih _ _ _)
            · exact h1.trans (ih _ _ _)

/-- A query extension neither sets nor clears deleted state. -/
theorem qext_stMono {t : Topo} {s s' : St} (h : QueryExt t s s') : StMono s s' :=
  ⟨h.1 ▸ subset_rfl, h.2.1 ▸ subset_rfl,
    fun x hx => ((h.2.2.2 x).1).trans hx,
    fun i hi => (h.2.2.1 i).trans hi⟩

theorem mu_eq_of_qext {t : Topo} {s s' : St} (h : QueryExt t s s') :
    mu t s' = mu t s := by
  unfold mu
  congr 1
  exact List.filter_congr (fun e _ => by rw [h.2.2.1 e.eid])

/-!  ## The unmark invariant

`Graph.unmark_deleted` restores the pristine live views because the engine
maintains: the deleted flags mirror the deleted sets, every uid in
`deleted_edges` belongs to a registered edge, an untouched live view is
either unmaterialized or equal to its raw set, and a touched view records a
deleted incident edge (so the unmark loop over `deleted_edges` reaches and
resets it).  This fragment holds at any fuel, even through exhausted
recursion branches. -/

structure UInv (t : Topo) (s : St) : Prop where
  nflag : ∀ x, (s.node x).deleted = true ↔ x ∈ s.deletedNodes
  eflag : ∀ i, s.edgeDeleted i = true ↔ i ∈ s.deletedEdges
  deEdges : ∀ i ∈ s.deletedEdges, ∃ e ∈ t.edges, e.eid = i
  inTF : ∀ x, (s.node x).incTouched = false →
    ((s.node x).incEWD = none ∨ (s.node x).incEWD = some (t.rawIncE x)) ∧
    ((s.node x).incNWD = none ∨ (s.node x).incNWD = some (t.rawIncN x))
  outTF : ∀ x, (s.node x).outTouched = false →
    ((s.node x).outEWD = none ∨ (s.node x).outEWD = some (t.rawOutE x)) ∧
    ((s.node x).outNWD = none ∨ (s.node x).outNWD = some (t.rawOutN x))
  inTT : ∀ x, (s.node x).incTouched = true →
    ∃ e ∈ t.edges, e.dst = x ∧ e.eid ∈ s.deletedEdges
  outTT : ∀ x, (s.node x).outTouched = true →
    ∃ e ∈ t.edges, e.src = x ∧ e.eid ∈ s.deletedEdges

theorem uinv_init (t : Topo) : UInv t St.init := by
  refine ⟨?_, ?_, ?_, ?_, ?_, ?_, ?_⟩ <;> intro x <;> simp [St.init]

theorem uinv_of_qext {t : Topo} {s s' : St} (hq : QueryExt t s s')
    (h : UInv t s) : UInv t s' := by
  obtain ⟨hdn, hde, hef, hn⟩ := hq
  refine ⟨?_, ?_, ?_, ?_, ?_, ?_, ?_⟩
  · intro x; rw [(hn x).1, hdn]; exact h.nflag x
  · intro i; rw [hef i, hde]; exact h.eflag i
  · intro i hi; exact h.deEdges i (hde ▸ hi)
  · intro x hx
    obtain ⟨_, hit, _, hie, hin, _, _⟩ := hn x
    have hx0 : (s.node x).incTouched = false := hit ▸ hx
    obtain ⟨h1, h2⟩ := h.inTF x hx0
    constructor
    · rcases hie with hie | ⟨_, hie⟩
      · rw [hie]; exact h1
      · exact Or.inr hie
    · rcases hin with hin | ⟨_, hin⟩
      · rw [hin]; exact h2
      · exact Or.inr hin
  · intro x hx
    obtain ⟨_, _, hot, _, _, hoe, hon⟩ := hn x
    have hx0 : (s.node x).outTouched = false := hot ▸ hx
    obtain ⟨h1, h2⟩ := h.outTF x hx0
    constructor
    · rcases hoe with hoe | ⟨_, hoe⟩
      · rw [hoe]; exact h1
      · exact Or.inr hoe
    · rcases hon with hon | ⟨_, hon⟩
      · rw [hon]; exact h2
      · exact Or.inr hon
  · intro x hx
    have hx0 : (s.node x).incTouched = true := (hn x).2.1 ▸ hx
    obtain ⟨e, he, hd, hmem⟩ := h.inTT x hx0
    exact ⟨e, he, hd, hde ▸ hmem⟩
  · intro x hx
    have hx0 : (s.node x).outTouched = true := (hn x).2.2.1 ▸ hx
    obtain ⟨e, he, hd, hmem⟩ := h.outTT x hx0
    exact ⟨e, he, hd, hde ▸ hmem⟩

theorem uinv_em_flag {t : Topo} {e : EdgeT} {s : St} (he : e ∈ t.edges)
    (h : UInv t s) : UInv t (em_flag e s) := by
  refine ⟨h.nflag, ?_, ?_, h.inTF, h.outTF, ?_, ?_⟩
  · intro i
    show (if i = e.eid then true else s.edgeDeleted i) = true ↔
      i ∈ insert e.eid s.deletedEdges
    by_cases hi : i = e.eid <;> simp [hi, h.eflag i]
  · intro i hi
    rcases Finset.mem_insert.mp hi with hi | hi
    · exact ⟨e, he, hi.symm⟩
    · exact h.deEdges i hi
  · intro x hx
    obtain ⟨f, hf, hd, hmem⟩ := h.inTT x hx
    exact ⟨f, hf, hd, Finset.mem_insert_of_mem hmem⟩
  · intro x hx
    obtain ⟨f, hf, hd, hmem⟩ := h.outTT x hx
    exact ⟨f, hf, hd, Finset.mem_insert_of_mem hmem⟩

theorem uinv_em_inc {t : Topo} {e : EdgeT} {s : St} (he : e ∈ t.edges)
    (hdel : e.eid ∈ s.deletedEdges) (h : UInv t s) : UInv t (em_inc t e s) := by
  have hother : ∀ x, x ≠ e.dst → (em_inc t e s).node x = s.node x := by
    intro x hx; simp [em_inc, St.updNode, hx]
  have hd1 : ((em_inc t e s).node e.dst).deleted = (s.node e.dst).deleted := by
    simp [em_inc, St.updNode]
  have hd2 : ((em_inc t e s).node e.dst).incTouched = true := by
    simp [em_inc, St.updNode]
  have hd3 : ((em_inc t e s).node e.dst).outTouched = (s.node e.dst).outTouched := by
    simp [em_inc, St.updNode]
  have hd4 : ((em_inc t e s).node e.dst).outEWD = (s.node e.dst).outEWD := by
    simp [em_inc, St.updNode]
  have hd5 : ((em_inc t e s).node e.dst).outNWD = (s.node e.dst).outNWD := by
    simp [em_inc, St.updNode]
  refine ⟨?_, h.eflag, h.deEdges, ?_, ?_, ?_, ?_⟩
  · intro x
    by_cases hx : x = e.dst
    · rw [hx, hd1]; exact h.nflag e.dst
    · rw [hother x hx]; exact h.nflag x
  · intro x hx
    by_cases hxd : x = e.dst
    · rw [hxd, hd2] at hx; cases hx
    · rw [hother x hxd] at hx ⊢; exact h.inTF x hx
  · intro x hx
    by_cases hxd : x = e.dst
    · rw [hxd] at hx ⊢
      rw [hd3] at hx
      rw [hd4, hd5]
      exact h.outTF e.dst hx
    · rw [hother x hxd] at hx ⊢; exact h.outTF x hx
  · intro x hx
    by_cases hxd : x = e.dst
    · rw [hxd]; exact ⟨e, he, rfl, hdel⟩
    · rw [hother x hxd] at hx; exact h.inTT x hx
  · intro x hx
    by_cases hxd : x = e.dst
    · rw [hxd] at hx ⊢; rw [hd3] at hx; exact h.outTT e.dst hx
    · rw [hother x hxd] at hx; exact h.outTT x hx

theorem uinv_em_inc_lvl {t : Topo} {e : EdgeT} {s : St}
    (h : UInv t s) : UInv t (em_inc_lvl e s) := by
  have hnode : ∀ x, ((em_inc_lvl e s).node x).deleted = (s.node x).deleted ∧
      ((em_inc_lvl e s).node x).incTouched = (s.node x).incTouched ∧
      ((em_inc_lvl e s).node x).outTouched = (s.node x).outTouched ∧
      ((em_inc_lvl e s).node x).incEWD = (s.node x).incEWD ∧
      ((em_inc_lvl e s).node x).incNWD = (s.node x).incNWD ∧
      ((em_inc_lvl e s).node x).outEWD = (s.node x).outEWD ∧
      ((em_inc_lvl e s).node x).outNWD = (s.node x).outNWD := by
    intro x
    by_cases hx : x = e.src
    · rw [hx]
      refine ⟨?_, ?_, ?_, ?_, ?_, ?_, ?_⟩ <;> simp [em_inc_lvl, St.updNode]
    · refine ⟨?_, ?_, ?_, ?_, ?_, ?_, ?_⟩ <;> simp [em_inc_lvl, St.updNode, hx]
  refine ⟨?_, h.eflag, h.deEdges, ?_, ?_, ?_, ?_⟩
  · intro x; rw [(hnode x).1]; exact h.nflag x
  · intro x hx
    rw [(hnode x).2.1] at hx
    rw [(hnode x).2.2.2.1, (hnode x).2.2.2.2.1]
    exact h.inTF x hx
  · intro x hx
    rw [(hnode x).2.2.1] at hx
    rw [(hnode x).2.2.2.2.2.1, (hnode x).2.2.2.2.2.2]
    exact h.outTF x hx
  · intro x hx; rw [(hnode x).2.1] at hx; exact h.inTT x hx
  · intro x hx; rw [(hnode x).2.2.1] at hx; exact h.outTT x hx

theorem uinv_em_out {t : Topo} {e : EdgeT} {s : St} (he : e ∈ t.edges)
    (hdel : e.eid ∈ s.deletedEdges) (h : UInv t s) : UInv t (em_out t e s) := by
  have hother : ∀ x, x ≠ e.src → (em_out t e s).node x = s.node x := by
    intro x hx; simp [em_out, St.updNode, hx]
  have hsrc : ((em_out t e s).node e.src).deleted = (s.node e.src).deleted ∧
      ((em_out t e s).node e.src).incTouched = (s.node e.src).incTouched ∧
      ((em_out t e s).node e.src).outTouched = true ∧
      ((em_out t e s).node e.src).incEWD = (s.node e.src).incEWD ∧
      ((em_out t e s).node e.src).incNWD = (s.node e.src).incNWD := by
    refine ⟨?_, ?_, ?_, ?_, ?_⟩ <;> simp [em_out, St.updNode]
  refine ⟨?_, h.eflag, h.deEdges, ?_, ?_, ?_, ?_⟩
  · intro x
    by_cases hx : x = e.src
    · rw [hx, hsrc.1]; exact h.nflag e.src
    · rw [hother x hx]; exact h.nflag x
  · intro x hx
    by_cases hxs : x = e.src
    · rw [hxs] at hx ⊢
      rw [hsrc.2.1] at hx
      rw [hsrc.2.2.2.1, hsrc.2.2.2.2]
      exact h.inTF e.src hx
    · rw [hother x hxs] at hx ⊢; exact h.inTF x hx
  · intro x hx
    by_cases hxs : x = e.src
    · rw [hxs, hsrc.2.2.1] at hx; cases hx
    · rw [hother x hxs] at hx ⊢; exact h.outTF x hx
  · intro x hx
    by_cases hxs : x = e.src
    · rw [hxs, hsrc.2.1] at hx; rw [hxs]; exact h.inTT e.src hx
    · rw [hother x hxs] at hx; exact h.inTT x hx
  · intro x hx
    by_cases hxs : x = e.src
    · rw [hxs]; exact ⟨e, he, rfl, hdel⟩
    · rw [hother x hxs] at hx; exact h.outTT x hx

theorem uinv_em_pre {t : Topo} {e : EdgeT} {s : St} (he : e ∈ t.edges)
    (h : UInv t s) : UInv t (em_pre t e s) := by
  have h0 : UInv t (probability t s e).2 := uinv_of_qext (q_probability t s e) h
  have h1 := uinv_em_flag he h0
  have hmem1 : e.eid ∈ (em_flag e (probability t s e).2).deletedEdges :=
    Finset.mem_insert_self _ _
  have h2 := uinv_em_inc he hmem1 h1
  have h3 := uinv_em_inc_lvl (e := e) h2
  have hmem2 : e.eid ∈
      (em_inc_lvl e (em_inc t e (em_flag e (probability t s e).2))).deletedEdges :=
    hmem1
  by_cases hlt : ltOne (probability t s e).1
  · simpa [em_pre, hlt] using uinv_em_out he hmem2 h3
  · simpa [em_pre, hlt] using h3

theorem uinv_nm_final {t : Topo} {s : St} (n : Nat) (h : UInv t s) :
    UInv t { s.updNode n (fun ns => { ns with deleted := true }) with
      deletedNodes := insert n s.deletedNodes } := by
  have hother : ∀ x, x ≠ n →
      ({ s.updNode n (fun ns => { ns with deleted := true }) with
        deletedNodes := insert n s.deletedNodes } : St).node x = s.node x := by
    intro x hx; simp [St.updNode, hx]
  have hn1 : ({ s.updNode n (fun ns => { ns with deleted := true }) with
      deletedNodes := insert n s.deletedNodes } : St).node n =
      { s.node n with deleted := true } := by
    simp [St.updNode]
  refine ⟨?_, h.eflag, h.deEdges, ?_, ?_, ?_, ?_⟩
  · intro x
    by_cases hx : x = n
    · rw [hx, hn1]; simp
    · rw [hother x hx]
      simp only [Finset.mem_insert]
      rw [h.nflag x]
      exact ⟨fun hm => Or.inr hm, fun hm => hm.elim (fun h1 => absurd h1 hx) id⟩
  · intro x hx
    by_cases hxn : x = n
    · rw [hxn, hn1] at hx ⊢; exact h.inTF n hx
    · rw [hother x hxn] at hx ⊢; exact h.inTF x hx
  · intro x hx
    by_cases hxn : x = n
    · rw [hxn, hn1] at hx ⊢; exact h.outTF n hx
    · rw [hother x hxn] at hx ⊢; exact h.outTF x hx
  · intro x hx
    by_cases hxn : x = n
    · rw [hxn, hn1] at hx; rw [hxn]; exact h.inTT n hx
    · rw [hother x hxn] at hx; exact h.inTT x hx
  · intro x hx
    by_cases hxn : x = n
    · rw [hxn, hn1] at hx; rw [hxn]; exact h.outTT n hx
    · rw [hother x hxn] at hx; exact h.outTT x hx

/-- The cascading delete preserves the unmark invariant at every fuel, even
when the recursion exhausts mid-way. -/
theorem mark_uinv (t : Topo) : ∀ fuel,
    (∀ e s, e ∈ t.edges → UInv t s → UInv t (edge_mark_deleted t fuel e s)) ∧
    (∀ n s, UInv t s → UInv t (node_mark_deleted t fuel n s)) ∧
    (∀ l s, UInv t s → UInv t (edges_mark_deleted t fuel l s)) := by
  intro fuel
  induction fuel with
  | zero =>
      exact ⟨fun e s _ h => by simpa [edge_mark_deleted] using h,
        fun n s h => by simpa [node_mark_deleted] using h,
        fun l s h => by cases l <;> simpa [edges_mark_deleted] using h⟩
  | succ k ih =>
      obtain ⟨ihe, ihn, ihl⟩ := ih
      refine ⟨fun e s he h => ?_, fun n s h => ?_, fun l s h => ?_⟩
      · rw [edge_mark_deleted_succ]
        by_cases hdel : s.edgeDeleted e.eid = true
        · simpa [hdel] using h
        · have hpre := uinv_em_pre he h
          by_cases hne : nearOne (probability t s e).1 <;>
            simp only [hdel, hne, Bool.false_eq_true, if_false, if_true]
          · exact ihn _ _ hpre
          · exact hpre
      · rw [node_mark_deleted_succ]
        by_cases hdel : (s.node n).deleted = true
        · simpa [hdel] using h
        · simp only [hdel, Bool.false_eq_true, if_false]
          have h1 : UInv t (incoming_edges t s n).2 :=
            uinv_of_qext (q_incoming_edges t s n) h
          have h2 : UInv t (outgoing_edges t (incoming_edges t s n).2 n).2 :=
            uinv_of_qext (q_outgoing_edges t _ n) h1
          have h3 := ihl (sortFin (incoming_edges t s n).1) _ h2
          have h4 := ihl (sortFin (outgoing_edges t (incoming_edges t s n).2 n).1) _ h3
          exact uinv_nm_final n h4
      · cases l with
        | nil => simpa [edges_mark_deleted] using h
        | cons i rest =>
            rw [edges_mark_deleted]
            rcases hE : t.edge? i with _ | f <;> simp only
            · exact ihl rest s h
            · exact ihl rest _ (ihe f s (List.mem_of_find?_eq_some hE) h)

theorem uinv_member_mark_deleted {t : Topo} {s : St} (fuel : Nat) (m : GMember)
    (h : UInv t s) : UInv t (member_mark_deleted t fuel m s) := by
  unfold member_mark_deleted
  split
  · exact (mark_uinv t fuel).2.1 m.mid s h
  · split
    · exact (mark_uinv t fuel).1 _ s (List.mem_of_find?_eq_some (by assumption)) h
    · exact h

theorem uinv_mark_members_deleted {t : Topo} (gid fuel : Nat) :
    ∀ (ms : List GMember) (s : St), UInv t s →
      UInv t (mark_members_deleted t gid fuel ms s).1 := by
  intro ms
  induction ms with
  | nil => intro s h; exact h
  | cons m rest ih =>
      intro s h
      rw [mark_members_deleted]
      split
      · exact h
      · exact ih _ (uinv_member_mark_deleted fuel m h)

theorem uinv_foldl_nm {t : Topo} (fuel : Nat) :
    ∀ (l : List Nat) (s : St), UInv t s →
      UInv t (l.foldl (fun acc m => node_mark_deleted t fuel m acc) s) := by
  intro l
  induction l with
  | nil => intro s h; exact h
  | cons m rest ih =>
      intro s h
      exact ih _ ((mark_uinv t fuel).2.1 m s h)

theorem uinv_mmiod_loop {t : Topo} :
    ∀ (fuel : Nat) (tp prev : Finset Nat) (s : St), UInv t s →
      UInv t (mmiod_loop t fuel tp prev s) := by
  intro fuel
  induction fuel with
  | zero => intro tp prev s h; exact h
  | succ k ih =>
      intro tp prev s h
      rw [mmiod_loop]
      split
      · exact h
      · exact ih _ _ _
          (uinv_of_qext (q_mmiod_candidates t _ k _ ∅ _)
            (uinv_foldl_nm k (sortFin tp) s h))

theorem uinv_mmiod {t : Topo} (gid fuel : Nat) (ms : List (Nat × Nat)) (s : St)
    (h : UInv t s) :
    UInv t (mark_members_including_obsolete_deleted t gid fuel ms s).1 := by
  unfold mark_members_including_obsolete_deleted
  split
  · exact uinv_mmiod_loop fuel _ _ s h
  · exact h

/-!  ## Operation traces

A trace of the mark-level API: `Member.mark_deleted` on a node or an edge,
`Graph.mark_members_deleted` and
`Graph.mark_members_including_obsolete_deleted`, each invoked with the
generous API fuel. -/

inductive MarkOp
  | mnode (n : Nat)
  | medge (eid : Nat)
  | mmembers (gid : Nat) (ms : List GMember)
  | mmiod (gid : Nat) (ms : List (Nat × Nat))

/-- Apply one mark operation to a state. -/
def MarkOp.apply (t : Topo) (op : MarkOp) (s : St) : St :=
  match op with
  | .mnode n => node_mark_deleted t (fuelOf t) n s
  | .medge i =>
      match t.edge? i with
      | some e => edge_mark_deleted t (fuelOf t) e s
      | none => s
  | .mmembers gid ms => (mark_members_deleted t gid (fuelOf t) ms s).1
  | .mmiod gid ms => (mark_members_including_obsolete_deleted t gid (fuelOf t) ms s).1

/-- Run a list of mark operations left to right. -/
def runOps (t : Topo) (ops : List MarkOp) (s : St) : St :=
  ops.foldl (fun acc op => op.apply t acc) s

theorem uinv_apply {t : Topo} {s : St} (op : MarkOp) (h : UInv t s) :
    UInv t (op.apply t s) := by
  cases op with
  | mnode n => exact (mark_uinv t (fuelOf t)).2.1 n s h
  | medge i =>
      show UInv t (match t.edge? i with
        | some e => edge_mark_deleted t (fuelOf t) e s
        | none => s)
      rcases hE : t.edge? i with _ | f
      · exact h
      · exact (mark_uinv t (fuelOf t)).1 f s (List.mem_of_find?_eq_some hE) h
  | mmembers gid ms => exact uinv_mark_members_deleted gid (fuelOf t) ms s h
  | mmiod gid ms => exact uinv_mmiod gid (fuelOf t) ms s h

theorem uinv_runOps {t : Topo} :
    ∀ (ops : List MarkOp) (s : St), UInv t s → UInv t (runOps t ops s) := by
  intro ops
  induction ops with
  | nil => intro s h; exact h
  | cons op rest ih =>
      intro s h
      exact ih _ (uinv_apply op h)

/-!  ## Dissection of `Graph.unmark_deleted` -/

/-- The incoming-view reset applied by `unmark_deleted` to a touched
to-node. -/
def fIn (g : Nat) (ns : NodeSt) : NodeSt :=
  { ns with
    incTouched := false
    incEWD := none
    incNWD := none
    inrInvalidAt := g }

/-- The outgoing-view reset applied by `unmark_deleted` to a touched
from-node. -/
def fOut (g : Nat) (ns : NodeSt) : NodeSt :=
  { ns with
    outTouched := false
    outEWD := none
    outNWD := none
    onrInvalidAt := g }

/-- One iteration of the `for edge_uid in deleted_edges` loop of
`Graph.unmark_deleted`. -/
def um_step (t : Topo) (gin gout : Nat) (acc : St) (eid : Nat) : St :=
  let acc1 := acc.setEdgeDeleted eid false
  match t.edge? eid with
  | none => acc1
  | some e =>
      let acc2 :=
        if (acc1.node e.dst).incTouched then acc1.updNode e.dst (fIn gin)
        else acc1
      if (acc2.node e.src).outTouched then acc2.updNode e.src (fOut gout)
      else acc2

/-- `unmark_deleted` staged through `um_step`. -/
theorem unmark_deleted_eq (t : Topo) (s : St) :
    unmark_deleted t s =
      { ((sortFin (((sortFin s.deletedNodes).foldl
            (fun (acc : St) n => acc.updNode n (fun ns => { ns with deleted := false }))
            { s with inCL := s.inCL + 1, outCL := s.outCL + 1 }).deletedEdges)).foldl
          (um_step t (s.inCL + 1) (s.outCL + 1))
          { (sortFin s.deletedNodes).foldl
              (fun (acc : St) n => acc.updNode n (fun ns => { ns with deleted := false }))
              { s with inCL := s.inCL + 1, outCL := s.outCL + 1 } with
            deletedNodes := ∅ } : St) with
        deletedEdges := ∅ } := rfl

theorem um_step_node_val (t : Topo) (gin gout : Nat) (acc : St) (eid x : Nat) :
    (um_step t gin gout acc eid).node x = acc.node x ∨
    (um_step t gin gout acc eid).node x = fIn gin (acc.node x) ∨
    (um_step t gin gout acc eid).node x = fOut gout (acc.node x) ∨
    (um_step t gin gout acc eid).node x = fOut gout (fIn gin (acc.node x)) := by
  unfold um_step
  rcases hE : t.edge? eid with _ | e <;> simp only [hE]
  · exact Or.inl rfl
  · by_cases hg1 : ((acc.setEdgeDeleted eid false).node e.dst).incTouched = true
    · rw [if_pos hg1]
      by_cases hg2 :
          (((acc.setEdgeDeleted eid false).updNode e.dst (fIn gin)).node e.src).outTouched = true
      · rw [if_pos hg2]
        by_cases hs : x = e.src
        · subst hs
          rw [St.updNode_node_same]
          by_cases hd : e.src = e.dst
          · rw [hd, St.updNode_node_same]
            exact Or.inr (Or.inr (Or.inr rfl))
          · rw [St.updNode_node_other _ _ _ _ hd]
            exact Or.inr (Or.inr (Or.inl rfl))
        · rw [St.updNode_node_other _ _ _ _ hs]
          by_cases hd : x = e.dst
          · subst hd
            rw [St.updNode_node_same]
            exact Or.inr (Or.inl rfl)
          · rw [St.updNode_node_other _ _ _ _ hd]
            exact Or.inl rfl
      · rw [if_neg hg2]
        by_cases hd : x = e.dst
        · subst hd
          rw [St.updNode_node_same]
          exact Or.inr (Or.inl rfl)
        · rw [St.updNode_node_other _ _ _ _ hd]
          exact Or.inl rfl
    · rw [if_neg hg1]
      by_cases hg2 : ((acc.setEdgeDeleted eid false).node e.src).outTouched = true
      · rw [if_pos hg2]
        by_cases hs : x = e.src
        · subst hs
          rw [St.updNode_node_same]
          exact Or.inr (Or.inr (Or.inl rfl))
        · rw [St.updNode_node_other _ _ _ _ hs]
          exact Or.inl rfl
      · rw [if_neg hg2]
        exact Or.inl rfl

theorem um_step_inMain (t : Topo) (gin gout : Nat) (acc : St) (eid x : Nat) :
    (((um_step t gin gout acc eid).node x).incTouched = (acc.node x).incTouched ∧
     ((um_step t gin gout acc eid).node x).incEWD = (acc.node x).incEWD ∧
     ((um_step t gin gout acc eid).node x).incNWD = (acc.node x).incNWD) ∨
    (((um_step t gin gout acc eid).node x).incTouched = false ∧
     ((um_step t gin gout acc eid).node x).incEWD = none ∧
     ((um_step t gin gout acc eid).node x).incNWD = none) := by
  rcases um_step_node_val t gin gout acc eid x with h | h | h | h <;> rw [h]
  · exact Or.inl ⟨rfl, rfl, rfl⟩
  · exact Or.inr ⟨rfl, rfl, rfl⟩
  · exact Or.inl ⟨rfl, rfl, rfl⟩
  · exact Or.inr ⟨rfl, rfl, rfl⟩

theorem um_step_outMain (t : Topo) (gin gout : Nat) (acc : St) (eid x : Nat) :
    (((um_step t gin gout acc eid).node x).outTouched = (acc.node x).outTouched ∧
     ((um_step t gin gout acc eid).node x).outEWD = (acc.node x).outEWD ∧
     ((um_step t gin gout acc eid).node x).outNWD = (acc.node x).outNWD) ∨
    (((um_step t gin gout acc eid).node x).outTouched = false ∧
     ((um_step t gin gout acc eid).node x).outEWD = none ∧
     ((um_step t gin gout acc eid).node x).outNWD = none) := by
  rcases um_step_node_val t gin gout acc eid x with h | h | h | h <;> rw [h]
  · exact Or.inl ⟨rfl, rfl, rfl⟩
  · exact Or.inl ⟨rfl, rfl, rfl⟩
  · exact Or.inr ⟨rfl, rfl, rfl⟩
  · exact Or.inr ⟨rfl, rfl, rfl⟩

theorem um_step_inHit (t : Topo) (gin gout : Nat) (acc : St) (eid : Nat)
    {e : EdgeT} (hE : t.edge? eid = some e)
    (htouch : (acc.node e.dst).incTouched = true) :
    ((um_step t gin gout acc eid).node e.dst).incTouched = false ∧
    ((um_step t gin gout acc eid).node e.dst).incEWD = none ∧
    ((um_step t gin gout acc eid).node e.dst).incNWD = none := by
  unfold um_step
  simp only [hE]
  have hg1 : ((acc.setEdgeDeleted eid false).node e.dst).incTouched = true := htouch
  rw [if_pos hg1]
  by_cases hg2 :
      (((acc.setEdgeDeleted eid false).updNode e.dst (fIn gin)).node e.src).outTouched = true
  · rw [if_pos hg2]
    by_cases hs : e.dst = e.src
    · rw [← hs, St.updNode_node_same, St.updNode_node_same]
      exact ⟨rfl, rfl, rfl⟩
    · rw [St.updNode_node_other _ _ _ _ (fun hcon => hs hcon), St.updNode_node_same]
      exact ⟨rfl, rfl, rfl⟩
  · rw [if_neg hg2]
    rw [St.updNode_node_same]
    exact ⟨rfl, rfl, rfl⟩

theorem um_step_outHit (t : Topo) (gin gout : Nat) (acc : St) (eid : Nat)
    {e : EdgeT} (hE : t.edge? eid = some e)
    (htouch : (acc.node e.src).outTouched = true) :
    ((um_step t gin gout acc eid).node e.src).outTouched = false ∧
    ((um_step t gin gout acc eid).node e.src).outEWD = none ∧
    ((um_step t gin gout acc eid).node e.src).outNWD = none := by
  unfold um_step
  simp only [hE]
  by_cases hg1 : ((acc.setEdgeDeleted eid false).node e.dst).incTouched = true
  · rw [if_pos hg1]
    have hg2 :
        (((acc.setEdgeDeleted eid false).updNode e.dst (fIn gin)).node e.src).outTouched = true := by
      by_cases hs : e.src = e.dst
      · rw [hs, St.updNode_node_same]
        show (fIn gin ((acc.setEdgeDeleted eid false).node e.dst)).outTouched = true
        rw [← hs]
        exact htouch
      · rw [St.updNode_node_other _ _ _ _ hs]
        exact htouch
    rw [if_pos hg2, St.updNode_node_same]
    exact ⟨rfl, rfl, rfl⟩
  · rw [if_neg hg1]
    have hg2 : ((acc.setEdgeDeleted eid false).node e.src).outTouched = true := htouch
    rw [if_pos hg2, St.updNode_node_same]
    exact ⟨rfl, rfl, rfl⟩

theorem um_step_deleted (t : Topo) (gin gout : Nat) (acc : St) (eid x : Nat) :
    ((um_step t gin gout acc eid).node x).deleted = (acc.node x).deleted := by
  rcases um_step_node_val t gin gout acc eid x with h | h | h | h <;> rw [h] <;> rfl

theorem um_step_edgeDeleted (t : Topo) (gin gout : Nat) (acc : St) (eid j : Nat) :
    (um_step t gin gout acc eid).edgeDeleted j =
      if j = eid then false else acc.edgeDeleted j := by
  unfold um_step
  rcases hE : t.edge? eid with _ | e <;> simp only [hE]
  · rfl
  · by_cases hg1 : ((acc.setEdgeDeleted eid false).node e.dst).incTouched = true
    · rw [if_pos hg1]
      by_cases hg2 :
          (((acc.setEdgeDeleted eid false).updNode e.dst (fIn gin)).node e.src).outTouched = true
      · rw [if_pos hg2]; rfl
      · rw [if_neg hg2]; rfl
    · rw [if_neg hg1]
      by_cases hg2 : ((acc.setEdgeDeleted eid false).node e.src).outTouched = true
      · rw [if_pos hg2]; rfl
      · rw [if_neg hg2]; rfl

theorem um_step_sets (t : Topo) (gin gout : Nat) (acc : St) (eid : Nat) :
    (um_step t gin gout acc eid).deletedNodes = acc.deletedNodes ∧
    (um_step t gin gout acc eid).deletedEdges = acc.deletedEdges := by
  unfold um_step
  rcases hE : t.edge? eid with _ | e <;> simp only [hE]
  · exact ⟨rfl, rfl⟩
  · by_cases hg1 : ((acc.setEdgeDeleted eid false).node e.dst).incTouched = true
    · rw [if_pos hg1]
      by_cases hg2 :
          (((acc.setEdgeDeleted eid false).updNode e.dst (fIn gin)).node e.src).outTouched = true
      · rw [if_pos hg2]; exact ⟨rfl, rfl⟩
      · rw [if_neg hg2]; exact ⟨rfl, rfl⟩
    · rw [if_neg hg1]
      by_cases hg2 : ((acc.setEdgeDeleted eid false).node e.src).outTouched = true
      · rw [if_pos hg2]; exact ⟨rfl, rfl⟩
      · rw [if_neg hg2]; exact ⟨rfl, rfl⟩

theorem edge?_eq_some {t : Topo} {e : EdgeT} {i : Nat} (ht : t.WF)
    (he : e ∈ t.edges) (hi : e.eid = i) : t.edge? i = some e := by
  rcases hfind : t.edge? i with _ | f
  · exfalso
    have := List.find?_eq_none.mp hfind e he
    simp [hi] at this
  · have hfmem : f ∈ t.edges := List.mem_of_find?_eq_some hfind
    have hfeid : f.eid = i := by
      have := List.find?_some hfind
      simpa using this
    rw [eid_inj ht hfmem he (hfeid.trans hi.symm)]

theorem clear_fold_node : ∀ (l : List Nat) (s0 : St) (x : Nat),
    ((l.foldl (fun (acc : St) n =>
        acc.updNode n (fun ns => { ns with deleted := false })) s0).node x) =
      if x ∈ l then { s0.node x with deleted := false } else s0.node x := by
  intro l
  induction l with
  | nil => intro s0 x; simp
  | cons a rest ih =>
      intro s0 x
      rw [List.foldl_cons, ih]
      by_cases hxa : x = a <;> by_cases hr : x ∈ rest <;>
        simp [hxa, hr, St.updNode, List.mem_cons]

theorem clear_fold_comps : ∀ (l : List Nat) (s0 : St),
    (l.foldl (fun (acc : St) n =>
        acc.updNode n (fun ns => { ns with deleted := false })) s0).edgeDeleted
      = s0.edgeDeleted ∧
    (l.foldl (fun (acc : St) n =>
        acc.updNode n (fun ns => { ns with deleted := false })) s0).deletedNodes
      = s0.deletedNodes ∧
    (l.foldl (fun (acc : St) n =>
        acc.updNode n (fun ns => { ns with deleted := false })) s0).deletedEdges
      = s0.deletedEdges := by
  intro l
  induction l with
  | nil => intro s0; exact ⟨rfl, rfl, rfl⟩
  | cons a rest ih =>
      intro s0
      rw [List.foldl_cons]
      exact ih _

theorem um_fold_sets (t : Topo) (gin gout : Nat) : ∀ (l : List Nat) (acc : St),
    (l.foldl (um_step t gin gout) acc).deletedNodes = acc.deletedNodes ∧
    (l.foldl (um_step t gin gout) acc).deletedEdges = acc.deletedEdges := by
  intro l
  induction l with
  | nil => intro acc; exact ⟨rfl, rfl⟩
  | cons i rest ih =>
      intro acc
      rw [List.foldl_cons]
      obtain ⟨h1, h2⟩ := ih (um_step t gin gout acc i)
      obtain ⟨h3, h4⟩ := um_step_sets t gin gout acc i
      exact ⟨h1.trans h3, h2.trans h4⟩

theorem um_fold_deleted (t : Topo) (gin gout : Nat) :
    ∀ (l : List Nat) (acc : St) (x : Nat),
      ((l.foldl (um_step t gin gout) acc).node x).deleted = ((acc.node x)).deleted := by
  intro l
  induction l with
  | nil => intro acc x; rfl
  | cons i rest ih =>
      intro acc x
      rw [List.foldl_cons, ih, um_step_deleted]

theorem um_fold_flag (t : Topo) (gin gout : Nat) :
    ∀ (l : List Nat) (acc : St) (j : Nat),
      (l.foldl (um_step t gin gout) acc).edgeDeleted j =
        if j ∈ l then false else acc.edgeDeleted j := by
  intro l
  induction l with
  | nil => intro acc j; simp
  | cons i rest ih =>
      intro acc j
      rw [List.foldl_cons, ih, um_step_edgeDeleted]
      by_cases hr : j ∈ rest <;> by_cases hj : j = i <;>
        simp [hr, hj, List.mem_cons]

theorem um_fold_in {t : Topo} (ht : t.WF) (gin gout : Nat) :
    ∀ (l : List Nat) (acc : St) (x : Nat),
      ((acc.node x).incTouched = true →
        ∃ i ∈ l, ∃ e ∈ t.edges, e.eid = i ∧ e.dst = x) →
      ((acc.node x).incTouched = false →
        ((acc.node x).incEWD = none ∨ (acc.node x).incEWD = some (t.rawIncE x)) ∧
        ((acc.node x).incNWD = none ∨ (acc.node x).incNWD = some (t.rawIncN x))) →
      ((l.foldl (um_step t gin gout) acc).node x).incTouched = false ∧
      (((l.foldl (um_step t gin gout) acc).node x).incEWD = none ∨
        ((l.foldl (um_step t gin gout) acc).node x).incEWD = some (t.rawIncE x)) ∧
      (((l.foldl (um_step t gin gout) acc).node x).incNWD = none ∨
        ((l.foldl (um_step t gin gout) acc).node x).incNWD = some (t.rawIncN x)) := by
  intro l
  induction l with
  | nil =>
      intro acc x h1 h2
      rcases htch : (acc.node x).incTouched with _ | _
      · obtain ⟨hE, hN⟩ := h2 htch
        exact ⟨htch, hE, hN⟩
      · obtain ⟨i, hi, -⟩ := h1 htch
        cases hi
  | cons i rest ih =>
      intro acc x h1 h2
      rw [List.foldl_cons]
      refine ih (um_step t gin gout acc i) x ?_ ?_
      · intro htr
        rcases um_step_inMain t gin gout acc i x with ⟨ht1, _, _⟩ | ⟨hcl, _, _⟩
        · rw [ht1] at htr
          obtain ⟨i0, hi0, e0, he0, heid, hdst⟩ := h1 htr
          rcases List.mem_cons.mp hi0 with hi0 | hi0
          · exfalso
            have hE : t.edge? i = some e0 := edge?_eq_some ht he0 (heid.trans hi0)
            have hhit := um_step_inHit t gin gout acc i hE (by rw [hdst]; exact htr)
            rw [hdst] at hhit
            have hcon : ((um_step t gin gout acc i).node x).incTouched = true := by
              rw [ht1]; exact htr
            rw [hhit.1] at hcon
            cases hcon
          · exact ⟨i0, hi0, e0, he0, heid, hdst⟩
        · rw [hcl] at htr
          cases htr
      · intro htf
        rcases um_step_inMain t gin gout acc i x with ⟨ht1, hE1, hN1⟩ | ⟨_, hE1, hN1⟩
        · rw [ht1] at htf
          obtain ⟨hE, hN⟩ := h2 htf
          rw [hE1, hN1]
          exact ⟨hE, hN⟩
        · rw [hE1, hN1]
          exact ⟨Or.inl rfl, Or.inl rfl⟩

theorem um_fold_out {t : Topo} (ht : t.WF) (gin gout : Nat) :
    ∀ (l : List Nat) (acc : St) (x : Nat),
      ((acc.node x).outTouched = true →
        ∃ i ∈ l, ∃ e ∈ t.edges, e.eid = i ∧ e.src = x) →
      ((acc.node x).outTouched = false →
        ((acc.node x).outEWD = none ∨ (acc.node x).outEWD = some (t.rawOutE x)) ∧
        ((acc.node x).outNWD = none ∨ (acc.node x).outNWD = some (t.rawOutN x))) →
      ((l.foldl (um_step t gin gout) acc).node x).outTouched = false ∧
      (((l.foldl (um_step t gin gout) acc).node x).outEWD = none ∨
        ((l.foldl (um_step t gin gout) acc).node x).outEWD = some (t.rawOutE x)) ∧
      (((l.foldl (um_step t gin gout) acc).node x).outNWD = none ∨
        ((l.foldl (um_step t gin gout) acc).node x).outNWD = some (t.rawOutN x)) := by
  intro l
  induction l with
  | nil =>
      intro acc x h1 h2
      rcases htch : (acc.node x).outTouched with _ | _
      · obtain ⟨hE, hN⟩ := h2 htch
        exact ⟨htch, hE, hN⟩
      · obtain ⟨i, hi, -⟩ := h1 htch
        cases hi
  | cons i rest ih =>
      intro acc x h1 h2
      rw [List.foldl_cons]
      refine ih (um_step t gin gout acc i) x ?_ ?_
      · intro htr
        rcases um_step_outMain t gin gout acc i x with ⟨ht1, _, _⟩ | ⟨hcl, _, _⟩
        · rw [ht1] at htr
          obtain ⟨i0, hi0, e0, he0, heid, hsrc⟩ := h1 htr
          rcases List.mem_cons.mp hi0 with hi0 | hi0
          · exfalso
            have hE : t.edge? i = some e0 := edge?_eq_some ht he0 (heid.trans hi0)
            have hhit := um_step_outHit t gin gout acc i hE (by rw [hsrc]; exact htr)
            rw [hsrc] at hhit
            have hcon : ((um_step t gin gout acc i).node x).outTouched = true := by
              rw [ht1]; exact htr
            rw [hhit.1] at hcon
            cases hcon
          · exact ⟨i0, hi0, e0, he0, heid, hsrc⟩
        · rw [hcl] at htr
          cases htr
      · intro htf
        rcases um_step_outMain t gin gout acc i x with ⟨ht1, hE1, hN1⟩ | ⟨_, hE1, hN1⟩
        · rw [ht1] at htf
          obtain ⟨hE, hN⟩ := h2 htf
          rw [hE1, hN1]
          exact ⟨hE, hN⟩
        · rw [hE1, hN1]
          exact ⟨Or.inl rfl, Or.inl rfl⟩

/-- `Graph.unmark_deleted` fully restores a state satisfying the unmark
invariant: empty deleted sets, cleared flags, untouched views that are
either unmaterialized or raw. -/
theorem unmark_clean {t : Topo} {s : St} (ht : t.WF) (h : UInv t s) :
    (unmark_deleted t s).deletedNodes = ∅ ∧
    (unmark_deleted t s).deletedEdges = ∅ ∧
    (∀ x, ((unmark_deleted t s).node x).deleted = false) ∧
    (∀ i, (unmark_deleted t s).edgeDeleted i = false) ∧
    (∀ x, ((unmark_deleted t s).node x).incTouched = false ∧
      ((unmark_deleted t s).node x).outTouched = false) ∧
    (∀ x,
      (((unmark_deleted t s).node x).incEWD = none ∨
        ((unmark_deleted t s).node x).incEWD = some (t.rawIncE x)) ∧
      (((unmark_deleted t s).node x).incNWD = none ∨
        ((unmark_deleted t s).node x).incNWD = some (t.rawIncN x)) ∧
      (((unmark_deleted t s).node x).outEWD = none ∨
        ((unmark_deleted t s).node x).outEWD = some (t.rawOutE x)) ∧
      (((unmark_deleted t s).node x).outNWD = none ∨
        ((unmark_deleted t s).node x).outNWD = some (t.rawOutN x))) := by
  rw [unmark_deleted_eq]
  set s1 : St := { s with inCL := s.inCL + 1, outCL := s.outCL + 1 } with hs1
  set c2 : St := (sortFin s.deletedNodes).foldl
    (fun (acc : St) n => acc.updNode n (fun ns => { ns with deleted := false }))
    s1 with hc2
  set c3 : St := { c2 with deletedNodes := ∅ } with hc3
  set L : List Nat := sortFin c2.deletedEdges with hL
  set R : St := L.foldl (um_step t (s.inCL + 1) (s.outCL + 1)) c3 with hR
  have hc2n : ∀ x, c2.node x =
      if x ∈ sortFin s.deletedNodes then { s.node x with deleted := false }
      else s.node x := by
    intro x
    rw [hc2]
    exact clear_fold_node _ _ x
  have hDEc2 : c2.deletedEdges = s.deletedEdges := by
    rw [hc2]
    exact (clear_fold_comps _ _).2.2
  have hEFc2 : c2.edgeDeleted = s.edgeDeleted := by
    rw [hc2]
    exact (clear_fold_comps _ _).1
  have hfields : ∀ x,
      (c3.node x).incTouched = (s.node x).incTouched ∧
      (c3.node x).outTouched = (s.node x).outTouched ∧
      (c3.node x).incEWD = (s.node x).incEWD ∧
      (c3.node x).incNWD = (s.node x).incNWD ∧
      (c3.node x).outEWD = (s.node x).outEWD ∧
      (c3.node x).outNWD = (s.node x).outNWD := by
    intro x
    have hcc : c3.node x = c2.node x := by rw [hc3]
    rw [hcc, hc2n x]
    split <;> exact ⟨rfl, rfl, rfl, rfl, rfl, rfl⟩
  have HIN : ∀ x, ((R.node x).incTouched = false) ∧
      ((R.node x).incEWD = none ∨ (R.node x).incEWD = some (t.rawIncE x)) ∧
      ((R.node x).incNWD = none ∨ (R.node x).incNWD = some (t.rawIncN x)) := by
    intro x
    rw [hR]
    refine um_fold_in ht (s.inCL + 1) (s.outCL + 1) L c3 x ?_ ?_
    · intro htr
      rw [(hfields x).1] at htr
      obtain ⟨e, he, hdst, hDE⟩ := h.inTT x htr
      refine ⟨e.eid, ?_, e, he, rfl, hdst⟩
      rw [hL]
      exact mem_sortFin.mpr (by rw [hDEc2]; exact hDE)
    · intro htf
      rw [(hfields x).1] at htf
      obtain ⟨hE, hN⟩ := h.inTF x htf
      rw [(hfields x).2.2.1, (hfields x).2.2.2.1]
      exact ⟨hE, hN⟩
  have HOUT : ∀ x, ((R.node x).outTouched = false) ∧
      ((R.node x).outEWD = none ∨ (R.node x).outEWD = some (t.rawOutE x)) ∧
      ((R.node x).outNWD = none ∨ (R.node x).outNWD = some (t.rawOutN x)) := by
    intro x
    rw [hR]
    refine um_fold_out ht (s.inCL + 1) (s.outCL + 1) L c3 x ?_ ?_
    · intro htr
      rw [(hfields x).2.1] at htr
      obtain ⟨e, he, hsrc, hDE⟩ := h.outTT x htr
      refine ⟨e.eid, ?_, e, he, rfl, hsrc⟩
      rw [hL]
      exact mem_sortFin.mpr (by rw [hDEc2]; exact hDE)
    · intro htf
      rw [(hfields x).2.1] at htf
      obtain ⟨hE, hN⟩ := h.outTF x htf
      rw [(hfields x).2.2.2.2.1, (hfields x).2.2.2.2.2]
      exact ⟨hE, hN⟩
  refine ⟨?_, rfl, ?_, ?_, ?_, ?_⟩
  · show R.deletedNodes = ∅
    rw [hR, (um_fold_sets t _ _ L c3).1, hc3]
  · intro x
    show (R.node x).deleted = false
    rw [hR, um_fold_deleted]
    have hcc : (c3.node x).deleted = (c2.node x).deleted := by rw [hc3]
    rw [hcc, hc2n x]
    split
    · rfl
    · rename_i hmem
      rcases hb : (s.node x).deleted with _ | _
      · rfl
      · exact absurd (mem_sortFin.mpr ((h.nflag x).mp hb)) hmem
  · intro i
    show R.edgeDeleted i = false
    rw [hR, um_fold_flag]
    by_cases hiL : i ∈ L
    · simp [hiL]
    · simp only [hiL, if_false]
      have hino : i ∉ s.deletedEdges := by
        intro hcon
        exact hiL (by rw [hL]; exact mem_sortFin.mpr (by rw [hDEc2]; exact hcon))
      have hcc : c3.edgeDeleted i = s.edgeDeleted i := by
        rw [hc3]
        show c2.edgeDeleted i = s.edgeDeleted i
        rw [hEFc2]
      rw [hcc]
      rcases hb : s.edgeDeleted i with _ | _
      · rfl
      · exact absurd ((h.eflag i).mp hb) hino
  · intro x
    exact ⟨(HIN x).1, (HOUT x).1⟩
  · intro x
    exact ⟨(HIN x).2.1, (HIN x).2.2, (HOUT x).2.1, (HOUT x).2.2⟩

/-- On a state with empty deleted sets, `unmark_deleted` only bumps the two
cache-level counters. -/
theorem unmark_noop {t : Topo} {u : St} (hDN : u.deletedNodes = ∅)
    (hDE : u.deletedEdges = ∅) :
    (unmark_deleted t u).node = u.node ∧
    (unmark_deleted t u).edgeDeleted = u.edgeDeleted ∧
    (unmark_deleted t u).deletedNodes = ∅ ∧
    (unmark_deleted t u).deletedEdges = ∅ ∧
    (unmark_deleted t u).inCL = u.inCL + 1 ∧
    (unmark_deleted t u).outCL = u.outCL + 1 := by
  have hnil : sortFin (∅ : Finset Nat) = [] := rfl
  rw [unmark_deleted_eq, hDN, hnil]
  simp only [List.foldl_nil]
  rw [hDE, hnil]
  simp only [List.foldl_nil]
  refine ⟨?_, ?_, ?_, ?_, ?_, ?_⟩ <;> first | rfl | trivial

/-- C7.  After any finite sequence of `mark_deleted` /
`mark_members_deleted` / `mark_members_including_obsolete_deleted`
operations on the frozen graph, one `unmark_deleted` call empties
`deleted_nodes` and `deleted_edges`, clears every member deleted flag,
restores every node live view to the raw frozen view, and a second
`unmark_deleted` changes nothing besides bumping the two cache-level
counters. -/
theorem c7_unmark_roundtrip (t : Topo) (ops : List MarkOp) (ht : t.WF) :
    (unmark_deleted t (runOps t ops St.init)).deletedNodes = ∅ ∧
    (unmark_deleted t (runOps t ops St.init)).deletedEdges = ∅ ∧
    (∀ x, ((unmark_deleted t (runOps t ops St.init)).node x).deleted = false) ∧
    (∀ i, (unmark_deleted t (runOps t ops St.init)).edgeDeleted i = false) ∧
    (∀ x,
      (incoming_edges t (unmark_deleted t (runOps t ops St.init)) x).1 = t.rawIncE x ∧
      (incoming_nodes t (unmark_deleted t (runOps t ops St.init)) x).1 = t.rawIncN x ∧
      (outgoing_edges t (unmark_deleted t (runOps t ops St.init)) x).1 = t.rawOutE x ∧
      (outgoing_nodes t (unmark_deleted t (runOps t ops St.init)) x).1 = t.rawOutN x) ∧
    ((unmark_deleted t (unmark_deleted t (runOps t ops St.init))).node
        = (unmark_deleted t (runOps t ops St.init)).node ∧
      (unmark_deleted t (unmark_deleted t (runOps t ops St.init))).edgeDeleted
        = (unmark_deleted t (runOps t ops St.init)).edgeDeleted ∧
      (unmark_deleted t (unmark_deleted t (runOps t ops St.init))).deletedNodes = ∅ ∧
      (unmark_deleted t (unmark_deleted t (runOps t ops St.init))).deletedEdges = ∅) := by
  have hU : UInv t (runOps t ops St.init) := uinv_runOps ops St.init (uinv_init t)
  obtain ⟨hDN, hDE, hdel, hflag, htch, hviews⟩ := unmark_clean ht hU
  refine ⟨hDN, hDE, hdel, hflag, ?_, ?_⟩
  · intro x
    obtain ⟨hie, hin, hoe, hon⟩ := hviews x
    refine ⟨?_, ?_, ?_, ?_⟩
    · rcases hie with h0 | h0 <;> simp [incoming_edges, h0]
    · rcases hin with h0 | h0 <;> simp [incoming_nodes, h0]
    · rcases hoe with h0 | h0 <;> simp [outgoing_edges, h0]
    · rcases hon with h0 | h0 <;> simp [outgoing_nodes, h0]
  · obtain ⟨n1, n2, n3, n4, _, _⟩ := unmark_noop (t := t) hDN hDE
    exact ⟨n1, n2, n3, n4⟩

/-- Witness for C7 on the concrete S3 topology (node 1 marked directly, node
2 through the obsolete-propagation entry point). -/
theorem c7_unmark_roundtrip_witness :
    (unmark_deleted s3topo
        (runOps s3topo [MarkOp.mnode 1, MarkOp.mmiod 0 [(2, 0)]] St.init)).deletedNodes = ∅ ∧
    (unmark_deleted s3topo
        (runOps s3topo [MarkOp.mnode 1, MarkOp.mmiod 0 [(2, 0)]] St.init)).deletedEdges = ∅ ∧
    (∀ x, ((unmark_deleted s3topo
        (runOps s3topo [MarkOp.mnode 1, MarkOp.mmiod 0 [(2, 0)]] St.init)).node x).deleted = false) ∧
    (∀ i, (unmark_deleted s3topo
        (runOps s3topo [MarkOp.mnode 1, MarkOp.mmiod 0 [(2, 0)]] St.init)).edgeDeleted i = false) ∧
    (∀ x,
      (incoming_edges s3topo (unmark_deleted s3topo
        (runOps s3topo [MarkOp.mnode 1, MarkOp.mmiod 0 [(2, 0)]] St.init)) x).1 = s3topo.rawIncE x ∧
      (incoming_nodes s3topo (unmark_deleted s3topo
        (runOps s3topo [MarkOp.mnode 1, MarkOp.mmiod 0 [(2, 0)]] St.init)) x).1 = s3topo.rawIncN x ∧
      (outgoing_edges s3topo (unmark_deleted s3topo
        (runOps s3topo [MarkOp.mnode 1, MarkOp.mmiod 0 [(2, 0)]] St.init)) x).1 = s3topo.rawOutE x ∧
      (outgoing_nodes s3topo (unmark_deleted s3topo
        (runOps s3topo [MarkOp.mnode 1, MarkOp.mmiod 0 [(2, 0)]] St.init)) x).1 = s3topo.rawOutN x) ∧
    ((unmark_deleted s3topo (unmark_deleted s3topo
        (runOps s3topo [MarkOp.mnode 1, MarkOp.mmiod 0 [(2, 0)]] St.init))).node
        = (unmark_deleted s3topo
        (runOps s3topo [MarkOp.mnode 1, MarkOp.mmiod 0 [(2, 0)]] St.init)).node ∧
      (unmark_deleted s3topo (unmark_deleted s3topo
        (runOps s3topo [MarkOp.mnode 1, MarkOp.mmiod 0 [(2, 0)]] St.init))).edgeDeleted
        = (unmark_deleted s3topo
        (runOps s3topo [MarkOp.mnode 1, MarkOp.mmiod 0 [(2, 0)]] St.init)).edgeDeleted ∧
      (unmark_deleted s3topo (unmark_deleted s3topo
        (runOps s3topo [MarkOp.mnode 1, MarkOp.mmiod 0 [(2, 0)]] St.init))).deletedNodes = ∅ ∧
      (unmark_deleted s3topo (unmark_deleted s3topo
        (runOps s3topo [MarkOp.mnode 1, MarkOp.mmiod 0 [(2, 0)]] St.init))).deletedEdges = ∅) :=
  c7_unmark_roundtrip s3topo [MarkOp.mnode 1, MarkOp.mmiod 0 [(2, 0)]] (by decide)

/-!  ## Exact probabilities of `oneOver` -/

theorem ltOne_iff (p : ℚ) : ltOne p ↔ p.num < (p.den : Int) := by
  have hden : (0:ℚ) < (p.den : ℚ) := by exact_mod_cast p.pos
  simp only [ltOne]
  constructor
  · intro h
    have h2 : (p.num : ℚ) / (p.den : ℚ) < 1 := by rw [Rat.num_div_den p]; exact h
    rw [div_lt_one hden] at h2
    exact_mod_cast h2
  · intro h
    have h2 : (p.num : ℚ) < (p.den : ℚ) := by exact_mod_cast h
    calc p = (p.num : ℚ) / (p.den : ℚ) := (Rat.num_div_den p).symm
      _ < 1 := by rw [div_lt_one hden]; exact h2

theorem nearOne_iff (p : ℚ) :
    nearOne p ↔ 100000 * |p.num - (p.den : Int)| < (p.den : Int) := by
  have hden : (0:ℚ) < (p.den : ℚ) := by exact_mod_cast p.pos
  have h1 : p - 1 = ((p.num - (p.den : Int) : Int) : ℚ) / (p.den : ℚ) := by
    push_cast
    rw [sub_div, Rat.num_div_den, div_self (ne_of_gt hden)]
  simp only [nearOne, epsilon]
  rw [h1, abs_div, abs_of_pos hden,
    div_lt_div_iff₀ hden (by norm_num : (0:ℚ) < 100000)]
  rw [← Int.cast_abs, one_mul, mul_comm]
  constructor
  · intro h; exact_mod_cast h
  · intro h; exact_mod_cast h

theorem oneOver_num {k : Nat} (hk : k ≠ 0) : (oneOver k).num = 1 := by
  simp [oneOver, hk]

theorem oneOver_den {k : Nat} (hk : k ≠ 0) : (oneOver k).den = k := by
  simp [oneOver, hk]

theorem ltOne_oneOver {k : Nat} (hk : 2 ≤ k) : ltOne (oneOver k) := by
  rw [ltOne_iff, oneOver_num (by omega), oneOver_den (by omega)]
  exact_mod_cast (by omega : 1 < k)

theorem oneOver_one : oneOver 1 = 1 := by decide

theorem nearOne_one : nearOne (1 : ℚ) := by decide

theorem not_nearOne_oneOver {k : Nat} (hk : 2 ≤ k) : ¬ nearOne (oneOver k) := by
  rw [nearOne_iff, oneOver_num (by omega), oneOver_den (by omega)]
  intro hcon
  have hk2 : (2 : Int) ≤ (k : Int) := by exact_mod_cast hk
  have habs : |(1 : Int) - (k : Int)| = (k : Int) - 1 := by
    rw [abs_sub_comm]
    exact abs_of_nonneg (by omega)
  rw [habs] at hcon
  omega

theorem oneOver_eq {k : Nat} (hk : k ≠ 0) : oneOver k = 1 / (k : ℚ) := by
  have h := Rat.num_div_den (oneOver k)
  rw [oneOver_num hk, oneOver_den hk] at h
  rw [← h]
  simp

/-!  ## The exactness invariant

The full state invariant of the engine, up to a set `X` of nodes whose
outgoing view is allowed to be transiently stale: during
`Edge.mark_deleted`, the edge is flagged before the from-node's outgoing
view is repaired (probability `< 1`) or the from-node itself is deleted
(probability within ε of `1`), so while the cascade runs the from-node's
exact-view clauses are suspended for it. -/

structure Inv (t : Topo) (X : Finset Nat) (s : St) : Prop where
  nflag : ∀ x, (s.node x).deleted = true ↔ x ∈ s.deletedNodes
  eflag : ∀ i, s.edgeDeleted i = true ↔ i ∈ s.deletedEdges
  deEdges : ∀ i ∈ s.deletedEdges, ∃ e ∈ t.edges, e.eid = i
  nodeIncident : ∀ x ∈ s.deletedNodes, ∀ e ∈ t.edges,
    e.src = x ∨ e.dst = x → e.eid ∈ s.deletedEdges
  nonOrSrc : ∀ e ∈ t.edges, e.eid ∈ s.deletedEdges → e.isOr = false →
    e.src ∈ s.deletedNodes ∨ e.src ∈ X
  incEW : ∀ x v, (s.node x).incEWD = some v →
    t.rawIncE x \ s.deletedEdges ⊆ v ∧ v ⊆ t.rawIncE x
  outEW : ∀ x v, (s.node x).outEWD = some v →
    t.rawOutE x \ s.deletedEdges ⊆ v ∧ v ⊆ t.rawOutE x
  outENone : ∀ x, x ∉ X → (s.node x).deleted = false →
    (s.node x).outEWD = none → ∀ e ∈ t.edges, e.src = x →
      e.eid ∉ s.deletedEdges
  outESome : ∀ x, x ∉ X → (s.node x).deleted = false →
    ∀ v, (s.node x).outEWD = some v → v = t.rawOutE x \ s.deletedEdges
  inTF : ∀ x, (s.node x).incTouched = false →
    ((s.node x).incEWD = none ∨ (s.node x).incEWD = some (t.rawIncE x)) ∧
    ((s.node x).incNWD = none ∨ (s.node x).incNWD = some (t.rawIncN x))
  outTF : ∀ x, (s.node x).outTouched = false →
    ((s.node x).outEWD = none ∨ (s.node x).outEWD = some (t.rawOutE x)) ∧
    ((s.node x).outNWD = none ∨ (s.node x).outNWD = some (t.rawOutN x))
  inTT : ∀ x, (s.node x).incTouched = true →
    ∃ e ∈ t.edges, e.dst = x ∧ e.eid ∈ s.deletedEdges
  outTT : ∀ x, (s.node x).outTouched = true →
    ∃ e ∈ t.edges, e.src = x ∧ e.eid ∈ s.deletedEdges

theorem Inv.toUInv {t : Topo} {X : Finset Nat} {s : St} (h : Inv t X s) :
    UInv t s :=
  ⟨h.nflag, h.eflag, h.deEdges, h.inTF, h.outTF, h.inTT, h.outTT⟩

theorem Inv.weaken {t : Topo} {X X' : Finset Nat} {s : St} (hX : X ⊆ X')
    (h : Inv t X s) : Inv t X' s := by
  refine ⟨h.nflag, h.eflag, h.deEdges, h.nodeIncident, ?_, h.incEW, h.outEW,
    ?_, ?_, h.inTF, h.outTF, h.inTT, h.outTT⟩
  · intro e he hde hor
    rcases h.nonOrSrc e he hde hor with hc | hc
    · exact Or.inl hc
    · exact Or.inr (hX hc)
  · intro x hx
    exact h.outENone x (fun hc => hx (hX hc))
  · intro x hx
    exact h.outESome x (fun hc => hx (hX hc))

theorem Inv.drop {t : Topo} {X : Finset Nat} {n : Nat} {s : St}
    (h : Inv t (insert n X) s) (hflag : (s.node n).deleted = true) :
    Inv t X s := by
  refine ⟨h.nflag, h.eflag, h.deEdges, h.nodeIncident, ?_, h.incEW, h.outEW,
    ?_, ?_, h.inTF, h.outTF, h.inTT, h.outTT⟩
  · intro e he hde hor
    rcases h.nonOrSrc e he hde hor with hc | hc
    · exact Or.inl hc
    · rcases Finset.mem_insert.mp hc with hc | hc
      · exact Or.inl (by rw [← hc] at hflag; exact (h.nflag e.src).mp hflag)
      · exact Or.inr hc
  · intro x hx hdel
    have hxn : x ≠ n := fun hc => by rw [hc, hflag] at hdel; cases hdel
    exact h.outENone x (fun hc =>
      (Finset.mem_insert.mp hc).elim (fun h1 => hxn h1) hx) hdel
  · intro x hx hdel
    have hxn : x ≠ n := fun hc => by rw [hc, hflag] at hdel; cases hdel
    exact h.outESome x (fun hc =>
      (Finset.mem_insert.mp hc).elim (fun h1 => hxn h1) hx) hdel

theorem inv_init (t : Topo) (X : Finset Nat) : Inv t X St.init := by
  refine ⟨?_, ?_, ?_, ?_, ?_, ?_, ?_, ?_, ?_, ?_, ?_, ?_, ?_⟩ <;>
    intro x <;> simp [St.init]

theorem inv_of_qext {t : Topo} {X : Finset Nat} {s s' : St}
    (hq : QueryExt t s s') (h : Inv t X s) : Inv t X s' := by
  obtain ⟨hdn, hde, hef, hn⟩ := hq
  have hU := uinv_of_qext ⟨hdn, hde, hef, hn⟩ h.toUInv
  refine ⟨hU.nflag, hU.eflag, hU.deEdges, ?_, ?_, ?_, ?_, ?_, ?_,
    hU.inTF, hU.outTF, hU.inTT, hU.outTT⟩
  · intro x hx e he hinc
    rw [hde]
    exact h.nodeIncident x (hdn ▸ hx) e he hinc
  · intro e he hmem hor
    rw [hdn]
    exact h.nonOrSrc e he (hde ▸ hmem) hor
  · intro x v hv
    rw [hde]
    rcases (hn x).2.2.2.1 with heq | ⟨hnone, hsome⟩
    · exact h.incEW x v (heq ▸ hv)
    · rw [hsome] at hv
      cases hv
      exact ⟨Finset.sdiff_subset, subset_rfl⟩
  · intro x v hv
    rw [hde]
    rcases (hn x).2.2.2.2.2.1 with heq | ⟨hnone, hsome⟩
    · exact h.outEW x v (heq ▸ hv)
    · rw [hsome] at hv
      cases hv
      exact ⟨Finset.sdiff_subset, subset_rfl⟩
  · intro x hx hdel hnone e he hsrc
    rw [hde]
    have hdel0 : (s.node x).deleted = false := (hn x).1 ▸ hdel
    rcases (hn x).2.2.2.2.2.1 with heq | ⟨hnone0, hsome⟩
    · exact h.outENone x hx hdel0 (heq ▸ hnone) e he hsrc
    · rw [hsome] at hnone
      cases hnone
  · intro x hx hdel v hv
    rw [hde]
    have hdel0 : (s.node x).deleted = false := (hn x).1 ▸ hdel
    rcases (hn x).2.2.2.2.2.1 with heq | ⟨hnone0, hsome⟩
    · exact h.outESome x hx hdel0 v (heq ▸ hv)
    · rw [hsome] at hv
      cases hv
      have hdis : t.rawOutE x ∩ s.deletedEdges = ∅ := by
        refine Finset.eq_empty_of_forall_not_mem (fun j hj => ?_)
        obtain ⟨hj1, hj2⟩ := Finset.mem_inter.mp hj
        obtain ⟨f, hf, hfs, hfe⟩ := mem_rawOutE.mp hj1
        exact h.outENone x hx hdel0 hnone0 f hf hfs (hfe ▸ hj2)
      exact (Finset.sdiff_eq_self_iff_disjoint.mpr
        (Finset.disjoint_iff_inter_eq_empty.mpr hdis)).symm

theorem src_live {t : Topo} {X : Finset Nat} {s : St} {e : EdgeT}
    (hI : Inv t X s) (he : e ∈ t.edges)
    (hlive : s.edgeDeleted e.eid = false) :
    (s.node e.src).deleted = false := by
  rcases hb : (s.node e.src).deleted with _ | _
  · rfl
  · exfalso
    have hmem := hI.nodeIncident e.src ((hI.nflag e.src).mp hb) e he (Or.inl rfl)
    rw [(hI.eflag e.eid).mpr hmem] at hlive
    cases hlive

theorem dst_live {t : Topo} {X : Finset Nat} {s : St} {e : EdgeT}
    (hI : Inv t X s) (he : e ∈ t.edges)
    (hlive : s.edgeDeleted e.eid = false) :
    (s.node e.dst).deleted = false := by
  rcases hb : (s.node e.dst).deleted with _ | _
  · rfl
  · exfalso
    have hmem := hI.nodeIncident e.dst ((hI.nflag e.dst).mp hb) e he (Or.inr rfl)
    rw [(hI.eflag e.eid).mpr hmem] at hlive
    cases hlive

theorem inc_view_bounds {t : Topo} {X : Finset Nat} {s : St} (hI : Inv t X s)
    (n : Nat) :
    t.rawIncE n \ s.deletedEdges ⊆ (incoming_edges t s n).1 ∧
    (incoming_edges t s n).1 ⊆ t.rawIncE n := by
  rcases hv : (s.node n).incEWD with _ | v
  · simp only [incoming_edges, hv]
    exact ⟨Finset.sdiff_subset, subset_rfl⟩
  · simp only [incoming_edges, hv]
    exact hI.incEW n v hv

theorem out_view_bounds {t : Topo} {X : Finset Nat} {s : St} (hI : Inv t X s)
    (n : Nat) :
    t.rawOutE n \ s.deletedEdges ⊆ (outgoing_edges t s n).1 ∧
    (outgoing_edges t s n).1 ⊆ t.rawOutE n := by
  rcases hv : (s.node n).outEWD with _ | v
  · simp only [outgoing_edges, hv]
    exact ⟨Finset.sdiff_subset, subset_rfl⟩
  · simp only [outgoing_edges, hv]
    exact hI.outEW n v hv

/-- On a live unexcepted node, the live outgoing edge view is exactly the
raw outgoing set minus the deleted edges. -/
theorem live_out_view {t : Topo} {X : Finset Nat} {s : St} {x : Nat}
    (hI : Inv t X s) (hx : x ∉ X) (hdel : (s.node x).deleted = false) :
    (outgoing_edges t s x).1 = t.rawOutE x \ s.deletedEdges := by
  rcases hv : (s.node x).outEWD with _ | v
  · simp only [outgoing_edges, hv]
    refine (Finset.sdiff_eq_self_iff_disjoint.mpr ?_).symm
    refine Finset.disjoint_left.mpr (fun j hj hj2 => ?_)
    obtain ⟨f, hf, hfs, hfe⟩ := mem_rawOutE.mp hj
    exact hI.outENone x hx hdel hv f hf hfs (hfe ▸ hj2)
  · simp only [outgoing_edges, hv]
    exact hI.outESome x hx hdel v hv

theorem probability_or_card {t : Topo} {s : St} {e : EdgeT}
    (hor : e.isOr = true) :
    (probability t s e).1 = oneOver ((outgoing_edges t s e.src).1).card := by
  simp [probability, hor]

theorem probability_not_or {t : Topo} {s : St} {e : EdgeT}
    (hor : e.isOr = false) : (probability t s e).1 = 1 := by
  simp [probability, hor]

/-- C5 core: a live OrEdge's probability is `1 / #(live outgoing edges)`. -/
theorem prob_live_card {t : Topo} {X : Finset Nat} {s : St} {e : EdgeT}
    (hI : Inv t X s) (hsx : e.src ∉ X) (he : e ∈ t.edges)
    (hlive : s.edgeDeleted e.eid = false) (hor : e.isOr = true) :
    (probability t s e).1 = oneOver ((t.rawOutE e.src \ s.deletedEdges).card) := by
  rw [probability_or_card hor, live_out_view hI hsx (src_live hI he hlive)]

theorem eid_mem_out_view {t : Topo} {X : Finset Nat} {s : St} {e : EdgeT}
    (hI : Inv t X s) (he : e ∈ t.edges)
    (hlive : s.edgeDeleted e.eid = false) :
    e.eid ∈ (outgoing_edges t s e.src).1 := by
  refine (out_view_bounds hI e.src).1 (Finset.mem_sdiff.mpr ⟨?_, ?_⟩)
  · exact mem_rawOutE.mpr ⟨e, he, rfl, rfl⟩
  · intro hmem
    rw [(hI.eflag e.eid).mpr hmem] at hlive
    cases hlive

/-- A live edge's probability is below one or within ε of one. -/
theorem prob_lt_or_near {t : Topo} {X : Finset Nat} {s : St} {e : EdgeT}
    (hI : Inv t X s) (he : e ∈ t.edges)
    (hlive : s.edgeDeleted e.eid = false) :
    ltOne (probability t s e).1 ∨ nearOne (probability t s e).1 := by
  rcases hor : e.isOr with _ | _
  · right
    rw [probability_not_or hor]
    exact nearOne_one
  · rw [probability_or_card hor]
    have hk : 1 ≤ ((outgoing_edges t s e.src).1).card :=
      Finset.card_pos.mpr ⟨e.eid, eid_mem_out_view hI he hlive⟩
    rcases Nat.lt_or_ge ((outgoing_edges t s e.src).1).card 2 with h2 | h2
    · right
      have h1 : ((outgoing_edges t s e.src).1).card = 1 := by omega
      rw [h1, oneOver_one]
      exact nearOne_one
    · exact Or.inl (ltOne_oneOver h2)

/-- Probability below one forces the edge to be an `OrEdge`. -/
theorem or_of_ltOne {t : Topo} {s : St} {e : EdgeT}
    (hlt : ltOne (probability t s e).1) : e.isOr = true := by
  rcases hor : e.isOr with _ | _
  · exfalso
    rw [probability_not_or hor] at hlt
    exact absurd hlt (by norm_num [ltOne])
  · rfl

/-!  ## The flag/inc stage of `Edge.mark_deleted` preserves the invariant -/

theorem em_core_comps (t : Topo) (e : EdgeT) (s0 : St) :
    (em_inc_lvl e (em_inc t e (em_flag e s0))).deletedNodes = s0.deletedNodes ∧
    (em_inc_lvl e (em_inc t e (em_flag e s0))).deletedEdges =
      insert e.eid s0.deletedEdges ∧
    ∀ i, (em_inc_lvl e (em_inc t e (em_flag e s0))).edgeDeleted i =
      if i = e.eid then true else s0.edgeDeleted i := by
  refine ⟨rfl, rfl, fun i => rfl⟩

theorem em_core_fields (t : Topo) (e : EdgeT) (s0 : St) (x : Nat) :
    ((em_inc_lvl e (em_inc t e (em_flag e s0))).node x).deleted
      = (s0.node x).deleted ∧
    ((em_inc_lvl e (em_inc t e (em_flag e s0))).node x).outTouched
      = (s0.node x).outTouched ∧
    ((em_inc_lvl e (em_inc t e (em_flag e s0))).node x).outEWD
      = (s0.node x).outEWD ∧
    ((em_inc_lvl e (em_inc t e (em_flag e s0))).node x).outNWD
      = (s0.node x).outNWD ∧
    (x ≠ e.dst →
      ((em_inc_lvl e (em_inc t e (em_flag e s0))).node x).incTouched
        = (s0.node x).incTouched ∧
      ((em_inc_lvl e (em_inc t e (em_flag e s0))).node x).incEWD
        = (s0.node x).incEWD ∧
      ((em_inc_lvl e (em_inc t e (em_flag e s0))).node x).incNWD
        = (s0.node x).incNWD) := by
  by_cases hdst : x = e.dst
  · by_cases hsrc : x = e.src
    · have heq : e.src = e.dst := hsrc.symm.trans hdst
      refine ⟨?_, ?_, ?_, ?_, fun hx => absurd hdst hx⟩ <;>
        simp [em_inc_lvl, em_inc, em_flag, St.updNode, St.setEdgeDeleted,
          hdst, hsrc, heq]
    · have hne : e.dst ≠ e.src := fun hc => hsrc (hdst.trans hc)
      refine ⟨?_, ?_, ?_, ?_, fun hx => absurd hdst hx⟩ <;>
        simp [em_inc_lvl, em_inc, em_flag, St.updNode, St.setEdgeDeleted,
          hdst, hne]
  · by_cases hsrc : x = e.src
    · have hne : e.src ≠ e.dst := fun hc => hdst (hsrc.trans hc)
      refine ⟨?_, ?_, ?_, ?_, fun hx => ⟨?_, ?_, ?_⟩⟩ <;>
        simp [em_inc_lvl, em_inc, em_flag, St.updNode, St.setEdgeDeleted,
          hsrc, hne]
    · refine ⟨?_, ?_, ?_, ?_, fun hx => ⟨?_, ?_, ?_⟩⟩ <;>
        simp [em_inc_lvl, em_inc, em_flag, St.updNode, St.setEdgeDeleted,
          hsrc, hdst]

theorem em_core_dst (t : Topo) (e : EdgeT) (s0 : St) :
    ((em_inc_lvl e (em_inc t e (em_flag e s0))).node e.dst).incTouched = true ∧
    ((em_inc_lvl e (em_inc t e (em_flag e s0))).node e.dst).incEWD
      = some (((s0.node e.dst).incEWD.getD (t.rawIncE e.dst)).erase e.eid) ∧
    ((em_inc_lvl e (em_inc t e (em_flag e s0))).node e.dst).incNWD
      = some (((s0.node e.dst).incNWD.getD (t.rawIncN e.dst)).erase e.src) := by
  by_cases hsrc : e.dst = e.src
  · refine ⟨?_, ?_, ?_⟩ <;>
      simp [em_inc_lvl, em_inc, em_flag, St.updNode, St.setEdgeDeleted, hsrc]
  · refine ⟨?_, ?_, ?_⟩ <;>
      simp [em_inc_lvl, em_inc, em_flag, St.updNode, St.setEdgeDeleted, hsrc]

theorem em_s3_inv {t : Topo} {X : Finset Nat} {e : EdgeT} {s : St}
    (ht : t.WF) (he : e ∈ t.edges) (hlive : s.edgeDeleted e.eid = false)
    (hI : Inv t X s) :
    Inv t (insert e.src X)
      (em_inc_lvl e (em_inc t e (em_flag e (probability t s e).2))) := by
  have hI0 : Inv t X (probability t s e).2 :=
    inv_of_qext (q_probability t s e) hI
  obtain ⟨hDN, hDE, hEF⟩ := em_core_comps t e (probability t s e).2
  have hF := em_core_fields t e (probability t s e).2
  obtain ⟨hdT, hdE, hdN⟩ := em_core_dst t e (probability t s e).2
  refine ⟨?_, ?_, ?_, ?_, ?_, ?_, ?_, ?_, ?_, ?_, ?_, ?_, ?_⟩
  · intro x
    rw [(hF x).1, hDN]
    exact hI0.nflag x
  · intro i
    rw [hEF i, hDE]
    by_cases hi : i = e.eid
    · simp [hi]
    · simp only [hi, if_false, Finset.mem_insert, false_or]
      exact hI0.eflag i
  · intro i hi
    rw [hDE] at hi
    rcases Finset.mem_insert.mp hi with hi | hi
    · exact ⟨e, he, hi.symm⟩
    · exact hI0.deEdges i hi
  · intro x hx f hf hinc
    rw [hDN] at hx
    rw [hDE]
    exact Finset.mem_insert_of_mem (hI0.nodeIncident x hx f hf hinc)
  · intro f hf hde hor
    rw [hDE] at hde
    rw [hDN]
    rcases Finset.mem_insert.mp hde with heq | hmem
    · have hfe : f = e := eid_inj ht hf he heq
      exact Or.inr (by rw [hfe]; exact Finset.mem_insert_self _ _)
    · rcases hI0.nonOrSrc f hf hmem hor with hc | hc
      · exact Or.inl hc
      · exact Or.inr (Finset.mem_insert_of_mem hc)
  · intro x v hv
    rw [hDE]
    by_cases hx : x = e.dst
    · rw [hx] at hv ⊢
      rw [hdE] at hv
      cases hv
      constructor
      · intro j hj
        obtain ⟨hj1, hj2⟩ := Finset.mem_sdiff.mp hj
        have hjne : j ≠ e.eid := fun hc => hj2 (hc ▸ Finset.mem_insert_self _ _)
        have hjE0 : j ∉ (probability t s e).2.deletedEdges :=
          fun hc => hj2 (Finset.mem_insert_of_mem hc)
        refine Finset.mem_erase.mpr ⟨hjne, ?_⟩
        rcases hbase : ((probability t s e).2.node e.dst).incEWD with _ | w
        · simpa [hbase] using hj1
        · simp only [hbase, Option.getD_some]
          exact (hI0.incEW e.dst w hbase).1 (Finset.mem_sdiff.mpr ⟨hj1, hjE0⟩)
      · refine (Finset.erase_subset _ _).trans ?_
        rcases hbase : ((probability t s e).2.node e.dst).incEWD with _ | w
        · simp
        · simp only [hbase, Option.getD_some]
          exact (hI0.incEW e.dst w hbase).2
    · rw [(hF x).2.2.2.2 hx |>.2.1] at hv
      obtain ⟨hlow, hup⟩ := hI0.incEW x v hv
      exact ⟨(Finset.sdiff_subset_sdiff subset_rfl
        (Finset.subset_insert _ _)).trans hlow, hup⟩
  · intro x v hv
    rw [hDE]
    rw [(hF x).2.2.1] at hv
    obtain ⟨hlow, hup⟩ := hI0.outEW x v hv
    exact ⟨(Finset.sdiff_subset_sdiff subset_rfl
      (Finset.subset_insert _ _)).trans hlow, hup⟩
  · intro y hy hdel hnone f hf hsrc
    have hyX : y ∉ X := fun hc => hy (Finset.mem_insert_of_mem hc)
    have hysrc : y ≠ e.src := fun hc => hy (hc ▸ Finset.mem_insert_self _ _)
    rw [(hF y).1] at hdel
    rw [(hF y).2.2.1] at hnone
    rw [hDE]
    intro hmem
    rcases Finset.mem_insert.mp hmem with heq | hmem2
    · have hfe : f = e := eid_inj ht hf he heq
      exact hysrc (by rw [← hsrc, hfe])
    · exact hI0.outENone y hyX hdel hnone f hf hsrc hmem2
  · intro y hy hdel v hv
    have hyX : y ∉ X := fun hc => hy (Finset.mem_insert_of_mem hc)
    have hysrc : y ≠ e.src := fun hc => hy (hc ▸ Finset.mem_insert_self _ _)
    rw [(hF y).1] at hdel
    rw [(hF y).2.2.1] at hv
    rw [hDE]
    have heid_not : e.eid ∉ t.rawOutE y := by
      intro hc
      obtain ⟨f, hf, hfs, hfe⟩ := mem_rawOutE.mp hc
      have hfe2 : f = e := eid_inj ht hf he hfe
      exact hysrc (by rw [← hfs, hfe2])
    have hsd : t.rawOutE y \ insert e.eid (probability t s e).2.deletedEdges
        = t.rawOutE y \ (probability t s e).2.deletedEdges := by
      ext j
      simp only [Finset.mem_sdiff, Finset.mem_insert]
      constructor
      · rintro ⟨hj1, hj2⟩
        exact ⟨hj1, fun hc => hj2 (Or.inr hc)⟩
      · rintro ⟨hj1, hj2⟩
        refine ⟨hj1, fun hc => ?_⟩
        rcases hc with hc | hc
        · exact heid_not (hc ▸ hj1)
        · exact hj2 hc
    rw [hsd]
    exact hI0.outESome y hyX hdel v hv
  · intro x hx
    by_cases hxd : x = e.dst
    · rw [hxd, hdT] at hx
      cases hx
    · obtain ⟨hT, hE, hN⟩ := (hF x).2.2.2.2 hxd
      rw [hT] at hx
      rw [hE, hN]
      exact hI0.inTF x hx
  · intro x hx
    rw [(hF x).2.1] at hx
    rw [(hF x).2.2.1, (hF x).2.2.2.1]
    exact hI0.outTF x hx
  · intro x hx
    rw [hDE]
    by_cases hxd : x = e.dst
    · exact ⟨e, he, hxd.symm, Finset.mem_insert_self _ _⟩
    · rw [((hF x).2.2.2.2 hxd).1] at hx
      obtain ⟨f, hf, hfd, hfm⟩ := hI0.inTT x hx
      exact ⟨f, hf, hfd, Finset.mem_insert_of_mem hfm⟩
  · intro x hx
    rw [hDE]
    rw [(hF x).2.1] at hx
    obtain ⟨f, hf, hfs, hfm⟩ := hI0.outTT x hx
    exact ⟨f, hf, hfs, Finset.mem_insert_of_mem hfm⟩

theorem em_out_node_other {t : Topo} {e : EdgeT} {s : St} {x : Nat}
    (hx : x ≠ e.src) : (em_out t e s).node x = s.node x := by
  simp [em_out, St.updNode, hx]

theorem em_out_src_fields (t : Topo) (e : EdgeT) (s : St) :
    ((em_out t e s).node e.src).deleted = (s.node e.src).deleted ∧
    ((em_out t e s).node e.src).incTouched = (s.node e.src).incTouched ∧
    ((em_out t e s).node e.src).incEWD = (s.node e.src).incEWD ∧
    ((em_out t e s).node e.src).incNWD = (s.node e.src).incNWD ∧
    ((em_out t e s).node e.src).outTouched = true ∧
    ((em_out t e s).node e.src).outEWD
      = some (((s.node e.src).outEWD.getD (t.rawOutE e.src)).erase e.eid) ∧
    ((em_out t e s).node e.src).outNWD
      = some (((s.node e.src).outNWD.getD (t.rawOutN e.src)).erase e.dst) := by
  refine ⟨?_, ?_, ?_, ?_, ?_, ?_, ?_⟩ <;> simp [em_out, St.updNode]

theorem em_pre_of_lt {t : Topo} {e : EdgeT} {s : St}
    (hlt : ltOne (probability t s e).1) :
    em_pre t e s =
      em_out t e (em_inc_lvl e (em_inc t e (em_flag e (probability t s e).2))) := by
  simp [em_pre, hlt]

theorem em_pre_of_nlt {t : Topo} {e : EdgeT} {s : St}
    (hnlt : ¬ ltOne (probability t s e).1) :
    em_pre t e s =
      em_inc_lvl e (em_inc t e (em_flag e (probability t s e).2)) := by
  simp [em_pre, hnlt]

/-- After `probability` runs on a live OrEdge, the from-node's live outgoing
edge view is materialized within the weak bounds. -/
theorem prob_view_weak {t : Topo} {X : Finset Nat} {s : St} {e : EdgeT}
    (hI : Inv t X s) (hor : e.isOr = true) :
    ∃ w, ((probability t s e).2.node e.src).outEWD = some w ∧
      t.rawOutE e.src \ s.deletedEdges ⊆ w ∧ w ⊆ t.rawOutE e.src := by
  have hst : (probability t s e).2 = (outgoing_edges t s e.src).2 := by
    simp [probability, hor]
  rw [hst]
  rcases hv : (s.node e.src).outEWD with _ | w
  · refine ⟨t.rawOutE e.src, ?_, Finset.sdiff_subset, subset_rfl⟩
    simp only [outgoing_edges, hv]
    rw [St.updNode_node_same]
  · refine ⟨w, ?_, (hI.outEW e.src w hv).1, (hI.outEW e.src w hv).2⟩
    simp only [outgoing_edges, hv]

/-- On a live unexcepted from-node the materialized view is exact. -/
theorem prob_view {t : Topo} {X : Finset Nat} {s : St} {e : EdgeT}
    (hI : Inv t X s) (hsx : e.src ∉ X) (he : e ∈ t.edges)
    (hlive : s.edgeDeleted e.eid = false) (hor : e.isOr = true) :
    ((probability t s e).2.node e.src).outEWD
      = some (t.rawOutE e.src \ s.deletedEdges) := by
  have hdel := src_live hI he hlive
  have hst : (probability t s e).2 = (outgoing_edges t s e.src).2 := by
    simp [probability, hor]
  rw [hst]
  rcases hv : (s.node e.src).outEWD with _ | v
  · simp only [outgoing_edges, hv]
    rw [St.updNode_node_same]
    refine congrArg some ?_
    have h1 := live_out_view hI hsx hdel
    rw [show (outgoing_edges t s e.src).1 = t.rawOutE e.src by
      simp [outgoing_edges, hv]] at h1
    exact h1
  · simp only [outgoing_edges, hv]
    exact congrArg some (hI.outESome e.src hsx hdel v hv)

theorem em_pre_inv_nlt {t : Topo} {X : Finset Nat} {e : EdgeT} {s : St}
    (ht : t.WF) (he : e ∈ t.edges) (hlive : s.edgeDeleted e.eid = false)
    (hI : Inv t X s) (hnlt : ¬ ltOne (probability t s e).1) :
    Inv t (insert e.src X) (em_pre t e s) := by
  rw [em_pre_of_nlt hnlt]
  exact em_s3_inv ht he hlive hI

theorem em_pre_inv_lt {t : Topo} {X : Finset Nat} {e : EdgeT} {s : St}
    (ht : t.WF) (he : e ∈ t.edges) (hlive : s.edgeDeleted e.eid = false)
    (hI : Inv t X s) (hlt : ltOne (probability t s e).1) :
    Inv t X (em_pre t e s) := by
  rw [em_pre_of_lt hlt]
  have hI0 : Inv t X (probability t s e).2 :=
    inv_of_qext (q_probability t s e) hI
  have hI3 := em_s3_inv (X := X) ht he hlive hI
  have hor := or_of_ltOne hlt
  obtain ⟨hDN0, hDE0, hEF0⟩ := em_core_comps t e (probability t s e).2
  obtain ⟨hsF1, hsF2, hsF3, hsF4, hsF5, hsF6, hsF7⟩ :=
    em_out_src_fields t e (em_inc_lvl e (em_inc t e (em_flag e (probability t s e).2)))
  have hoth : ∀ x, x ≠ e.src →
      (em_out t e (em_inc_lvl e (em_inc t e (em_flag e (probability t s e).2)))).node x
        = (em_inc_lvl e (em_inc t e (em_flag e (probability t s e).2))).node x :=
    fun x hx => em_out_node_other hx
  have hDEs : (probability t s e).2.deletedEdges = s.deletedEdges :=
    (q_probability t s e).2.1
  have hDNem : (em_out t e (em_inc_lvl e (em_inc t e (em_flag e
      (probability t s e).2)))).deletedNodes
      = (probability t s e).2.deletedNodes := hDN0
  have hDEem : (em_out t e (em_inc_lvl e (em_inc t e (em_flag e
      (probability t s e).2)))).deletedEdges
      = insert e.eid (probability t s e).2.deletedEdges := hDE0
  have hbase_eq : ((em_inc_lvl e (em_inc t e (em_flag e
      (probability t s e).2))).node e.src).outEWD
      = ((probability t s e).2.node e.src).outEWD :=
    (em_core_fields t e (probability t s e).2 e.src).2.2.1
  refine ⟨?_, ?_, ?_, ?_, ?_, ?_, ?_, ?_, ?_, ?_, ?_, ?_, ?_⟩
  · intro x
    by_cases hx : x = e.src
    · rw [hx, hsF1]
      exact hI3.nflag e.src
    · rw [hoth x hx]
      exact hI3.nflag x
  · intro i
    exact hI3.eflag i
  · intro i hi
    exact hI3.deEdges i hi
  · intro x hx f hf hinc
    exact hI3.nodeIncident x hx f hf hinc
  · intro f hf hde hor2
    rw [hDEem] at hde
    rw [hDNem]
    rcases Finset.mem_insert.mp hde with heq | hmem
    · exfalso
      have hfe : f = e := eid_inj ht hf he heq
      rw [hfe, hor] at hor2
      cases hor2
    · exact hI0.nonOrSrc f hf hmem hor2
  · intro x v hv
    by_cases hx : x = e.src
    · rw [hx] at hv ⊢
      rw [hsF3] at hv
      exact hI3.incEW e.src v hv
    · rw [hoth x hx] at hv
      exact hI3.incEW x v hv
  · intro x v hv
    by_cases hx : x = e.src
    · rw [hx] at hv ⊢
      rw [hsF6] at hv
      cases hv
      obtain ⟨w, hw, hwl, hwu⟩ := prob_view_weak hI hor
      have hbase : ((em_inc_lvl e (em_inc t e (em_flag e
          (probability t s e).2))).node e.src).outEWD = some w :=
        hbase_eq.trans hw
      rw [hbase]
      simp only [Option.getD_some]
      constructor
      · intro j hj
        obtain ⟨hj1, hj2⟩ := Finset.mem_sdiff.mp hj
        rw [hDEem] at hj2
        have hjne : j ≠ e.eid := fun hc => hj2 (hc ▸ Finset.mem_insert_self _ _)
        have hjE0 : j ∉ s.deletedEdges :=
          fun hc => hj2 (Finset.mem_insert_of_mem (hDEs ▸ hc))
        exact Finset.mem_erase.mpr ⟨hjne, hwl (Finset.mem_sdiff.mpr ⟨hj1, hjE0⟩)⟩
      · exact (Finset.erase_subset _ _).trans hwu
    · rw [hoth x hx] at hv
      exact hI3.outEW x v hv
  · intro y hy hdel hnone f hf hsrc
    by_cases hys : y = e.src
    · exfalso
      rw [hys, hsF6] at hnone
      cases hnone
    · rw [hoth y hys] at hdel hnone
      exact hI3.outENone y (by
        intro hc
        rcases Finset.mem_insert.mp hc with hc | hc
        · exact hys hc
        · exact hy hc) hdel hnone f hf hsrc
  · intro y hy hdel v hv
    by_cases hys : y = e.src
    · rw [hys] at hv hdel ⊢
      rw [hsF6] at hv
      cases hv
      have hsx : e.src ∉ X := hys ▸ hy
      have hpv := prob_view hI hsx he hlive hor
      have hbase : ((em_inc_lvl e (em_inc t e (em_flag e
          (probability t s e).2))).node e.src).outEWD
          = some (t.rawOutE e.src \ s.deletedEdges) :=
        hbase_eq.trans hpv
      rw [hbase]
      simp only [Option.getD_some]
      rw [hDEem, hDEs]
      ext j
      simp only [Finset.mem_erase, Finset.mem_sdiff, Finset.mem_insert]
      constructor
      · rintro ⟨hjne, hj1, hj2⟩
        exact ⟨hj1, fun hc => hc.elim hjne hj2⟩
      · rintro ⟨hj1, hj2⟩
        exact ⟨fun hc => hj2 (Or.inl hc), hj1, fun hc => hj2 (Or.inr hc)⟩
    · rw [hoth y hys] at hdel hv
      exact hI3.outESome y (by
        intro hc
        rcases Finset.mem_insert.mp hc with hc | hc
        · exact hys hc
        · exact hy hc) hdel v hv
  · intro x hx
    by_cases hxs : x = e.src
    · rw [hxs] at hx ⊢
      rw [hsF2] at hx
      rw [hsF3, hsF4]
      exact hI3.inTF e.src hx
    · rw [hoth x hxs] at hx ⊢
      exact hI3.inTF x hx
  · intro x hx
    by_cases hxs : x = e.src
    · rw [hxs, hsF5] at hx
      cases hx
    · rw [hoth x hxs] at hx ⊢
      exact hI3.outTF x hx
  · intro x hx
    by_cases hxs : x = e.src
    · rw [hxs] at hx ⊢
      rw [hsF2] at hx
      obtain ⟨f, hf, hfd, hfm⟩ := hI3.inTT e.src hx
      exact ⟨f, hf, hfd, hfm⟩
    · rw [hoth x hxs] at hx
      exact hI3.inTT x hx
  · intro x hx
    by_cases hxs : x = e.src
    · refine ⟨e, he, hxs.symm, ?_⟩
      rw [hDEem]
      exact Finset.mem_insert_self _ _
    · rw [hoth x hxs] at hx
      exact hI3.outTT x hx

theorem em_pre_edgeDeleted (t : Topo) (e : EdgeT) (s : St) (i : Nat) :
    (em_pre t e s).edgeDeleted i =
      if i = e.eid then true else s.edgeDeleted i := by
  have hEF := (em_core_comps t e (probability t s e).2).2.2 i
  have hs : (probability t s e).2.edgeDeleted i = s.edgeDeleted i :=
    (q_probability t s e).2.2.1 i
  by_cases hlt : ltOne (probability t s e).1
  · rw [em_pre_of_lt hlt]
    show (em_inc_lvl e (em_inc t e (em_flag e (probability t s e).2))).edgeDeleted i = _
    rw [hEF, hs]
  · rw [em_pre_of_nlt hlt]
    rw [hEF, hs]

/-- The deleted flags of nodes are untouched by the pre-cascade stages. -/
theorem em_pre_node_deleted (t : Topo) (e : EdgeT) (s : St) (x : Nat) :
    ((em_pre t e s).node x).deleted = ((s.node x)).deleted := by
  have hq := ((q_probability t s e).2.2.2 x).1
  have hcore := (em_core_fields t e (probability t s e).2 x).1
  by_cases hlt : ltOne (probability t s e).1
  · rw [em_pre_of_lt hlt]
    by_cases hx : x = e.src
    · rw [hx]
      rw [(em_out_src_fields t e _).1]
      rw [hx] at hcore hq
      rw [hcore, hq]
    · rw [em_out_node_other hx, hcore, hq]
  · rw [em_pre_of_nlt hlt, hcore, hq]

theorem mu_em_pre {t : Topo} {e : EdgeT} {s : St} (he : e ∈ t.edges)
    (hlive : s.edgeDeleted e.eid = false) :
    mu t (em_pre t e s) + 1 ≤ mu t s := by
  have hflags : ∀ a ∈ t.edges,
      (! (em_pre t e s).edgeDeleted a.eid) = true →
      (! s.edgeDeleted a.eid) = true := by
    intro a _ ha
    rcases hb : s.edgeDeleted a.eid with _ | _
    · rfl
    · exfalso
      have := (em_pre_mono t e s).2.2.2 a.eid hb
      rw [this] at ha
      cases ha
  have hlt := length_filter_lt hflags he (by simp [hlive])
    (by simp [em_pre_edgeDeleted])
  unfold mu
  omega

/-- At positive fuel, `Edge.mark_deleted` leaves the edge flagged. -/
theorem em_flag_set {t : Topo} {e : EdgeT} {s : St} {fuel : Nat}
    (hfuel : 1 ≤ fuel) :
    (edge_mark_deleted t fuel e s).edgeDeleted e.eid = true := by
  cases fuel with
  | zero => omega
  | succ k =>
      rw [edge_mark_deleted_succ]
      by_cases hdel : s.edgeDeleted e.eid = true
      · simpa [hdel] using hdel
      · have hfl : (em_pre t e s).edgeDeleted e.eid = true := by
          simp [em_pre_edgeDeleted]
        by_cases hne : nearOne (probability t s e).1 <;>
          simp only [hdel, hne, Bool.false_eq_true, if_false, if_true]
        · exact ((mark_mono t k).2.1 e.src (em_pre t e s)).2.2.2 e.eid hfl
        · exact hfl

theorem inv_nm_final {t : Topo} {X : Finset Nat} {n : Nat} {s4 : St}
    (hI4 : Inv t (insert n X) s4)
    (hincident : ∀ f ∈ t.edges, f.src = n ∨ f.dst = n →
      f.eid ∈ s4.deletedEdges) :
    Inv t (insert n X)
      { s4.updNode n (fun ns => { ns with deleted := true }) with
        deletedNodes := insert n s4.deletedNodes } := by
  have hother : ∀ x, x ≠ n →
      ({ s4.updNode n (fun ns => { ns with deleted := true }) with
        deletedNodes := insert n s4.deletedNodes } : St).node x = s4.node x := by
    intro x hx; simp [St.updNode, hx]
  have hn1 : ({ s4.updNode n (fun ns => { ns with deleted := true }) with
      deletedNodes := insert n s4.deletedNodes } : St).node n =
      { s4.node n with deleted := true } := by
    simp [St.updNode]
  refine ⟨?_, hI4.eflag, hI4.deEdges, ?_, ?_, ?_, ?_, ?_, ?_, ?_, ?_, ?_, ?_⟩
  · intro x
    by_cases hx : x = n
    · rw [hx, hn1]; simp
    · rw [hother x hx]
      simp only [Finset.mem_insert]
      rw [hI4.nflag x]
      exact ⟨fun hm => Or.inr hm, fun hm => hm.elim (fun h1 => absurd h1 hx) id⟩
  · intro x hx f hf hinc
    rcases Finset.mem_insert.mp hx with hx | hx
    · exact hincident f hf (by rw [hx] at hinc; exact hinc)
    · exact hI4.nodeIncident x hx f hf hinc
  · intro f hf hde hor
    rcases hI4.nonOrSrc f hf hde hor with hc | hc
    · exact Or.inl (Finset.mem_insert_of_mem hc)
    · exact Or.inr hc
  · intro x v hv
    by_cases hx : x = n
    · rw [hx] at hv ⊢
      rw [hn1] at hv
      exact hI4.incEW n v hv
    · rw [hother x hx] at hv
      exact hI4.incEW x v hv
  · intro x v hv
    by_cases hx : x = n
    · rw [hx] at hv ⊢
      rw [hn1] at hv
      exact hI4.outEW n v hv
    · rw [hother x hx] at hv
      exact hI4.outEW x v hv
  · intro y hy hdel hnone f hf hsrc
    have hyn : y ≠ n := fun hc => hy (hc ▸ Finset.mem_insert_self _ _)
    rw [hother y hyn] at hdel hnone
    exact hI4.outENone y hy hdel hnone f hf hsrc
  · intro y hy hdel v hv
    have hyn : y ≠ n := fun hc => hy (hc ▸ Finset.mem_insert_self _ _)
    rw [hother y hyn] at hdel hv
    exact hI4.outESome y hy hdel v hv
  · intro x hx
    by_cases hxn : x = n
    · rw [hxn, hn1] at hx ⊢; exact hI4.inTF n hx
    · rw [hother x hxn] at hx ⊢; exact hI4.inTF x hx
  · intro x hx
    by_cases hxn : x = n
    · rw [hxn, hn1] at hx ⊢; exact hI4.outTF n hx
    · rw [hother x hxn] at hx ⊢; exact hI4.outTF x hx
  · intro x hx
    by_cases hxn : x = n
    · rw [hxn, hn1] at hx; rw [hxn]; exact hI4.inTT n hx
    · rw [hother x hxn] at hx; exact hI4.inTT x hx
  · intro x hx
    by_cases hxn : x = n
    · rw [hxn, hn1] at hx; rw [hxn]; exact hI4.outTT n hx
    · rw [hother x hxn] at hx; exact hI4.outTT x hx

/-- The cascading delete preserves the exactness invariant whenever the fuel
dominates the recursion as accounted by the number of live edges, and it
completes: the marked node ends flagged and all of its incident edges end
deleted. -/
theorem mark_inv (t : Topo) (ht : t.WF) : ∀ fuel,
    (∀ X e s, e ∈ t.edges →
      (2 * t.edges.length + 3) * mu t s + 1 ≤ fuel →
      Inv t X s → Inv t X (edge_mark_deleted t fuel e s)) ∧
    (∀ X n s,
      (2 * t.edges.length + 3) * mu t s + 2 * t.edges.length + 2 ≤ fuel →
      Inv t (insert n X) s →
      Inv t (insert n X) (node_mark_deleted t fuel n s) ∧
        ((node_mark_deleted t fuel n s).node n).deleted = true) ∧
    (∀ X l s,
      (2 * t.edges.length + 3) * mu t s + l.length + 1 ≤ fuel →
      Inv t X s →
      Inv t X (edges_mark_deleted t fuel l s) ∧
        ∀ i ∈ l, ∀ f ∈ t.edges, f.eid = i →
          (edges_mark_deleted t fuel l s).edgeDeleted i = true) := by
  intro fuel
  induction fuel with
  | zero =>
      refine ⟨fun X e s _ hf => absurd hf (by omega),
        fun X n s hf => absurd hf (by omega),
        fun X l s hf => absurd hf (by omega)⟩
  | succ k ih =>
      obtain ⟨ihe, ihn, ihl⟩ := ih
      refine ⟨fun X e s he hfuel hI => ?_, fun X n s hfuel hI => ?_,
        fun X l s hfuel hI => ?_⟩
      · rw [edge_mark_deleted_succ]
        by_cases hdel : s.edgeDeleted e.eid = true
        · simpa [hdel] using hI
        · have hlive : s.edgeDeleted e.eid = false := by
            rcases hb : s.edgeDeleted e.eid with _ | _
            · rfl
            · exact absurd hb hdel
          have hmu := mu_em_pre he hlive
          by_cases hne : nearOne (probability t s e).1 <;>
            simp only [hdel, hne, Bool.false_eq_true, if_false, if_true]
          · have hpre : Inv t (insert e.src X) (em_pre t e s) := by
              by_cases hlt : ltOne (probability t s e).1
              · exact (em_pre_inv_lt ht he hlive hI hlt).weaken
                  (Finset.subset_insert _ _)
              · exact em_pre_inv_nlt ht he hlive hI hlt
            have hfuel2 : (2 * t.edges.length + 3) * mu t (em_pre t e s) +
                2 * t.edges.length + 2 ≤ k := by
              have hmul : (2 * t.edges.length + 3) * (mu t (em_pre t e s) + 1) ≤
                  (2 * t.edges.length + 3) * mu t s :=
                Nat.mul_le_mul_left _ hmu
              rw [Nat.mul_succ] at hmul
              omega
            obtain ⟨hI2, hflag2⟩ := ihn X e.src (em_pre t e s) hfuel2 hpre
            exact hI2.drop hflag2
          · have hlt : ltOne (probability t s e).1 :=
              (prob_lt_or_near hI he hlive).resolve_right hne
            exact em_pre_inv_lt ht he hlive hI hlt
      · rw [node_mark_deleted_succ]
        by_cases hdel : (s.node n).deleted = true
        · simp only [hdel, if_true]
          exact ⟨hI, trivial⟩
        · simp only [hdel, Bool.false_eq_true, if_false]
          have hI1 : Inv t (insert n X) (incoming_edges t s n).2 :=
            inv_of_qext (q_incoming_edges t s n) hI
          have hI2 : Inv t (insert n X)
              (outgoing_edges t (incoming_edges t s n).2 n).2 :=
            inv_of_qext (q_outgoing_edges t _ n) hI1
          have hmu1 : mu t (incoming_edges t s n).2 = mu t s :=
            mu_eq_of_qext (q_incoming_edges t s n)
          have hmu2 : mu t (outgoing_edges t (incoming_edges t s n).2 n).2
              = mu t s :=
            (mu_eq_of_qext (q_outgoing_edges t _ n)).trans hmu1
          have hielen : (sortFin (incoming_edges t s n).1).length ≤
              t.edges.length := by
            rw [length_sortFin]
            exact le_trans (Finset.card_le_card (inc_view_bounds hI n).2)
              (rawIncE_card_le t n)
          have hoelen : (sortFin (outgoing_edges t (incoming_edges t s n).2 n).1).length ≤
              t.edges.length := by
            rw [length_sortFin]
            exact le_trans (Finset.card_le_card (out_view_bounds hI1 n).2)
              (rawOutE_card_le t n)
          have hfuel1 : (2 * t.edges.length + 3) *
              mu t (outgoing_edges t (incoming_edges t s n).2 n).2 +
              (sortFin (incoming_edges t s n).1).length + 1 ≤ k := by
            rw [hmu2]; omega
          obtain ⟨hI3, hcomp1⟩ := ihl (insert n X) (sortFin (incoming_edges t s n).1)
            _ hfuel1 hI2
          have hmu3 : mu t (edges_mark_deleted t k (sortFin (incoming_edges t s n).1)
              (outgoing_edges t (incoming_edges t s n).2 n).2) ≤ mu t s := by
            rw [← hmu2]
            exact mu_mono_of_stMono ((mark_mono t k).2.2 _ _)
          have hfuel2 : (2 * t.edges.length + 3) *
              mu t (edges_mark_deleted t k (sortFin (incoming_edges t s n).1)
                (outgoing_edges t (incoming_edges t s n).2 n).2) +
              (sortFin (outgoing_edges t (incoming_edges t s n).2 n).1).length + 1 ≤ k := by
            have hmul : (2 * t.edges.length + 3) *
                mu t (edges_mark_deleted t k (sortFin (incoming_edges t s n).1)
                  (outgoing_edges t (incoming_edges t s n).2 n).2) ≤
                (2 * t.edges.length + 3) * mu t s :=
              Nat.mul_le_mul_left _ hmu3
            omega
          obtain ⟨hI4, hcomp2⟩ := ihl (insert n X)
            (sortFin (outgoing_edges t (incoming_edges t s n).2 n).1) _ hfuel2 hI3
          have hDEs2 : (outgoing_edges t (incoming_edges t s n).2 n).2.deletedEdges
              = s.deletedEdges :=
            ((q_outgoing_edges t _ n).2.1).trans ((q_incoming_edges t s n).2.1)
          have hDEmono1 : (outgoing_edges t (incoming_edges t s n).2 n).2.deletedEdges ⊆
              (edges_mark_deleted t k (sortFin (incoming_edges t s n).1)
                (outgoing_edges t (incoming_edges t s n).2 n).2).deletedEdges :=
            ((mark_mono t k).2.2 _ _).2.1
          have hDEmono2 : (edges_mark_deleted t k (sortFin (incoming_edges t s n).1)
                (outgoing_edges t (incoming_edges t s n).2 n).2).deletedEdges ⊆
              (edges_mark_deleted t k
                (sortFin (outgoing_edges t (incoming_edges t s n).2 n).1)
                (edges_mark_deleted t k (sortFin (incoming_edges t s n).1)
                  (outgoing_edges t (incoming_edges t s n).2 n).2)).deletedEdges :=
            ((mark_mono t k).2.2 _ _).2.1
          have hincident : ∀ f ∈ t.edges, f.src = n ∨ f.dst = n →
              f.eid ∈ (edges_mark_deleted t k
                (sortFin (outgoing_edges t (incoming_edges t s n).2 n).1)
                (edges_mark_deleted t k (sortFin (incoming_edges t s n).1)
                  (outgoing_edges t (incoming_edges t s n).2 n).2)).deletedEdges := by
            intro f hf hinc
            by_cases hfs : f.eid ∈ s.deletedEdges
            · exact hDEmono2 (hDEmono1 (hDEs2 ▸ hfs))
            · rcases hinc with hsrc | hdst
              · have hmem : f.eid ∈ (outgoing_edges t (incoming_edges t s n).2 n).1 := by
                  refine (out_view_bounds hI1 n).1 (Finset.mem_sdiff.mpr ⟨?_, ?_⟩)
                  · exact mem_rawOutE.mpr ⟨f, hf, hsrc, rfl⟩
                  · rw [(q_incoming_edges t s n).2.1]
                    exact hfs
                have hflag := hcomp2 f.eid (mem_sortFin.mpr hmem) f hf rfl
                exact (hI4.eflag f.eid).mp hflag
              · have hmem : f.eid ∈ (incoming_edges t s n).1 := by
                  refine (inc_view_bounds hI n).1 (Finset.mem_sdiff.mpr ⟨?_, ?_⟩)
                  · exact mem_rawIncE.mpr ⟨f, hf, hdst, rfl⟩
                  · exact hfs
                have hflag := hcomp1 f.eid (mem_sortFin.mpr hmem) f hf rfl
                have hflag2 := ((mark_mono t k).2.2
                  (sortFin (outgoing_edges t (incoming_edges t s n).2 n).1) _).2.2.2
                  f.eid hflag
                exact (hI4.eflag f.eid).mp hflag2
          refine ⟨inv_nm_final hI4 hincident, ?_⟩
          simp [St.updNode]
      · cases l with
        | nil =>
            refine ⟨by simpa [edges_mark_deleted] using hI, ?_⟩
            intro i hi
            cases hi
        | cons i rest =>
            rw [edges_mark_deleted]
            rcases hE : t.edge? i with _ | f <;> simp only
            · have hfuel2 : (2 * t.edges.length + 3) * mu t s + rest.length + 1 ≤ k := by
                simp only [List.length_cons] at hfuel
                omega
              obtain ⟨hI2, hcomp⟩ := ihl X rest s hfuel2 hI
              refine ⟨hI2, ?_⟩
              intro j hj f hf hfe
              rcases List.mem_cons.mp hj with hj | hj
              · exfalso
                rw [hj] at hfe
                rw [edge?_eq_some ht hf hfe] at hE
                cases hE
              · exact hcomp j hj f hf hfe
            · have hfmem : f ∈ t.edges := List.mem_of_find?_eq_some hE
              have hfuelE : (2 * t.edges.length + 3) * mu t s + 1 ≤ k := by
                simp only [List.length_cons] at hfuel
                omega
              have hIe : Inv t X (edge_mark_deleted t k f s) :=
                ihe X f s hfmem hfuelE hI
              have hmuE : mu t (edge_mark_deleted t k f s) ≤ mu t s :=
                mu_mono_of_stMono ((mark_mono t k).1 f s)
              have hfuelR : (2 * t.edges.length + 3) *
                  mu t (edge_mark_deleted t k f s) + rest.length + 1 ≤ k := by
                have hmul : (2 * t.edges.length + 3) *
                    mu t (edge_mark_deleted t k f s) ≤
                    (2 * t.edges.length + 3) * mu t s :=
                  Nat.mul_le_mul_left _ hmuE
                simp only [List.length_cons] at hfuel
                omega
              obtain ⟨hI2, hcomp⟩ := ihl X rest _ hfuelR hIe
              refine ⟨hI2, ?_⟩
              intro j hj g hg hge
              rcases List.mem_cons.mp hj with hj | hj
              · have hfeid : f.eid = i := by
                  have := List.find?_some hE
                  simpa using this
                have hkpos : 1 ≤ k := by
                  simp only [List.length_cons] at hfuel
                  omega
                have hfl : (edge_mark_deleted t k f s).edgeDeleted j = true := by
                  rw [hj, ← hfeid]
                  exact em_flag_set hkpos
                exact ((mark_mono t k).2.2 rest _).2.2.2 j hfl
              · exact hcomp j hj g hg hge
/-- The API fuel `fuelOf` dominates the cascade's fuel accounting on every
state. -/
theorem fuelOf_nm_bound (t : Topo) (s : St) :
    (2 * t.edges.length + 3) * mu t s + 2 * t.edges.length + 2 ≤ fuelOf t := by
  have hmu : mu t s ≤ t.edges.length := List.length_filter_le _ _
  have h1 : (2 * t.edges.length + 3) * mu t s ≤
      (2 * t.edges.length + 3) * t.edges.length :=
    Nat.mul_le_mul_left _ hmu
  have h2 : (t.edges.length + 2) ^ 3 ≤
      (t.nodeIds.card + t.edges.length + 2) ^ 3 :=
    Nat.pow_le_pow_left (by omega) 3
  have h3 : (t.edges.length + 2) ^ 3 =
      t.edges.length * t.edges.length * t.edges.length +
      6 * (t.edges.length * t.edges.length) + 12 * t.edges.length + 8 := by
    ring
  have h4 : (2 * t.edges.length + 3) * t.edges.length =
      2 * (t.edges.length * t.edges.length) + 3 * t.edges.length := by
    ring
  unfold fuelOf
  omega

theorem inv_node_mark_api {t : Topo} {s : St} (ht : t.WF) (n : Nat)
    (hI : Inv t ∅ s) : Inv t ∅ (node_mark_deleted t (fuelOf t) n s) := by
  obtain ⟨hI2, hflag⟩ := (mark_inv t ht (fuelOf t)).2.1 ∅ n s
    (fuelOf_nm_bound t s) (hI.weaken (Finset.empty_subset _))
  exact hI2.drop hflag

theorem inv_edge_mark_api {t : Topo} {s : St} {e : EdgeT} (ht : t.WF)
    (he : e ∈ t.edges) (hI : Inv t ∅ s) :
    Inv t ∅ (edge_mark_deleted t (fuelOf t) e s) := by
  refine (mark_inv t ht (fuelOf t)).1 ∅ e s he ?_ hI
  have := fuelOf_nm_bound t s
  omega

theorem inv_member_mark_api {t : Topo} {s : St} (ht : t.WF) (m : GMember)
    (hI : Inv t ∅ s) : Inv t ∅ (member_mark_deleted t (fuelOf t) m s) := by
  unfold member_mark_deleted
  split
  · exact inv_node_mark_api ht m.mid hI
  · split
    · exact inv_edge_mark_api ht (List.mem_of_find?_eq_some (by assumption)) hI
    · exact hI

theorem inv_mark_members_api {t : Topo} (ht : t.WF) (gid : Nat) :
    ∀ (ms : List GMember) (s : St), Inv t ∅ s →
      Inv t ∅ (mark_members_deleted t gid (fuelOf t) ms s).1 := by
  intro ms
  induction ms with
  | nil => intro s h; exact h
  | cons m rest ih =>
      intro s h
      rw [mark_members_deleted]
      split
      · exact h
      · exact ih _ (inv_member_mark_api ht m h)

/-- `unmark_deleted` re-establishes the exactness invariant outright. -/
theorem inv_unmark {t : Topo} {s : St} (ht : t.WF) (hI : Inv t ∅ s) :
    Inv t ∅ (unmark_deleted t s) := by
  obtain ⟨hDN, hDE, hdel, hflag, htch, hviews⟩ := unmark_clean ht hI.toUInv
  refine ⟨?_, ?_, ?_, ?_, ?_, ?_, ?_, ?_, ?_, ?_, ?_, ?_, ?_⟩
  · intro x
    rw [hdel x, hDN]
    simp
  · intro i
    rw [hflag i, hDE]
    simp
  · intro i hi
    rw [hDE] at hi
    cases hi
  · intro x hx
    rw [hDN] at hx
    cases hx
  · intro e he hmem
    rw [hDE] at hmem
    cases hmem
  · intro x v hv
    rcases (hviews x).1 with h0 | h0
    · rw [h0] at hv; cases hv
    · rw [h0] at hv
      cases hv
      exact ⟨Finset.sdiff_subset, subset_rfl⟩
  · intro x v hv
    rcases (hviews x).2.2.1 with h0 | h0
    · rw [h0] at hv; cases hv
    · rw [h0] at hv
      cases hv
      exact ⟨Finset.sdiff_subset, subset_rfl⟩
  · intro x hx hdel2 hnone f hf hsrc
    rw [hDE]
    simp
  · intro x hx hdel2 v hv
    rcases (hviews x).2.2.1 with h0 | h0
    · rw [h0] at hv; cases hv
    · rw [h0] at hv
      cases hv
      rw [hDE, Finset.sdiff_empty]
  · intro x hx
    exact ⟨(hviews x).1, (hviews x).2.1⟩
  · intro x hx
    exact ⟨(hviews x).2.2.1, (hviews x).2.2.2⟩
  · intro x hx
    rw [(htch x).1] at hx
    cases hx
  · intro x hx
    rw [(htch x).2] at hx
    cases hx

/-!  ## Reachable states

States reachable from the frozen graph by the mark-level API
(`Edge.mark_deleted`, `Node.mark_deleted`, `Graph.mark_members_deleted`),
`Graph.unmark_deleted` and the read-only queries, each invoked with the
generous API fuel. -/

inductive Reachable (t : Topo) : St → Prop
  | init : Reachable t St.init
  | medge {s : St} (e : EdgeT) : Reachable t s → e ∈ t.edges →
      Reachable t (edge_mark_deleted t (fuelOf t) e s)
  | mnode {s : St} (n : Nat) : Reachable t s →
      Reachable t (node_mark_deleted t (fuelOf t) n s)
  | mmembers {s : St} (gid : Nat) (ms : List GMember) : Reachable t s →
      Reachable t (mark_members_deleted t gid (fuelOf t) ms s).1
  | munmark {s : St} : Reachable t s → Reachable t (unmark_deleted t s)
  | qIncE {s : St} (n : Nat) : Reachable t s →
      Reachable t (incoming_edges t s n).2
  | qIncN {s : St} (n : Nat) : Reachable t s →
      Reachable t (incoming_nodes t s n).2
  | qOutE {s : St} (n : Nat) : Reachable t s →
      Reachable t (outgoing_edges t s n).2
  | qOutN {s : St} (n : Nat) : Reachable t s →
      Reachable t (outgoing_nodes t s n).2
  | qProb {s : St} (e : EdgeT) : Reachable t s →
      Reachable t (probability t s e).2
  | qOnr {s : St} (n : Nat) : Reachable t s →
      Reachable t (outgoing_nodes_recursive t (fuelOf t) n s).2
  | qInCycle {s : St} (n : Nat) : Reachable t s →
      Reachable t (in_cycle t (fuelOf t) n s).2
  | qCycleNodes {s : St} (n : Nat) : Reachable t s →
      Reachable t (cycle_nodes t (fuelOf t) n s).2
  | qIncCycleNodes {s : St} (n : Nat) : Reachable t s →
      Reachable t (incoming_cycle_nodes t (fuelOf t) n s).2
  | qLeafs {s : St} : Reachable t s → Reachable t (leafs t (fuelOf t) s).2
  | qLeafsFlat {s : St} : Reachable t s →
      Reachable t (leafs_flat t (fuelOf t) s).2

/-- Every reachable state satisfies the exactness invariant with no excepted
nodes. -/
theorem reachable_inv {t : Topo} {s : St} (ht : t.WF) (h : Reachable t s) :
    Inv t ∅ s := by
  induction h with
  | init => exact inv_init t ∅
  | medge e hr he ih => exact inv_edge_mark_api ht he ih
  | mnode n hr ih => exact inv_node_mark_api ht n ih
  | mmembers gid ms hr ih => exact inv_mark_members_api ht gid ms _ ih
  | munmark hr ih => exact inv_unmark ht ih
  | qIncE n hr ih => exact inv_of_qext (q_incoming_edges t _ n) ih
  | qIncN n hr ih => exact inv_of_qext (q_incoming_nodes t _ n) ih
  | qOutE n hr ih => exact inv_of_qext (q_outgoing_edges t _ n) ih
  | qOutN n hr ih => exact inv_of_qext (q_outgoing_nodes t _ n) ih
  | qProb e hr ih => exact inv_of_qext (q_probability t _ e) ih
  | qOnr n hr ih => exact inv_of_qext (q_outgoing_nodes_recursive t _ n _) ih
  | qInCycle n hr ih => exact inv_of_qext (q_in_cycle t _ n _) ih
  | qCycleNodes n hr ih => exact inv_of_qext (q_cycle_nodes t _ n _) ih
  | qIncCycleNodes n hr ih => exact inv_of_qext (q_incoming_cycle_nodes t _ n _) ih
  | qLeafs hr ih => exact inv_of_qext (q_leafs t _ _) ih
  | qLeafsFlat hr ih => exact inv_of_qext (q_leafs_flat t _ _) ih

/-- Spec-side notion: the live outgoing edges of a node are its frozen
outgoing edges minus the deleted ones. -/
def liveOutgoingEdges (t : Topo) (s : St) (n : Nat) : Finset Nat :=
  t.rawOutE n \ s.deletedEdges

/-- C5.  In every reachable state, a live OrEdge's probability equals
`1 / #(live outgoing edges of its from-node)`; in particular, when every
sibling but the edge itself has been deleted the probability is exactly
`1.0`, hence within `ε = 1e-5` of `1.0`. -/
theorem c5_or_edge_probability (t : Topo) (s : St) (e : EdgeT) (ht : t.WF)
    (hr : Reachable t s) (he : e ∈ t.edges) (hor : e.isOr = true)
    (hlive : s.edgeDeleted e.eid = false) :
    (probability t s e).1 = 1 / ((liveOutgoingEdges t s e.src).card : ℚ) ∧
    (liveOutgoingEdges t s e.src = {e.eid} →
      (probability t s e).1 = 1 ∧ nearOne (probability t s e).1) := by
  have hI := reachable_inv ht hr
  have hcard : (probability t s e).1
      = oneOver ((liveOutgoingEdges t s e.src).card) :=
    prob_live_card hI (Finset.not_mem_empty _) he hlive hor
  have hmem : e.eid ∈ liveOutgoingEdges t s e.src := by
    refine Finset.mem_sdiff.mpr ⟨mem_rawOutE.mpr ⟨e, he, rfl, rfl⟩, ?_⟩
    intro hc
    rw [(hI.eflag e.eid).mpr hc] at hlive
    cases hlive
  have hk : (liveOutgoingEdges t s e.src).card ≠ 0 := by
    intro h0
    rw [Finset.card_eq_zero] at h0
    rw [h0] at hmem
    exact absurd hmem (Finset.not_mem_empty _)
  refine ⟨by rw [hcard, oneOver_eq hk], ?_⟩
  intro hsing
  have hc1 : (liveOutgoingEdges t s e.src).card = 1 := by
    rw [hsing]
    exact Finset.card_singleton _
  constructor
  · rw [hcard, hc1, oneOver_one]
  · rw [hcard, hc1, oneOver_one]
    exact nearOne_one

/-- C5 witness: on the two-parallel-OrEdge graph after deleting `e1`, the
surviving OrEdge `e2` has probability `1 / 1 = 1.0`. -/
theorem c5_or_edge_probability_witness :
    (probability parallelOrTopo parallelOrSt ⟨2, 1, 2, true⟩).1 =
      1 / ((liveOutgoingEdges parallelOrTopo parallelOrSt 1).card : ℚ) ∧
    (liveOutgoingEdges parallelOrTopo parallelOrSt 1 = {2} →
      (probability parallelOrTopo parallelOrSt ⟨2, 1, 2, true⟩).1 = 1 ∧
      nearOne (probability parallelOrTopo parallelOrSt ⟨2, 1, 2, true⟩).1) :=
  c5_or_edge_probability parallelOrTopo parallelOrSt ⟨2, 1, 2, true⟩
    (by decide)
    (Reachable.medge ⟨1, 1, 2, true⟩ Reachable.init (by decide))
    (by decide) (by decide) (by decide)

/-- C6.  On a reachable state, deleting a live edge marks its from-node
deleted iff the probability read at the start of the call is within
`ε = 1e-5` of `1.0`; the cascade then deletes every incident edge of the
from-node; and when the edge is an OrEdge with at least one live sibling on
the same from-node, the from-node survives the call. -/
theorem c6_cascade_iff_prob_one (t : Topo) (s : St) (e : EdgeT) (ht : t.WF)
    (hr : Reachable t s) (he : e ∈ t.edges)
    (hlive : s.edgeDeleted e.eid = false) :
    (((edge_mark_deleted t (fuelOf t) e s).node e.src).deleted = true ↔
      nearOne (probability t s e).1) ∧
    (nearOne (probability t s e).1 →
      ∀ f ∈ t.edges, f.src = e.src ∨ f.dst = e.src →
        (edge_mark_deleted t (fuelOf t) e s).edgeDeleted f.eid = true) ∧
    (e.isOr = true →
      ∀ f ∈ t.edges, f.eid ≠ e.eid → f.src = e.src →
        s.edgeDeleted f.eid = false →
        ((edge_mark_deleted t (fuelOf t) e s).node e.src).deleted = false) := by
  have hI := reachable_inv ht hr
  have hsrclive : (s.node e.src).deleted = false := src_live hI he hlive
  have hpos : 0 < fuelOf t := pow_pos (by omega) 3
  obtain ⟨k, hk⟩ : ∃ k, fuelOf t = k + 1 := ⟨fuelOf t - 1, by omega⟩
  have hk1 : 1 ≤ k := by
    have h8 : 8 ≤ fuelOf t := by
      have h2 : 2 ^ 3 ≤ (t.nodeIds.card + t.edges.length + 2) ^ 3 :=
        Nat.pow_le_pow_left (by omega) 3
      simpa [fuelOf] using h2
    omega
  have hflag_iff :
      ((edge_mark_deleted t (fuelOf t) e s).node e.src).deleted = true ↔
      nearOne (probability t s e).1 := by
    constructor
    · intro hfl
      by_contra hne
      rw [hk, edge_mark_deleted_succ] at hfl
      simp only [hlive, Bool.false_eq_true, if_false, hne, if_true] at hfl
      rw [em_pre_node_deleted] at hfl
      rw [hsrclive] at hfl
      cases hfl
    · intro hne
      rw [hk, edge_mark_deleted_succ]
      simp only [hlive, Bool.false_eq_true, if_false, hne, if_true]
      exact node_mark_deleted_flag t k e.src (em_pre t e s) hk1
  refine ⟨hflag_iff, ?_, ?_⟩
  · intro hne f hf hinc
    have hIpost : Inv t ∅ (edge_mark_deleted t (fuelOf t) e s) :=
      inv_edge_mark_api ht he hI
    have hsrc : e.src ∈ (edge_mark_deleted t (fuelOf t) e s).deletedNodes :=
      (hIpost.nflag e.src).mp (hflag_iff.mpr hne)
    exact (hIpost.eflag f.eid).mpr (hIpost.nodeIncident e.src hsrc f hf hinc)
  · intro hor2 f hf hfe hfs hflive
    have hpair : ({e.eid, f.eid} : Finset Nat) ⊆ liveOutgoingEdges t s e.src := by
      intro j hj
      rcases Finset.mem_insert.mp hj with hj | hj
      · rw [hj]
        refine Finset.mem_sdiff.mpr ⟨mem_rawOutE.mpr ⟨e, he, rfl, rfl⟩, ?_⟩
        intro hc
        rw [(hI.eflag e.eid).mpr hc] at hlive
        cases hlive
      · rw [Finset.mem_singleton.mp hj]
        refine Finset.mem_sdiff.mpr ⟨mem_rawOutE.mpr ⟨f, hf, hfs, rfl⟩, ?_⟩
        intro hc
        rw [(hI.eflag f.eid).mpr hc] at hflive
        cases hflive
    have hcard2 : 2 ≤ (liveOutgoingEdges t s e.src).card := by
      have hpc : ({e.eid, f.eid} : Finset Nat).card = 2 := by
        rw [Finset.card_insert_of_not_mem (by simpa using fun hc => hfe hc.symm)]
        simp
      calc 2 = ({e.eid, f.eid} : Finset Nat).card := hpc.symm
        _ ≤ (liveOutgoingEdges t s e.src).card := Finset.card_le_card hpair
    have hprob : (probability t s e).1
        = oneOver ((liveOutgoingEdges t s e.src).card) :=
      prob_live_card hI (Finset.not_mem_empty _) he hlive hor2
    have hnn : ¬ nearOne (probability t s e).1 := by
      rw [hprob]
      exact not_nearOne_oneOver hcard2
    rcases hb : ((edge_mark_deleted t (fuelOf t) e s).node e.src).deleted with _ | _
    · rfl
    · exact absurd (hflag_iff.mp hb) hnn

/-- C6 witness: on the pristine two-parallel-OrEdge graph, deleting `e1`
(probability `1/2`) does not delete the from-node `n1`, and the live sibling
`e2` certifies the no-cascade clause. -/
theorem c6_cascade_iff_prob_one_witness :
    (((edge_mark_deleted parallelOrTopo (fuelOf parallelOrTopo) ⟨1, 1, 2, true⟩
        St.init).node 1).deleted = true ↔
      nearOne (probability parallelOrTopo St.init ⟨1, 1, 2, true⟩).1) ∧
    (nearOne (probability parallelOrTopo St.init ⟨1, 1, 2, true⟩).1 →
      ∀ f ∈ parallelOrTopo.edges, f.src = 1 ∨ f.dst = 1 →
        (edge_mark_deleted parallelOrTopo (fuelOf parallelOrTopo) ⟨1, 1, 2, true⟩
          St.init).edgeDeleted f.eid = true) ∧
    ((⟨1, 1, 2, true⟩ : EdgeT).isOr = true →
      ∀ f ∈ parallelOrTopo.edges, f.eid ≠ 1 → f.src = 1 →
        St.init.edgeDeleted f.eid = false →
        ((edge_mark_deleted parallelOrTopo (fuelOf parallelOrTopo) ⟨1, 1, 2, true⟩
          St.init).node 1).deleted = false) :=
  c6_cascade_iff_prob_one parallelOrTopo St.init ⟨1, 1, 2, true⟩
    (by decide) Reachable.init (by decide) (by decide)

/-!  ## C2: what `mark_members_including_obsolete_deleted` does guarantee -/

theorem stMono_foldl_nm (t : Topo) (fuel : Nat) :
    ∀ (l : List Nat) (s : St),
      StMono s (l.foldl (fun acc m => node_mark_deleted t fuel m acc) s) := by
  intro l
  induction l with
  | nil => intro s; exact stMono_refl s
  | cons a rest ih =>
      intro s
      exact stMono_trans ((mark_mono t fuel).2.1 a s) (ih _)

theorem mmiod_foldl_flag (t : Topo) (fuel : Nat) (hf : 1 ≤ fuel) :
    ∀ (l : List Nat) (s : St) (m : Nat), m ∈ l →
      ((l.foldl (fun acc m2 => node_mark_deleted t fuel m2 acc) s).node m).deleted
        = true := by
  intro l
  induction l with
  | nil => intro s m hm; cases hm
  | cons a rest ih =>
      intro s m hm
      rw [List.foldl_cons]
      rcases List.mem_cons.mp hm with hm | hm
      · refine (stMono_foldl_nm t fuel rest _).2.2.1 m ?_
        rw [hm]
        exact node_mark_deleted_flag t fuel a s hf
      · exact ih _ m hm

theorem mmiod_loop_mono (t : Topo) :
    ∀ (fuel : Nat) (tp prev : Finset Nat) (s : St),
      StMono s (mmiod_loop t fuel tp prev s) := by
  intro fuel
  induction fuel with
  | zero => intro tp prev s; exact stMono_refl s
  | succ k ih =>
      intro tp prev s
      rw [mmiod_loop]
      split
      · exact stMono_refl s
      · exact stMono_trans (stMono_trans (stMono_foldl_nm t k (sortFin tp) s)
          (qext_stMono (q_mmiod_candidates t _ k _ ∅ _))) (ih _ _ _)

/-- C2 amended.  A successful `mark_members_including_obsolete_deleted(S)`
call marks every given member deleted (the original claim — that afterwards
every surviving node retains a live raw incoming node — is refuted by the
spec's own S3 example, where the surviving `n3` has no raw incoming node at
all: the propagation only ever examines nodes downstream of actual
deletions). -/
theorem c2_mmiod_deletes_all_members (t : Topo) (gid : Nat)
    (ms : List (Nat × Nat)) (s : St)
    (hok : (mark_members_including_obsolete_deleted t gid (fuelOf t) ms s).2
      = none) :
    ∀ m ∈ ms,
      (((mark_members_including_obsolete_deleted t gid (fuelOf t) ms s).1).node
        m.1).deleted = true := by
  intro m hm
  rcases hall : ms.all (fun m2 => m2.2 = gid) with _ | _
  · exfalso
    simp only [mark_members_including_obsolete_deleted, hall] at hok
    cases hok
  · simp only [mark_members_including_obsolete_deleted, hall, if_true]
    have hpos : 0 < fuelOf t := pow_pos (by omega) 3
    obtain ⟨k, hk⟩ : ∃ k, fuelOf t = k + 1 := ⟨fuelOf t - 1, by omega⟩
    have hk1 : 1 ≤ k := by
      have h8 : 8 ≤ fuelOf t := by
        have h2 : 2 ^ 3 ≤ (t.nodeIds.card + t.edges.length + 2) ^ 3 :=
          Nat.pow_le_pow_left (by omega) 3
        simpa [fuelOf] using h2
      omega
    have hmem : m.1 ∈ (ms.map (fun m2 => m2.1)).toFinset := by
      rw [List.mem_toFinset, List.mem_map]
      exact ⟨m, hm, rfl⟩
    rw [hk, mmiod_loop]
    split
    · rename_i h0
      rw [h0] at hmem
      cases hmem
    · refine (mmiod_loop_mono t k _ _ _).2.2.1 m.1 ?_
      refine (qext_stMono (q_mmiod_candidates t _ k _ ∅ _)).2.2.1 m.1 ?_
      exact mmiod_foldl_flag t k hk1 _ s m.1 (mem_sortFin.mpr hmem)

/-- C2 amended witness: the S3 run of the docstring example succeeds and
deletes both of its given members `n1` and `n2`. -/
theorem c2_mmiod_deletes_all_members_witness :
    (mark_members_including_obsolete_deleted s3topo 0 (fuelOf s3topo)
      [(1, 0), (2, 0)] St.init).2 = none ∧
    (((mark_members_including_obsolete_deleted s3topo 0 (fuelOf s3topo)
      [(1, 0), (2, 0)] St.init).1).node 1).deleted = true ∧
    (((mark_members_including_obsolete_deleted s3topo 0 (fuelOf s3topo)
      [(1, 0), (2, 0)] St.init).1).node 2).deleted = true :=
  ⟨by decide,
    c2_mmiod_deletes_all_members s3topo 0 [(1, 0), (2, 0)] St.init (by decide)
      (1, 0) (by decide),
    c2_mmiod_deletes_all_members s3topo 0 [(1, 0), (2, 0)] St.init (by decide)
      (2, 0) (by decide)⟩

end Purgatory
